import Mathlib

/-! Cache hierarchy simulator (`sim.cpp`): embedding and verified properties

The C++ program simulates a set-associative, write-back, write-allocate L1 cache
with an optional L2 beneath it, under LRU replacement.

Modelling conventions
* `uint32_t` values are natural numbers; the one place where the source can wrap
  (the victim address of a write-back) is reduced modulo `2 ^ 32` explicitly.
* `int` configuration values are integers; where the source mixes them with
  `uint32_t` operands they are converted with `toU32` as C++ does.
* the statistics counters are integers that only ever grow by one; their (undefined) signed
  overflow after more than `2 ^ 31` events is not modelled.
* line indices (`int` loop indices and the entries of `lruOrder`) are natural numbers.
* every operation whose C++ behaviour is undefined (division by zero, an index past the end
  of a vector, `back()` of an empty vector) or that throws (`resize` with a negative
  count) yields `none`.
* the by-reference counter parameters and the `nextLevel` pointer are passed in and
  returned explicitly; the global `l2Size` is an explicit parameter.
* `float` values are rationals: a conversion to `float` or a division in `float` is the exact
  result rounded to binary32 (IEEE 754, round to nearest, ties to even); a result that is an
  infinity or a NaN is `none`. The decimal formatting done by `printf` is not modelled.
-/

namespace CacheSim

/-! ## Data model -/

/-- Value of an `int` after the usual arithmetic conversion to `uint32_t`. -/
def toU32 (x : Int) : Nat := (x % 4294967296).toNat

/-- Model of `struct CacheBlock`. -/
structure CacheBlock where
  valid : Bool
  dirty : Bool
  tag : Nat
deriving DecidableEq, Repr

/-- Model of `struct CacheSet`. -/
structure CacheSet where
  blocks : List CacheBlock
  lruOrder : List Nat
deriving DecidableEq, Repr

/-- The private data members of `class Cache`. -/
structure Cache where
  size : Int
  associativity : Int
  blockSize : Int
  numSets : Int
  sets : List CacheSet
deriving DecidableEq, Repr

/-- The seven counters that `Cache::access` receives by reference. -/
structure Counters where
  memoryTraffic : Int
  l1Writebacks : Int
  l2Writes : Int
  l2Reads : Int
  l2ReadMisses : Int
  l2Writebacks : Int
  l2WriteMisses : Int
deriving DecidableEq, Repr

/-- A value-initialised `CacheBlock`, as produced by `vector::resize` and lines 33-34. -/
def CacheBlock.empty : CacheBlock := ⟨false, false, 0⟩

/-- Whether an integer is representable as a 32-bit `int`. -/
def inInt32 (x : Int) : Prop := -2147483648 ≤ x ∧ x < 2147483648

instance (x : Int) : Decidable (inInt32 x) := by
  unfold inInt32; exact inferInstance

/-- The constructor `Cache::Cache` (lines 24-37). The result is `none` when line 26 divides by
zero or overflows, or when a `resize` is given a negative count. -/
def Cache.new (size associativity blockSize : Int) : Option Cache :=
  if ¬ inInt32 (associativity * blockSize) then none
  else if associativity * blockSize = 0 then none
  else
    let numSets := Int.tdiv size (associativity * blockSize)
    if ¬ inInt32 numSets then none
    else if numSets < 0 then none
    else if 0 < numSets ∧ associativity < 0 then none
    else some
      { size := size
        associativity := associativity
        blockSize := blockSize
        numSets := numSets
        sets := List.replicate numSets.toNat
          { blocks := List.replicate associativity.toNat CacheBlock.empty
            lruOrder := List.range associativity.toNat } }

/-! ## `Cache::updateLRU` -/

/-- The method `Cache::updateLRU` (lines 145-149): erase the first occurrence of the index, if
any, and insert the index at the front. -/
def updateLRU (set : CacheSet) (accessedIndex : Nat) : CacheSet :=
  { set with lruOrder := accessedIndex :: set.lruOrder.erase accessedIndex }

/-! ## `Cache::access` -/

/-- The tag-matching loop of lines 67-73, started at index `i` with `n` iterations left.
`some (some i)` is the first matching index, `some none` means the loop ran to its end,
`none` means an index past the end of `blocks` was read. -/
def findHit (blocks : List CacheBlock) (tag : Nat) : Nat → Nat → Option (Option Nat)
  | 0, _ => some none
  | n + 1, i =>
    match blocks[i]? with
    | none => none
    | some b =>
      if b.valid && b.tag == tag then some (some i)
      else findHit blocks tag n (i + 1)

/-- Line 69: set the dirty flag of line `i`. -/
def markDirty (set : CacheSet) (i : Nat) : CacheSet :=
  { set with blocks := set.blocks.modify (fun b => { b with dirty := true }) i }

/-- The method `Cache::access` (lines 58-108) called with `nextLevel == nullptr`, which is how
both recursive calls (lines 95 and 117) invoke it. Returns the hit flag, the cache afterwards
and the counters afterwards. -/
def Cache.accessLast (l2Size : Int) (c : Cache) (address : Nat) (isWrite : Bool)
    (k : Counters) : Option (Bool × Cache × Counters) :=
  if toU32 c.blockSize = 0 ∨ toU32 c.numSets = 0 then none
  else
    let blockAddress := address / toU32 c.blockSize
    let setIndex := blockAddress % toU32 c.numSets
    let tag := blockAddress / toU32 c.numSets
    match c.sets[setIndex]? with
    | none => none
    | some set =>
      match findHit set.blocks tag c.associativity.toNat 0 with
      | none => none
      | some (some i) =>
        let set1 := if isWrite then markDirty set i else set
        some (true, { c with sets := c.sets.set setIndex (updateLRU set1 i) }, k)
      | some none =>
        match set.lruOrder.getLast? with
        | none => none
        | some victimIndex =>
          match set.blocks[victimIndex]? with
          | none => none
          | some victimBlock =>
            let k1 :=
              if victimBlock.valid && victimBlock.dirty then
                let k0 :=
                  if l2Size = 0 then { k with l1Writebacks := k.l1Writebacks + 1 }
                  else { k with l2Writebacks := k.l2Writebacks + 1 }
                { k0 with memoryTraffic := k0.memoryTraffic + 1 }
              else k
            let k2 := { k1 with memoryTraffic := k1.memoryTraffic + 1 }
            let set2 := { set with blocks := set.blocks.set victimIndex ⟨true, isWrite, tag⟩ }
            some (false, { c with sets := c.sets.set setIndex (updateLRU set2 victimIndex) }, k2)

/-- The method `Cache::writeBack` (lines 110-124). It reads no member of its own object. Returns
the next level afterwards and the counters afterwards. -/
def Cache.writeBack (l2Size : Int) (address : Nat) (nextLevel : Option Cache) (k : Counters) :
    Option (Option Cache × Counters) :=
  match nextLevel with
  | some n =>
    let k1 := { k with l2Writes := k.l2Writes + 1 }
    let k2 := { k1 with l1Writebacks := k1.l1Writebacks + 1 }
    match n.accessLast l2Size address true k2 with
    | none => none
    | some (l2Hit, n1, k3) =>
      some (some n1, if !l2Hit then { k3 with l2WriteMisses := k3.l2WriteMisses + 1 } else k3)
  | none => some (none, { k with memoryTraffic := k.memoryTraffic + 1 })

/-- The method `Cache::access` (lines 58-108) for an arbitrary `nextLevel`. Returns the hit
flag, this cache afterwards, the next level afterwards and the counters afterwards. -/
def Cache.access (l2Size : Int) (c : Cache) (address : Nat) (isWrite : Bool)
    (nextLevel : Option Cache) (k : Counters) : Option (Bool × Cache × Option Cache × Counters) :=
  match nextLevel with
  | none =>
    match c.accessLast l2Size address isWrite k with
    | none => none
    | some (hit, c1, k1) => some (hit, c1, none, k1)
  | some n =>
    if toU32 c.blockSize = 0 ∨ toU32 c.numSets = 0 then none
    else
      let blockAddress := address / toU32 c.blockSize
      let setIndex := blockAddress % toU32 c.numSets
      let tag := blockAddress / toU32 c.numSets
      match c.sets[setIndex]? with
      | none => none
      | some set =>
        match findHit set.blocks tag c.associativity.toNat 0 with
        | none => none
        | some (some i) =>
          let set1 := if isWrite then markDirty set i else set
          some (true, { c with sets := c.sets.set setIndex (updateLRU set1 i) }, some n, k)
        | some none =>
          match set.lruOrder.getLast? with
          | none => none
          | some victimIndex =>
            match set.blocks[victimIndex]? with
            | none => none
            | some victimBlock =>
              let afterWriteBack : Option (Option Cache × Counters) :=
                if victimBlock.valid && victimBlock.dirty then
                  let victimAddress :=
                    ((victimBlock.tag * toU32 c.numSets + setIndex) * toU32 c.blockSize)
                      % 4294967296
                  Cache.writeBack l2Size victimAddress (some n) k
                else some (some n, k)
              match afterWriteBack with
              | none => none
              | some (none, _) => none
              | some (some n1, k1) =>
                let k2 := { k1 with l2Reads := k1.l2Reads + 1 }
                match n1.accessLast l2Size address false k2 with
                | none => none
                | some (l2Hit, n2, k3) =>
                  let k4 :=
                    if !l2Hit then { k3 with l2ReadMisses := k3.l2ReadMisses + 1 } else k3
                  let set2 :=
                    { set with blocks := set.blocks.set victimIndex ⟨true, isWrite, tag⟩ }
                  some (false,
                    { c with sets := c.sets.set setIndex (updateLRU set2 victimIndex) },
                    some n2, k4)

/-! ## `MemoryHierarchy` -/

/-- The data members of `class MemoryHierarchy` (the seven counters shared with
`Cache::access` are grouped in `stats`), together with the global `l2Size` that `main` sets
to the same value it passes to the constructor. -/
structure MemoryHierarchy where
  l2Size : Int
  l1 : Cache
  l2 : Option Cache
  blockSize : Int
  l1Reads : Int
  l1Writes : Int
  l1WriteMisses : Int
  l1ReadMisses : Int
  stats : Counters
deriving DecidableEq, Repr

/-- All seven shared counters at zero (lines 174-176). -/
def Counters.zero : Counters := ⟨0, 0, 0, 0, 0, 0, 0⟩

/-- The constructor `MemoryHierarchy::MemoryHierarchy` (lines 153-158), with the global
`l2Size` set as in `main` (line 225). -/
def MemoryHierarchy.new (l1Size l1Associativity l2Size l2Associativity blockSize : Int) :
    Option MemoryHierarchy :=
  match Cache.new l1Size l1Associativity blockSize with
  | none => none
  | some l1 =>
    if l2Size > 0 then
      match Cache.new l2Size l2Associativity blockSize with
      | none => none
      | some l2 =>
        some ⟨l2Size, l1, some l2, blockSize, 0, 0, 0, 0, Counters.zero⟩
    else some ⟨l2Size, l1, none, blockSize, 0, 0, 0, 0, Counters.zero⟩

/-- The method `MemoryHierarchy::access` (lines 179-192). -/
def MemoryHierarchy.access (h : MemoryHierarchy) (address : Nat) (isWrite : Bool) :
    Option MemoryHierarchy :=
  match h.l1.access h.l2Size address isWrite h.l2 h.stats with
  | none => none
  | some (l1Hit, l1, l2, stats) =>
    let h1 := { h with l1 := l1, l2 := l2, stats := stats }
    if isWrite then
      let h2 := { h1 with l1Writes := h1.l1Writes + 1 }
      some (if !l1Hit then { h2 with l1WriteMisses := h2.l1WriteMisses + 1 } else h2)
    else
      let h2 := { h1 with l1Reads := h1.l1Reads + 1 }
      some (if !l1Hit then { h2 with l1ReadMisses := h2.l1ReadMisses + 1 } else h2)

/-- The trace loop of `main` (lines 244-249) over already parsed records. -/
def MemoryHierarchy.replay (h : MemoryHierarchy) : List (Nat × Bool) → Option MemoryHierarchy
  | [] => some h
  | (address, isWrite) :: rest =>
    match h.access address isWrite with
    | none => none
    | some h1 => h1.replay rest

/-! ## Auxiliary definitions: parts of `Cache::access` and `MemoryHierarchy::access` -/

/-- The set index computed on lines 61-62. -/
def Cache.setIndexOf (c : Cache) (address : Nat) : Nat :=
  (address / toU32 c.blockSize) % toU32 c.numSets

/-- The tag computed on lines 61 and 63. -/
def Cache.tagOf (c : Cache) (address : Nat) : Nat :=
  (address / toU32 c.blockSize) / toU32 c.numSets

/-- A set after a hit on line `i` (lines 69-70). -/
def hitSet (set : CacheSet) (i : Nat) (isWrite : Bool) : CacheSet :=
  updateLRU (if isWrite then markDirty set i else set) i

/-- A set after line `v` has been refilled (lines 104-105). -/
def fillSet (set : CacheSet) (v : Nat) (isWrite : Bool) (tag : Nat) : CacheSet :=
  updateLRU { set with blocks := set.blocks.set v ⟨true, isWrite, tag⟩ } v

/-- The counters after a miss at the last level (lines 78-84 and 101). -/
def lastLevelCounters (l2Size : Int) (victimBlock : CacheBlock) (k : Counters) : Counters :=
  let k1 :=
    if victimBlock.valid && victimBlock.dirty then
      let k0 :=
        if l2Size = 0 then { k with l1Writebacks := k.l1Writebacks + 1 }
        else { k with l2Writebacks := k.l2Writebacks + 1 }
      { k0 with memoryTraffic := k0.memoryTraffic + 1 }
    else k
  { k1 with memoryTraffic := k1.memoryTraffic + 1 }

/-- The address rebuilt from a victim line on line 79, in 32-bit unsigned arithmetic. -/
def Cache.victimAddress (c : Cache) (victimBlock : CacheBlock) (setIndex : Nat) : Nat :=
  ((victimBlock.tag * toU32 c.numSets + setIndex) * toU32 c.blockSize) % 4294967296

/-- What lines 78-91 do to the next level `n` and the counters. -/
def Cache.evictBelow (l2Size : Int) (c : Cache) (setIndex : Nat) (victimBlock : CacheBlock)
    (n : Cache) (k : Counters) : Option (Option Cache × Counters) :=
  if victimBlock.valid && victimBlock.dirty then
    Cache.writeBack l2Size (c.victimAddress victimBlock setIndex) (some n) k
  else some (some n, k)

/-- The line that `Cache::access` hits (line 68) or, on a miss, overwrites (line 75). -/
def Cache.touchedLine (c : Cache) (address : Nat) : Option Nat :=
  match c.sets[c.setIndexOf address]? with
  | none => none
  | some set =>
    match findHit set.blocks (c.tagOf address) c.associativity.toNat 0 with
    | none => none
    | some (some i) => some i
    | some none => set.lruOrder.getLast?

/-- The hierarchy after `MemoryHierarchy::access` once the L1 call has returned
(lines 183-191). -/
def MemoryHierarchy.afterL1 (h : MemoryHierarchy) (isWrite : Bool)
    (r : Bool × Cache × Option Cache × Counters) : MemoryHierarchy :=
  { l2Size := h.l2Size
    l1 := r.2.1
    l2 := r.2.2.1
    blockSize := h.blockSize
    l1Reads := if isWrite then h.l1Reads else h.l1Reads + 1
    l1Writes := if isWrite then h.l1Writes + 1 else h.l1Writes
    l1WriteMisses := if isWrite && !r.1 then h.l1WriteMisses + 1 else h.l1WriteMisses
    l1ReadMisses := if !isWrite && !r.1 then h.l1ReadMisses + 1 else h.l1ReadMisses
    stats := r.2.2.2 }

/-- Whether line `i` of a set is valid (an index past the end counts as not valid). -/
def CacheSet.validAt (s : CacheSet) (i : Nat) : Bool :=
  match s.blocks[i]? with
  | some b => b.valid
  | none => false

/-- The tag held by line `i` of a set when that line is valid. -/
def CacheSet.tagAt (s : CacheSet) (i : Nat) : Option Nat :=
  match s.blocks[i]? with
  | some b => if b.valid then some b.tag else none
  | none => none

/-! ## Configurations, reachable states and invariants -/

/-- A level configuration of 32-bit `int` values whose associativity, block size and
resulting set count (line 26) are all at least 1. -/
def ValidLevel (size associativity blockSize : Int) : Prop :=
  size < 2147483648 ∧ 1 ≤ associativity ∧ 1 ≤ blockSize ∧
    1 ≤ Int.tdiv size (associativity * blockSize)

instance (size associativity blockSize : Int) :
    Decidable (ValidLevel size associativity blockSize) := by
  unfold ValidLevel; exact inferInstance

/-- A hierarchy configuration with a valid L1 and, when the configured L2 size is positive, a
valid L2. -/
def ValidConfig (l1Size l1Associativity l2Size l2Associativity blockSize : Int) : Prop :=
  ValidLevel l1Size l1Associativity blockSize ∧
    (0 < l2Size → ValidLevel l2Size l2Associativity blockSize)

instance (l1Size l1Associativity l2Size l2Associativity blockSize : Int) :
    Decidable (ValidConfig l1Size l1Associativity l2Size l2Associativity blockSize) := by
  unfold ValidConfig; exact inferInstance

/-- Cache states reachable from the constructor by any sequence of `Cache::access` calls,
each with any arguments. -/
inductive Cache.Reachable : Cache → Prop
  | init (size associativity blockSize : Int) (c : Cache) :
      ValidLevel size associativity blockSize →
      Cache.new size associativity blockSize = some c → Cache.Reachable c
  | step (l2Size : Int) (c : Cache) (a : Nat) (w : Bool) (next : Option Cache) (k : Counters)
      (r : Bool × Cache × Option Cache × Counters) :
      Cache.Reachable c → c.access l2Size a w next k = some r → Cache.Reachable r.2.1

/-- Hierarchy states reachable from the constructor by replaying accesses. -/
inductive MemoryHierarchy.Reachable : MemoryHierarchy → Prop
  | init (l1Size l1Associativity l2Size l2Associativity blockSize : Int) (h : MemoryHierarchy) :
      ValidConfig l1Size l1Associativity l2Size l2Associativity blockSize →
      MemoryHierarchy.new l1Size l1Associativity l2Size l2Associativity blockSize = some h →
      MemoryHierarchy.Reachable h
  | step (h : MemoryHierarchy) (a : Nat) (w : Bool) (h1 : MemoryHierarchy) :
      MemoryHierarchy.Reachable h → h.access a w = some h1 → MemoryHierarchy.Reachable h1

/-- The invariant of one set of a cache with associativity `k`. -/
structure SetInv (k : Nat) (s : CacheSet) : Prop where
  len : s.blocks.length = k
  perm : s.lruOrder.Perm (List.range k)
  validFirst : s.lruOrder.Pairwise (fun i j => s.validAt j = true → s.validAt i = true)
  uniqueTags : ∀ (i j : Nat) (bi bj : CacheBlock), s.blocks[i]? = some bi →
    s.blocks[j]? = some bj → bi.valid = true → bj.valid = true → bi.tag = bj.tag → i = j
  cleanInvalid : ∀ (i : Nat) (b : CacheBlock), s.blocks[i]? = some b → b.valid = false →
    b.dirty = false

/-- The invariant of a cache level on which `Cache::access` is well defined. -/
structure Cache.WF (c : Cache) : Prop where
  assoc_pos : 1 ≤ c.associativity
  numSets_pos : 1 ≤ c.numSets
  numSets_lt : c.numSets < 2147483648
  blockSize_pos : 1 ≤ c.blockSize
  blockSize_lt : c.blockSize < 2147483648
  sets_len : c.sets.length = c.numSets.toNat
  sets_inv : ∀ s ∈ c.sets, SetInv c.associativity.toNat s

/-- The invariant of a hierarchy: both levels are well formed and an L2 exists exactly when
the configured L2 size is positive. -/
structure MemoryHierarchy.WF (h : MemoryHierarchy) : Prop where
  l1_wf : h.l1.WF
  l2_wf : ∀ n, h.l2 = some n → n.WF
  l2_some : 0 < h.l2Size → ∃ n, h.l2 = some n
  l2_none : ¬ 0 < h.l2Size → h.l2 = none

/-- How memory traffic is tied to the miss and write-back counters, for each sign of the
configured L2 size. -/
structure StatsInv (h : MemoryHierarchy) : Prop where
  absent_zero : h.l2Size = 0 →
    h.stats.memoryTraffic = h.l1ReadMisses + h.l1WriteMisses + h.stats.l1Writebacks
  present : 0 < h.l2Size →
    h.stats.memoryTraffic
      = h.stats.l2ReadMisses + h.stats.l2WriteMisses + h.stats.l2Writebacks
  absent_negative : h.l2Size < 0 →
    h.stats.memoryTraffic = h.l1ReadMisses + h.l1WriteMisses + h.stats.l2Writebacks

/-! ## Reference LRU list and call sequences -/

/-- The tags resident in a set, read along `lruOrder` (most recently used first). -/
def CacheSet.residentTags (s : CacheSet) : List Nat :=
  s.lruOrder.filterMap s.tagAt

/-- Reference LRU list, following the specification's words: at most `k` tags kept in
most-recent-first order; a hit moves the tag to the front; a miss inserts the tag at the
front and drops the last tag when the list is full. -/
def refLRU (k : Nat) (l : List Nat) (t : Nat) : List Nat :=
  if t ∈ l then t :: l.erase t
  else if l.length < k then t :: l
  else t :: l.dropLast

/-- Reference cache, following the specification's words: one reference LRU list per set;
an access to address `A` touches the list of set `(A / blockSize) mod numSets` with tag
`(A / blockSize) / numSets`. -/
def refAccess (k numSets blockSize : Nat) (ref : Nat → List Nat) (address : Nat) :
    Nat → List Nat :=
  fun s =>
    if s = (address / blockSize) % numSets then
      refLRU k (ref s) ((address / blockSize) / numSets)
    else ref s

/-- The reference cache after a sequence of accessed addresses. -/
def refRun (k numSets blockSize : Nat) (ref : Nat → List Nat) : List Nat → Nat → List Nat
  | [] => ref
  | address :: rest => refRun k numSets blockSize (refAccess k numSets blockSize ref address) rest

/-- One call of `Cache::access`: the value of the global `l2Size`, the address, the access
kind, the next level handed in and the counters handed in. -/
structure Call where
  l2Size : Int
  address : Nat
  isWrite : Bool
  nextLevel : Option Cache
  counters : Counters

/-- The cache after a sequence of `Cache::access` calls. -/
def Cache.run (c : Cache) : List Call → Option Cache
  | [] => some c
  | x :: rest =>
    match c.access x.l2Size x.address x.isWrite x.nextLevel x.counters with
    | none => none
    | some r => Cache.run r.2.1 rest

/-! ## Recency stamps -/

/-- The ghost record after a call at position `now` touched line `line` of set `s0`. -/
def stampTouch (stamp : Nat → Nat → Option Nat) (s0 : Nat) (line : Option Nat) (now : Nat) :
    Nat → Nat → Option Nat :=
  fun s j => if s = s0 ∧ line = some j then some now else stamp s j

/-- The run of a call sequence, instrumented with a ghost record: `stamp s j` is the position
in the sequence of the most recent call that hit or filled line `j` of set `s`, if any; `now`
is the position of the next call. -/
def Cache.runStamped (c : Cache) (stamp : Nat → Nat → Option Nat) (now : Nat) :
    List Call → Option (Cache × (Nat → Nat → Option Nat))
  | [] => some (c, stamp)
  | x :: rest =>
    match c.access x.l2Size x.address x.isWrite x.nextLevel x.counters with
    | none => none
    | some r =>
      Cache.runStamped r.2.1
        (stampTouch stamp (c.setIndexOf x.address) (c.touchedLine x.address) now)
        (now + 1) rest

/-- The ghost record is consistent with a cache: along every `lruOrder` the stamps strictly
decrease (lines never touched come last), every valid line has been touched, and all stamps
lie in the past. -/
structure StampInv (c : Cache) (stamp : Nat → Nat → Option Nat) (now : Nat) : Prop where
  sorted : ∀ (s : Nat) (set : CacheSet), c.sets[s]? = some set →
    set.lruOrder.Pairwise (fun i j => ∀ q, stamp s j = some q → ∃ p, stamp s i = some p ∧ q < p)
  touched : ∀ (s : Nat) (set : CacheSet) (j : Nat), c.sets[s]? = some set →
    set.validAt j = true → ∃ p, stamp s j = some p
  past : ∀ (s j p : Nat), stamp s j = some p → p < now

/-! ## Sample states -/

/-- The fresh two-way, two-set cache built by `Cache(16, 2, 4)`. -/
def freshCache : Cache :=
  { size := 16, associativity := 2, blockSize := 4, numSets := 2,
    sets := [⟨[⟨false, false, 0⟩, ⟨false, false, 0⟩], [0, 1]⟩,
             ⟨[⟨false, false, 0⟩, ⟨false, false, 0⟩], [0, 1]⟩] }

/-- A two-way, two-set cache after one read of address 0. -/
def sampleCache : Cache :=
  { size := 16, associativity := 2, blockSize := 4, numSets := 2,
    sets := [⟨[⟨false, false, 0⟩, ⟨true, false, 0⟩], [1, 0]⟩,
             ⟨[⟨false, false, 0⟩, ⟨false, false, 0⟩], [0, 1]⟩] }

/-- The sample cache after a write hit on address 0. -/
def sampleCacheHit : Cache :=
  { size := 16, associativity := 2, blockSize := 4, numSets := 2,
    sets := [⟨[⟨false, false, 0⟩, ⟨true, true, 0⟩], [1, 0]⟩,
             ⟨[⟨false, false, 0⟩, ⟨false, false, 0⟩], [0, 1]⟩] }

/-- The sample cache after a write miss on address 8 (set 0, tag 1). -/
def sampleCacheMiss : Cache :=
  { size := 16, associativity := 2, blockSize := 4, numSets := 2,
    sets := [⟨[⟨true, true, 1⟩, ⟨true, false, 0⟩], [0, 1]⟩,
             ⟨[⟨false, false, 0⟩, ⟨false, false, 0⟩], [0, 1]⟩] }

/-- Three calls on one set of a two-way cache: read 0, write 8, read 16. -/
def sampleCalls : List Call :=
  [⟨0, 0, false, none, Counters.zero⟩, ⟨0, 8, true, none, Counters.zero⟩,
   ⟨0, 16, false, none, Counters.zero⟩]

/-- A direct-mapped set that has never been filled. -/
def coldSet : CacheSet := ⟨[⟨false, false, 0⟩], [0]⟩

/-- The hierarchy built by `MemoryHierarchy(16, 1, 32, 1, 4)`: direct-mapped L1 with 4 sets,
direct-mapped L2 with 8 sets. -/
def twoLevelFresh : MemoryHierarchy :=
  { l2Size := 32
    l1 := { size := 16, associativity := 1, blockSize := 4, numSets := 4,
            sets := List.replicate 4 coldSet }
    l2 := some { size := 32, associativity := 1, blockSize := 4, numSets := 8,
                 sets := List.replicate 8 coldSet }
    blockSize := 4
    l1Reads := 0, l1Writes := 0, l1WriteMisses := 0, l1ReadMisses := 0
    stats := Counters.zero }

/-- The L2 of `twoLevelFresh` after block 0 has been read into it. -/
def sampleL2 : Cache :=
  { size := 32, associativity := 1, blockSize := 4, numSets := 8,
    sets := ⟨[⟨true, false, 0⟩], [0]⟩ :: List.replicate 7 coldSet }

/-- The hierarchy `twoLevelFresh` after a write of address 0. -/
def twoLevelDirty : MemoryHierarchy :=
  { l2Size := 32
    l1 := { size := 16, associativity := 1, blockSize := 4, numSets := 4,
            sets := ⟨[⟨true, true, 0⟩], [0]⟩ :: List.replicate 3 coldSet }
    l2 := some sampleL2
    blockSize := 4
    l1Reads := 0, l1Writes := 1, l1WriteMisses := 1, l1ReadMisses := 0
    stats := ⟨1, 0, 0, 1, 1, 0, 0⟩ }

/-- The hierarchy built by `MemoryHierarchy(16, 1, -1, 1, 4)` with the global `l2Size` at -1:
a direct-mapped L1 with 4 sets and no L2. -/
def negativeL2Fresh : MemoryHierarchy :=
  { l2Size := -1
    l1 := { size := 16, associativity := 1, blockSize := 4, numSets := 4,
            sets := List.replicate 4 coldSet }
    l2 := none
    blockSize := 4
    l1Reads := 0, l1Writes := 0, l1WriteMisses := 0, l1ReadMisses := 0
    stats := Counters.zero }

/-- The hierarchy `negativeL2Fresh` after a write of address 0. -/
def negativeL2Dirty : MemoryHierarchy :=
  { l2Size := -1
    l1 := { size := 16, associativity := 1, blockSize := 4, numSets := 4,
            sets := ⟨[⟨true, true, 0⟩], [0]⟩ :: List.replicate 3 coldSet }
    l2 := none
    blockSize := 4
    l1Reads := 0, l1Writes := 1, l1WriteMisses := 1, l1ReadMisses := 0
    stats := ⟨1, 0, 0, 0, 0, 0, 0⟩ }

/-- The hierarchy `negativeL2Dirty` after a read of address 16, which evicts the dirty
block 0. -/
def negativeL2Evicted : MemoryHierarchy :=
  { l2Size := -1
    l1 := { size := 16, associativity := 1, blockSize := 4, numSets := 4,
            sets := ⟨[⟨true, false, 1⟩], [0]⟩ :: List.replicate 3 coldSet }
    l2 := none
    blockSize := 4
    l1Reads := 1, l1Writes := 1, l1WriteMisses := 1, l1ReadMisses := 1
    stats := ⟨3, 0, 0, 0, 0, 1, 0⟩ }

/-- Relations among the counters of a hierarchy: none is negative, misses never exceed
requests, with an L2 the L2 requests are the L1 misses and the L2 writes are the L1
write-backs, and without an L2 the L2 request and miss counters stay at zero (the L2
write-back counter too when the configured L2 size is exactly 0). -/
structure CounterInv (h : MemoryHierarchy) : Prop where
  l1Reads_nonneg : 0 ≤ h.l1Reads
  l1Writes_nonneg : 0 ≤ h.l1Writes
  l1ReadMisses_nonneg : 0 ≤ h.l1ReadMisses
  l1WriteMisses_nonneg : 0 ≤ h.l1WriteMisses
  memoryTraffic_nonneg : 0 ≤ h.stats.memoryTraffic
  l1Writebacks_nonneg : 0 ≤ h.stats.l1Writebacks
  l2Writes_nonneg : 0 ≤ h.stats.l2Writes
  l2Reads_nonneg : 0 ≤ h.stats.l2Reads
  l2ReadMisses_nonneg : 0 ≤ h.stats.l2ReadMisses
  l2Writebacks_nonneg : 0 ≤ h.stats.l2Writebacks
  l2WriteMisses_nonneg : 0 ≤ h.stats.l2WriteMisses
  l1ReadMisses_le : h.l1ReadMisses ≤ h.l1Reads
  l1WriteMisses_le : h.l1WriteMisses ≤ h.l1Writes
  l2ReadMisses_le : h.stats.l2ReadMisses ≤ h.stats.l2Reads
  l2WriteMisses_le : h.stats.l2WriteMisses ≤ h.stats.l2Writes
  l2Reads_eq : 0 < h.l2Size → h.stats.l2Reads = h.l1ReadMisses + h.l1WriteMisses
  l2Writes_eq : 0 < h.l2Size → h.stats.l2Writes = h.stats.l1Writebacks
  absent : ¬ 0 < h.l2Size →
    h.stats.l2Reads = 0 ∧ h.stats.l2ReadMisses = 0 ∧ h.stats.l2Writes = 0 ∧
      h.stats.l2WriteMisses = 0
  absent_zero : h.l2Size = 0 → h.stats.l2Writebacks = 0

/-! ## `MemoryHierarchy::printStats` -/

/-- Rounding of a rational to the nearest integer, ties to the even integer. -/
def roundHalfEven (x : ℚ) : Int :=
  if x - ⌊x⌋ < 1 / 2 then ⌊x⌋
  else if 1 / 2 < x - ⌊x⌋ then ⌊x⌋ + 1
  else if ⌊x⌋ % 2 = 0 then ⌊x⌋ else ⌊x⌋ + 1

/-- The spacing of binary32 (`float`) values around a non-zero rational `q`: with `e` the
binary exponent of `q` (`2 ^ e <= |q| < 2 ^ (e + 1)`), 24 significant bits give the spacing
`2 ^ (e - 23)`; below the least normal exponent -126 the spacing stays `2 ^ (-149)`. -/
def ulpF32 (q : ℚ) : ℚ := (2 : ℚ) ^ (max (Int.log 2 |q|) (-126) - 23)

/-- The multiple of the spacing nearest to `q`, ties to the even multiple. -/
def nearestF32 (q : ℚ) : ℚ := (roundHalfEven (q / ulpF32 q) : ℚ) * ulpF32 q

/-- Rounding of a rational to binary32 (`float`) under the IEEE 754 default mode, round to
nearest with ties to even; `none` when the rounded magnitude reaches `2 ^ 128`, where the
`float` result is an infinity. -/
def roundF32 (q : ℚ) : Option ℚ :=
  if q = 0 then some 0
  else if |nearestF32 q| < 340282366920938463463374607431768211456 then some (nearestF32 q)
  else none

/-- The `float` quotient `static_cast<float>(a) / b` of two `int` counters (lines 200 and
210): `a` is converted to `float`, `b` is converted to `float` by the usual arithmetic
conversions, and the division is done in `float`. The result is `none` when the divisor is
zero (the IEEE result is then a NaN or an infinity, not a number). -/
def floatDiv (a b : Int) : Option ℚ :=
  match roundF32 (a : ℚ), roundF32 (b : ℚ) with
  | some x, some y => if y = 0 then none else roundF32 (x / y)
  | _, _ => none

/-- The L1 miss rate that `MemoryHierarchy::printStats` hands to `printf` (line 200). -/
def MemoryHierarchy.l1MissRate (h : MemoryHierarchy) : Option ℚ :=
  floatDiv (h.l1ReadMisses + h.l1WriteMisses) (h.l1Reads + h.l1Writes)

/-- The L2 miss rate that `MemoryHierarchy::printStats` hands to `printf` (lines 209-210);
the conversion of the `float` quotient to `double` is exact. -/
def MemoryHierarchy.l2MissRate (h : MemoryHierarchy) : Option ℚ :=
  if h.stats.l2Reads > 0 then floatDiv h.stats.l2ReadMisses h.stats.l2Reads else some 0

/-- The hierarchy built by `MemoryHierarchy(16, 1, 0, 1, 4)`: a direct-mapped L1 with 4 sets
and no L2. -/
def oneLevelFresh : MemoryHierarchy :=
  { l2Size := 0
    l1 := { size := 16, associativity := 1, blockSize := 4, numSets := 4,
            sets := List.replicate 4 coldSet }
    l2 := none
    blockSize := 4
    l1Reads := 0, l1Writes := 0, l1WriteMisses := 0, l1ReadMisses := 0
    stats := Counters.zero }

/-- The hierarchy `oneLevelFresh` after write 0, read 16, read 0. -/
def oneLevelEvicted : MemoryHierarchy :=
  { l2Size := 0
    l1 := { size := 16, associativity := 1, blockSize := 4, numSets := 4,
            sets := ⟨[⟨true, false, 0⟩], [0]⟩ :: List.replicate 3 coldSet }
    l2 := none
    blockSize := 4
    l1Reads := 2, l1Writes := 1, l1WriteMisses := 1, l1ReadMisses := 2
    stats := ⟨4, 1, 0, 0, 0, 0, 0⟩ }

/-- Every valid line holds the tag of some 32-bit address that maps to the line's set. -/
def LinesFrom32 (c : Cache) : Prop :=
  ∀ (s : Nat) (set : CacheSet) (i : Nat) (b : CacheBlock), c.sets[s]? = some set →
    set.blocks[i]? = some b → b.valid = true →
    ∃ A, A < 4294967296 ∧ c.setIndexOf A = s ∧ c.tagOf A = b.tag

/-- The cache `freshCache` after the calls `sampleCalls`. -/
def sampleCacheRun : Cache :=
  { size := 16, associativity := 2, blockSize := 4, numSets := 2,
    sets := [⟨[⟨true, true, 1⟩, ⟨true, false, 2⟩], [1, 0]⟩,
             ⟨[⟨false, false, 0⟩, ⟨false, false, 0⟩], [0, 1]⟩] }

/-! ## Access history of a set -/

/-- The tags accessed in set `s` by a sequence of addresses, in the order of the accesses:
the addresses with `(A / blockSize) mod numSets = s`, each mapped to
`(A / blockSize) / numSets`. -/
def tagsInSet (numSets blockSize : Nat) (addresses : List Nat) (s : Nat) : List Nat :=
  (addresses.filter (fun a => (a / blockSize) % numSets == s)).map
    (fun a => (a / blockSize) / numSets)

/-- A call sequence in which a tag is accessed again before the set overflows. -/
def sampleCallsRepeat : List Call :=
  [⟨0, 0, false, none, Counters.zero⟩, ⟨0, 8, true, none, Counters.zero⟩,
   ⟨0, 0, false, none, Counters.zero⟩, ⟨0, 16, false, none, Counters.zero⟩]

/-- The cache `Cache(16, 2, 4)` after `sampleCallsRepeat`. -/
def sampleCacheRepeat : Cache :=
  { size := 16, associativity := 2, blockSize := 4, numSets := 2,
    sets := [⟨[⟨true, false, 2⟩, ⟨true, false, 0⟩], [0, 1]⟩,
             ⟨[⟨false, false, 0⟩, ⟨false, false, 0⟩], [0, 1]⟩] }

/-! # Verified properties -/

theorem toU32_of_range {x : Int} (h0 : 0 ≤ x) (h1 : x < 4294967296) : toU32 x = x.toNat := by
  unfold toU32
  rw [Int.emod_eq_of_lt h0 h1]

/-! ### The tag-matching loop -/

theorem findHit_total (blocks : List CacheBlock) (tag : Nat) :
    ∀ (n i : Nat), i + n ≤ blocks.length → ∃ r, findHit blocks tag n i = some r := by
  intro n
  induction n with
  | zero => intro i _; exact ⟨none, rfl⟩
  | succ n ih =>
    intro i hi
    have hlt : i < blocks.length := by omega
    unfold findHit
    rw [List.getElem?_eq_getElem hlt]
    simp only
    split
    · exact ⟨_, rfl⟩
    · exact ih (i + 1) (by omega)

theorem findHit_some (blocks : List CacheBlock) (tag : Nat) :
    ∀ (n i j : Nat), findHit blocks tag n i = some (some j) →
      i ≤ j ∧ j < i + n ∧ (∃ b, blocks[j]? = some b ∧ b.valid = true ∧ b.tag = tag) ∧
      ∀ m b, i ≤ m → m < j → blocks[m]? = some b → ¬ (b.valid = true ∧ b.tag = tag) := by
  intro n
  induction n with
  | zero => intro i j h; simp [findHit] at h
  | succ n ih =>
    intro i j h
    unfold findHit at h
    cases hb : blocks[i]? with
    | none => simp [hb] at h
    | some b =>
      simp only [hb] at h
      by_cases hm : (b.valid && b.tag == tag) = true
      · simp only [hm, if_true, Option.some.injEq] at h
        subst h
        simp only [Bool.and_eq_true, beq_iff_eq] at hm
        refine ⟨le_refl _, by omega, ⟨b, hb, hm.1, hm.2⟩, ?_⟩
        intro m b' h1 h2
        omega
      · simp only [hm] at h
        obtain ⟨h1, h2, h3, h4⟩ := ih (i + 1) j h
        refine ⟨by omega, by omega, h3, ?_⟩
        intro m b' hm1 hm2 hb'
        by_cases hmi : m = i
        · subst hmi
          rw [hb] at hb'
          cases hb'
          simpa [Bool.and_eq_true, beq_iff_eq] using hm
        · exact h4 m b' (by omega) hm2 hb'

theorem findHit_none (blocks : List CacheBlock) (tag : Nat) :
    ∀ (n i : Nat), findHit blocks tag n i = some none →
      ∀ m b, i ≤ m → m < i + n → blocks[m]? = some b → ¬ (b.valid = true ∧ b.tag = tag) := by
  intro n
  induction n with
  | zero => intro i _ m b h1 h2; omega
  | succ n ih =>
    intro i h m b' hm1 hm2 hb'
    unfold findHit at h
    cases hb : blocks[i]? with
    | none => simp [hb] at h
    | some b =>
      simp only [hb] at h
      by_cases hm : (b.valid && b.tag == tag) = true
      · simp [hm] at h
      · simp only [hm] at h
        by_cases hmi : m = i
        · subst hmi
          rw [hb] at hb'
          cases hb'
          simpa [Bool.and_eq_true, beq_iff_eq] using hm
        · exact ih (i + 1) h m b' (by omega) (by omega) hb'

/-! ### Case analysis of `Cache::access` -/

theorem accessLast_cases {l2Size : Int} {c : Cache} {a : Nat} {w : Bool} {k : Counters}
    {r : Bool × Cache × Counters} (h : c.accessLast l2Size a w k = some r) :
    toU32 c.blockSize ≠ 0 ∧ toU32 c.numSets ≠ 0 ∧ ∃ set, c.sets[c.setIndexOf a]? = some set ∧
      ((∃ i, findHit set.blocks (c.tagOf a) c.associativity.toNat 0 = some (some i) ∧
          r = (true, { c with sets := c.sets.set (c.setIndexOf a) (hitSet set i w) }, k)) ∨
       (findHit set.blocks (c.tagOf a) c.associativity.toNat 0 = some none ∧
          ∃ v vb, set.lruOrder.getLast? = some v ∧ set.blocks[v]? = some vb ∧
            r = (false, { c with sets := c.sets.set (c.setIndexOf a) (fillSet set v w (c.tagOf a)) },
                  lastLevelCounters l2Size vb k))) := by
  unfold Cache.accessLast at h
  split at h
  · cases h
  · rename_i hz
    simp only [not_or] at hz
    refine ⟨hz.1, hz.2, ?_⟩
    simp only at h
    split at h
    · cases h
    · rename_i set hset
      refine ⟨set, hset, ?_⟩
      split at h
      · cases h
      · rename_i i hi
        left
        refine ⟨i, hi, ?_⟩
        simp only [Option.some.injEq] at h
        rw [← h]
        rfl
      · rename_i hi
        right
        refine ⟨hi, ?_⟩
        split at h
        · cases h
        · rename_i v hv
          split at h
          · cases h
          · rename_i vb hvb
            refine ⟨v, vb, hv, hvb, ?_⟩
            simp only [Option.some.injEq] at h
            rw [← h]
            rfl

theorem accessLast_hit_intro {l2Size : Int} {c : Cache} {a : Nat} {w : Bool} {k : Counters}
    {set : CacheSet} {i : Nat} (hb : toU32 c.blockSize ≠ 0) (hn : toU32 c.numSets ≠ 0)
    (hset : c.sets[c.setIndexOf a]? = some set)
    (hi : findHit set.blocks (c.tagOf a) c.associativity.toNat 0 = some (some i)) :
    c.accessLast l2Size a w k
      = some (true, { c with sets := c.sets.set (c.setIndexOf a) (hitSet set i w) }, k) := by
  unfold Cache.setIndexOf at hset
  unfold Cache.tagOf at hi
  unfold Cache.accessLast
  simp only [hb, hn, or_self, if_false, hset, hi]
  rfl

theorem accessLast_miss_intro {l2Size : Int} {c : Cache} {a : Nat} {w : Bool} {k : Counters}
    {set : CacheSet} {v : Nat} {vb : CacheBlock}
    (hb : toU32 c.blockSize ≠ 0) (hn : toU32 c.numSets ≠ 0)
    (hset : c.sets[c.setIndexOf a]? = some set)
    (hi : findHit set.blocks (c.tagOf a) c.associativity.toNat 0 = some none)
    (hv : set.lruOrder.getLast? = some v) (hvb : set.blocks[v]? = some vb) :
    c.accessLast l2Size a w k
      = some (false,
          { c with sets := c.sets.set (c.setIndexOf a) (fillSet set v w (c.tagOf a)) },
          lastLevelCounters l2Size vb k) := by
  unfold Cache.setIndexOf at hset
  unfold Cache.tagOf at hi
  unfold Cache.accessLast
  simp only [hb, hn, or_self, if_false, hset, hi, hv, hvb]
  rfl

theorem access_some_cases {l2Size : Int} {c n : Cache} {a : Nat} {w : Bool} {k : Counters}
    {r : Bool × Cache × Option Cache × Counters}
    (h : c.access l2Size a w (some n) k = some r) :
    toU32 c.blockSize ≠ 0 ∧ toU32 c.numSets ≠ 0 ∧ ∃ set, c.sets[c.setIndexOf a]? = some set ∧
      ((∃ i, findHit set.blocks (c.tagOf a) c.associativity.toNat 0 = some (some i) ∧
          r = (true, { c with sets := c.sets.set (c.setIndexOf a) (hitSet set i w) },
                some n, k)) ∨
       (findHit set.blocks (c.tagOf a) c.associativity.toNat 0 = some none ∧
          ∃ v vb n1 k1 l2Hit n2 k3, set.lruOrder.getLast? = some v ∧ set.blocks[v]? = some vb ∧
            c.evictBelow l2Size (c.setIndexOf a) vb n k = some (some n1, k1) ∧
            n1.accessLast l2Size a false { k1 with l2Reads := k1.l2Reads + 1 }
              = some (l2Hit, n2, k3) ∧
            r = (false,
                  { c with sets := c.sets.set (c.setIndexOf a) (fillSet set v w (c.tagOf a)) },
                  some n2,
                  if !l2Hit then { k3 with l2ReadMisses := k3.l2ReadMisses + 1 } else k3))) := by
  unfold Cache.access at h
  simp only at h
  split at h
  · cases h
  · rename_i hz
    simp only [not_or] at hz
    refine ⟨hz.1, hz.2, ?_⟩
    split at h
    · cases h
    · rename_i set hset
      refine ⟨set, hset, ?_⟩
      split at h
      · cases h
      · rename_i i hi
        left
        refine ⟨i, hi, ?_⟩
        simp only [Option.some.injEq] at h
        rw [← h]
        rfl
      · rename_i hi
        right
        refine ⟨hi, ?_⟩
        split at h
        · cases h
        · rename_i v hv
          split at h
          · cases h
          · rename_i vb hvb
            split at h
            · cases h
            · cases h
            · rename_i n1 k1 hwb
              split at h
              · cases h
              · rename_i l2Hit n2 k3 hl2
                refine ⟨v, vb, n1, k1, l2Hit, n2, k3, hv, hvb, hwb, hl2, ?_⟩
                simp only [Option.some.injEq] at h
                rw [← h]
                rfl

theorem access_some_hit_intro {l2Size : Int} {c n : Cache} {a : Nat} {w : Bool} {k : Counters}
    {set : CacheSet} {i : Nat} (hb : toU32 c.blockSize ≠ 0) (hn : toU32 c.numSets ≠ 0)
    (hset : c.sets[c.setIndexOf a]? = some set)
    (hi : findHit set.blocks (c.tagOf a) c.associativity.toNat 0 = some (some i)) :
    c.access l2Size a w (some n) k
      = some (true, { c with sets := c.sets.set (c.setIndexOf a) (hitSet set i w) },
          some n, k) := by
  unfold Cache.setIndexOf at hset
  unfold Cache.tagOf at hi
  unfold Cache.access
  simp only [hb, hn, or_self, if_false, hset, hi]
  rfl

theorem access_some_miss_intro {l2Size : Int} {c n : Cache} {a : Nat} {w : Bool} {k : Counters}
    {set : CacheSet} {v : Nat} {vb : CacheBlock} {n1 n2 : Cache} {k1 k3 : Counters}
    {l2Hit : Bool}
    (hb : toU32 c.blockSize ≠ 0) (hn : toU32 c.numSets ≠ 0)
    (hset : c.sets[c.setIndexOf a]? = some set)
    (hi : findHit set.blocks (c.tagOf a) c.associativity.toNat 0 = some none)
    (hv : set.lruOrder.getLast? = some v) (hvb : set.blocks[v]? = some vb)
    (hwb : c.evictBelow l2Size (c.setIndexOf a) vb n k = some (some n1, k1))
    (hl2 : n1.accessLast l2Size a false { k1 with l2Reads := k1.l2Reads + 1 }
              = some (l2Hit, n2, k3)) :
    c.access l2Size a w (some n) k
      = some (false,
          { c with sets := c.sets.set (c.setIndexOf a) (fillSet set v w (c.tagOf a)) },
          some n2,
          if !l2Hit then { k3 with l2ReadMisses := k3.l2ReadMisses + 1 } else k3) := by
  unfold Cache.setIndexOf at hset hwb
  unfold Cache.tagOf at hi
  unfold Cache.evictBelow Cache.victimAddress at hwb
  unfold Cache.access
  simp only [hb, hn, or_self, if_false, hset, hi, hv, hvb, hwb, hl2]
  rfl

theorem access_none_eq (l2Size : Int) (c : Cache) (a : Nat) (w : Bool) (k : Counters) :
    c.access l2Size a w none k
      = (c.accessLast l2Size a w k).map (fun r => (r.1, r.2.1, none, r.2.2)) := by
  unfold Cache.access
  cases c.accessLast l2Size a w k <;> rfl

theorem Cache.WF.toU32_blockSize {c : Cache} (h : c.WF) :
    toU32 c.blockSize = c.blockSize.toNat :=
  toU32_of_range (by have := h.blockSize_pos; omega) (by have := h.blockSize_lt; omega)

theorem Cache.WF.toU32_numSets {c : Cache} (h : c.WF) :
    toU32 c.numSets = c.numSets.toNat :=
  toU32_of_range (by have := h.numSets_pos; omega) (by have := h.numSets_lt; omega)

theorem Cache.WF.blockSize_ne {c : Cache} (h : c.WF) : toU32 c.blockSize ≠ 0 := by
  rw [h.toU32_blockSize]; have := h.blockSize_pos; omega

theorem Cache.WF.numSets_ne {c : Cache} (h : c.WF) : toU32 c.numSets ≠ 0 := by
  rw [h.toU32_numSets]; have := h.numSets_pos; omega

theorem Cache.WF.setIndexOf_lt {c : Cache} (h : c.WF) (a : Nat) :
    c.setIndexOf a < c.sets.length := by
  unfold Cache.setIndexOf
  rw [h.sets_len, ← h.toU32_numSets]
  exact Nat.mod_lt _ (Nat.pos_of_ne_zero h.numSets_ne)

theorem Cache.WF.getSet {c : Cache} (h : c.WF) (a : Nat) :
    ∃ set, c.sets[c.setIndexOf a]? = some set ∧ SetInv c.associativity.toNat set := by
  have hlt := h.setIndexOf_lt a
  refine ⟨c.sets[c.setIndexOf a], List.getElem?_eq_getElem hlt, ?_⟩
  exact h.sets_inv _ (List.getElem_mem hlt)

/-! ### The per-set invariant is established by the constructor and kept by hits and fills -/

theorem validAt_empty (k i : Nat) :
    CacheSet.validAt ⟨List.replicate k CacheBlock.empty, List.range k⟩ i = false := by
  unfold CacheSet.validAt
  simp only [List.getElem?_replicate]
  by_cases h : i < k
  · simp only [h, if_true]; rfl
  · simp only [h, if_false]

theorem SetInv.init_set (k : Nat) :
    SetInv k ⟨List.replicate k CacheBlock.empty, List.range k⟩ where
  len := by simp
  perm := List.Perm.refl _
  validFirst := by
    apply List.pairwise_of_forall
    intro i j h
    rw [validAt_empty] at h
    cases h
  uniqueTags := by
    intro i j bi bj hi _ hv
    simp only [List.getElem?_replicate] at hi
    split at hi
    · cases hi; cases hv
    · cases hi
  cleanInvalid := by
    intro i b hi _
    simp only [List.getElem?_replicate] at hi
    split at hi
    · cases hi; rfl
    · cases hi

theorem SetInv.lru_nodup {k : Nat} {s : CacheSet} (h : SetInv k s) : s.lruOrder.Nodup :=
  (h.perm.nodup_iff).2 (List.nodup_range k)

theorem SetInv.mem_lru {k : Nat} {s : CacheSet} (h : SetInv k s) (i : Nat) :
    i ∈ s.lruOrder ↔ i < k := by
  rw [h.perm.mem_iff, List.mem_range]

theorem SetInv.lru_length {k : Nat} {s : CacheSet} (h : SetInv k s) : s.lruOrder.length = k := by
  rw [h.perm.length_eq, List.length_range]

theorem markDirty_getElem? (s : CacheSet) (i j : Nat) :
    (markDirty s i).blocks[j]? =
      if i = j then (s.blocks[j]?).map (fun b => { b with dirty := true }) else s.blocks[j]? := by
  unfold markDirty
  simp only [List.getElem?_modify]
  by_cases h : i = j
  · simp only [h, if_true]
    cases s.blocks[j]? <;> rfl
  · simp only [h, if_false]
    cases s.blocks[j]? <;> simp

theorem hitSet_lruOrder (s : CacheSet) (i : Nat) (w : Bool) :
    (hitSet s i w).lruOrder = i :: s.lruOrder.erase i := by
  unfold hitSet updateLRU
  cases w <;> rfl

theorem hitSet_blocks (s : CacheSet) (i : Nat) (w : Bool) :
    (hitSet s i w).blocks = if w then (markDirty s i).blocks else s.blocks := by
  unfold hitSet updateLRU
  cases w <;> rfl

theorem hitSet_getElem? (s : CacheSet) (i j : Nat) (w : Bool) :
    (hitSet s i w).blocks[j]? =
      if i = j then (s.blocks[j]?).map (fun b => { b with dirty := b.dirty || w })
      else s.blocks[j]? := by
  rw [hitSet_blocks]
  cases w
  · simp only [Bool.false_eq_true, if_false, Bool.or_false]
    split
    · cases s.blocks[j]? <;> rfl
    · rfl
  · simp only [if_true, Bool.or_true]
    exact markDirty_getElem? s i j

theorem hitSet_validAt (s : CacheSet) (i j : Nat) (w : Bool) :
    (hitSet s i w).validAt j = s.validAt j := by
  unfold CacheSet.validAt
  rw [hitSet_getElem?]
  by_cases h : i = j
  · simp only [h, if_true]
    cases s.blocks[j]? <;> rfl
  · simp only [h, if_false]

theorem fillSet_lruOrder (s : CacheSet) (v : Nat) (w : Bool) (t : Nat) :
    (fillSet s v w t).lruOrder = v :: s.lruOrder.erase v := rfl

theorem fillSet_blocks (s : CacheSet) (v : Nat) (w : Bool) (t : Nat) :
    (fillSet s v w t).blocks = s.blocks.set v ⟨true, w, t⟩ := rfl

theorem fillSet_getElem?_ne (s : CacheSet) (v : Nat) (w : Bool) (t : Nat) {j : Nat}
    (h : v ≠ j) : (fillSet s v w t).blocks[j]? = s.blocks[j]? := by
  rw [fillSet_blocks, List.getElem?_set_ne h]

theorem fillSet_getElem?_self (s : CacheSet) (v : Nat) (w : Bool) (t : Nat)
    (h : v < s.blocks.length) : (fillSet s v w t).blocks[v]? = some ⟨true, w, t⟩ := by
  rw [fillSet_blocks, List.getElem?_set_self h]

theorem SetInv.afterHit {k : Nat} {s : CacheSet} (h : SetInv k s) {i : Nat} {b : CacheBlock}
    (hb : s.blocks[i]? = some b) (hv : b.valid = true) (w : Bool) :
    SetInv k (hitSet s i w) where
  len := by
    rw [hitSet_blocks]
    cases w
    · exact h.len
    · simp only [if_true, markDirty, List.length_modify]; exact h.len
  perm := by
    rw [hitSet_lruOrder]
    have hik : i < k := by
      have := (List.getElem?_eq_some_iff.1 hb).1
      rw [h.len] at this; exact this
    exact (List.perm_cons_erase ((h.mem_lru i).2 hik)).symm.trans h.perm
  validFirst := by
    rw [hitSet_lruOrder, List.pairwise_cons]
    constructor
    · intro j _ _
      rw [hitSet_validAt]
      unfold CacheSet.validAt
      rw [hb]; exact hv
    · have := h.validFirst.sublist (List.erase_sublist i s.lruOrder)
      refine this.imp ?_
      intro x y hxy
      rw [hitSet_validAt, hitSet_validAt]
      exact hxy
  uniqueTags := by
    intro x y bx by' hx hy hvx hvy ht
    rw [hitSet_getElem?] at hx hy
    have key : ∀ z bz, (if i = z then (s.blocks[z]?).map
        (fun b => { b with dirty := b.dirty || w }) else s.blocks[z]?) = some bz →
        ∃ b0, s.blocks[z]? = some b0 ∧ b0.valid = bz.valid ∧ b0.tag = bz.tag := by
      intro z bz hz
      split at hz
      · cases h0 : s.blocks[z]? with
        | none => rw [h0] at hz; cases hz
        | some b0 => rw [h0] at hz; cases hz; exact ⟨b0, rfl, rfl, rfl⟩
      · exact ⟨bz, hz, rfl, rfl⟩
    obtain ⟨b1, h1, h1v, h1t⟩ := key x bx hx
    obtain ⟨b2, h2, h2v, h2t⟩ := key y by' hy
    exact h.uniqueTags x y b1 b2 h1 h2 (h1v.trans hvx) (h2v.trans hvy)
      (h1t.trans (ht.trans h2t.symm))
  cleanInvalid := by
    intro x bx hx hvx
    rw [hitSet_getElem?] at hx
    split at hx
    · rename_i hix
      subst hix
      rw [hb] at hx
      cases hx
      simp only at hvx
      rw [hv] at hvx; cases hvx
    · exact h.cleanInvalid x bx hx hvx

theorem fillSet_validAt_self (s : CacheSet) (v : Nat) (w : Bool) (t : Nat)
    (h : v < s.blocks.length) : (fillSet s v w t).validAt v = true := by
  unfold CacheSet.validAt
  rw [fillSet_getElem?_self s v w t h]

theorem fillSet_validAt_ne (s : CacheSet) (v : Nat) (w : Bool) (t : Nat) {j : Nat}
    (h : v ≠ j) : (fillSet s v w t).validAt j = s.validAt j := by
  unfold CacheSet.validAt
  rw [fillSet_getElem?_ne s v w t h]

theorem SetInv.afterFill {k : Nat} {s : CacheSet} (h : SetInv k s) {v : Nat}
    (hv : s.lruOrder.getLast? = some v) (w : Bool) (t : Nat)
    (hmiss : ∀ m b, m < k → s.blocks[m]? = some b → ¬ (b.valid = true ∧ b.tag = t)) :
    SetInv k (fillSet s v w t) := by
  have hvmem : v ∈ s.lruOrder := List.mem_of_getLast?_eq_some hv
  have hvk : v < k := (h.mem_lru v).1 hvmem
  have hvlen : v < s.blocks.length := by rw [h.len]; exact hvk
  have hnd := h.lru_nodup
  refine ⟨?_, ?_, ?_, ?_, ?_⟩
  · rw [fillSet_blocks, List.length_set]; exact h.len
  · rw [fillSet_lruOrder]
    exact (List.perm_cons_erase hvmem).symm.trans h.perm
  · rw [fillSet_lruOrder, List.pairwise_cons]
    constructor
    · intro j _ _
      exact fillSet_validAt_self s v w t hvlen
    · have := h.validFirst.sublist (List.erase_sublist v s.lruOrder)
      refine this.imp_of_mem ?_
      intro x y hx hy hxy
      have hxv : v ≠ x := fun e => ((hnd.mem_erase_iff).1 hx).1 e.symm
      have hyv : v ≠ y := fun e => ((hnd.mem_erase_iff).1 hy).1 e.symm
      rw [fillSet_validAt_ne s v w t hxv, fillSet_validAt_ne s v w t hyv]
      exact hxy
  · intro x y bx by' hx hy hvx hvy ht
    have hlt : ∀ z bz, (fillSet s v w t).blocks[z]? = some bz → z < k := by
      intro z bz hz
      have := (List.getElem?_eq_some_iff.1 hz).1
      rw [fillSet_blocks, List.length_set, h.len] at this
      exact this
    by_cases hxv : v = x
    · by_cases hyv : v = y
      · exact hxv.symm.trans hyv
      · exfalso
        subst hxv
        rw [fillSet_getElem?_self s v w t hvlen] at hx
        rw [fillSet_getElem?_ne s v w t hyv] at hy
        cases hx
        exact hmiss y by' (hlt y by' (by rw [fillSet_getElem?_ne s v w t hyv]; exact hy)) hy
          ⟨hvy, ht.symm⟩
    · by_cases hyv : v = y
      · exfalso
        subst hyv
        rw [fillSet_getElem?_self s v w t hvlen] at hy
        rw [fillSet_getElem?_ne s v w t hxv] at hx
        cases hy
        exact hmiss x bx (hlt x bx (by rw [fillSet_getElem?_ne s v w t hxv]; exact hx)) hx
          ⟨hvx, ht⟩
      · rw [fillSet_getElem?_ne s v w t hxv] at hx
        rw [fillSet_getElem?_ne s v w t hyv] at hy
        exact h.uniqueTags x y bx by' hx hy hvx hvy ht
  · intro x bx hx hvx
    by_cases hxv : v = x
    · subst hxv
      rw [fillSet_getElem?_self s v w t hvlen] at hx
      cases hx
      cases hvx
    · rw [fillSet_getElem?_ne s v w t hxv] at hx
      exact h.cleanInvalid x bx hx hvx

/-! ### The cache invariant -/

theorem Cache.WF.set {c : Cache} (h : c.WF) (i : Nat) {s : CacheSet}
    (hs : SetInv c.associativity.toNat s) :
    Cache.WF { c with sets := c.sets.set i s } where
  assoc_pos := h.assoc_pos
  numSets_pos := h.numSets_pos
  numSets_lt := h.numSets_lt
  blockSize_pos := h.blockSize_pos
  blockSize_lt := h.blockSize_lt
  sets_len := by simp only [List.length_set]; exact h.sets_len
  sets_inv := by
    intro s' hs'
    rcases List.mem_or_eq_of_mem_set hs' with h1 | h1
    · exact h.sets_inv s' h1
    · rw [h1]; exact hs

theorem SetInv.of_findHit_some {k : Nat} {s : CacheSet} (_h : SetInv k s) {t i : Nat}
    (hf : findHit s.blocks t k 0 = some (some i)) :
    i < k ∧ ∃ b, s.blocks[i]? = some b ∧ b.valid = true ∧ b.tag = t := by
  obtain ⟨_, h2, h3, _⟩ := CacheSim.findHit_some s.blocks t k 0 i hf
  exact ⟨by omega, h3⟩

theorem SetInv.of_findHit_none {k : Nat} {s : CacheSet} (_h : SetInv k s) {t : Nat}
    (hf : findHit s.blocks t k 0 = some none) :
    ∀ m b, m < k → s.blocks[m]? = some b → ¬ (b.valid = true ∧ b.tag = t) := by
  intro m b hm hb
  exact CacheSim.findHit_none s.blocks t k 0 hf m b (Nat.zero_le _) (by omega) hb

theorem SetInv.getLast {k : Nat} {s : CacheSet} (h : SetInv k s) (hk : 0 < k) :
    ∃ v vb, s.lruOrder.getLast? = some v ∧ s.blocks[v]? = some vb ∧ v < k := by
  have hne : s.lruOrder ≠ [] := by
    intro e
    have := h.lru_length
    rw [e] at this
    simp at this
    omega
  have hv := List.getLast?_eq_getLast _ hne
  have hvk : s.lruOrder.getLast hne < k := (h.mem_lru _).1 (List.getLast_mem hne)
  have hvlen : s.lruOrder.getLast hne < s.blocks.length := by rw [h.len]; exact hvk
  exact ⟨_, s.blocks[s.lruOrder.getLast hne], hv, List.getElem?_eq_getElem hvlen, hvk⟩

theorem Cache.WF.assoc_toNat_pos {c : Cache} (h : c.WF) : 0 < c.associativity.toNat := by
  have := h.assoc_pos; omega

/-- On a well-formed cache the last-level access is defined. -/
theorem Cache.WF.accessLast_total {c : Cache} (h : c.WF) (l2Size : Int) (a : Nat) (w : Bool)
    (k : Counters) : ∃ r, c.accessLast l2Size a w k = some r := by
  obtain ⟨set, hset, hinv⟩ := h.getSet a
  obtain ⟨r, hr⟩ := findHit_total set.blocks (c.tagOf a) c.associativity.toNat 0
    (by rw [hinv.len]; omega)
  cases r with
  | some i => exact ⟨_, accessLast_hit_intro h.blockSize_ne h.numSets_ne hset hr⟩
  | none =>
    obtain ⟨v, vb, hv, hvb, _⟩ := hinv.getLast h.assoc_toNat_pos
    exact ⟨_, accessLast_miss_intro h.blockSize_ne h.numSets_ne hset hr hv hvb⟩

/-- The last-level access keeps the cache invariant. -/
theorem Cache.WF.step_last {c : Cache} (h : c.WF) {l2Size : Int} {a : Nat} {w : Bool}
    {k : Counters} {r : Bool × Cache × Counters} (hr : c.accessLast l2Size a w k = some r) :
    r.2.1.WF := by
  obtain ⟨_, _, set, hset, hcase⟩ := accessLast_cases hr
  obtain ⟨set', hset', hinv⟩ := h.getSet a
  rw [hset] at hset'
  cases hset'
  rcases hcase with ⟨i, hi, rfl⟩ | ⟨hi, v, vb, hv, _, rfl⟩
  · obtain ⟨_, b, hb, hbv, _⟩ := hinv.of_findHit_some hi
    exact h.set _ (hinv.afterHit hb hbv w)
  · exact h.set _ (hinv.afterFill hv w _ (hinv.of_findHit_none hi))

/-- The cache part of any access is the cache part of a last-level access. -/
theorem access_shadow {l2Size : Int} {c : Cache} {a : Nat} {w : Bool} {next : Option Cache}
    {k : Counters} {r : Bool × Cache × Option Cache × Counters}
    (hr : c.access l2Size a w next k = some r) :
    ∃ k', c.accessLast l2Size a w k = some (r.1, r.2.1, k') := by
  cases next with
  | none =>
    rw [access_none_eq] at hr
    cases h0 : c.accessLast l2Size a w k with
    | none => rw [h0] at hr; cases hr
    | some r0 =>
      rw [h0] at hr
      simp only [Option.map_some', Option.some.injEq] at hr
      subst hr
      exact ⟨r0.2.2, rfl⟩
  | some n =>
    obtain ⟨hb, hn, set, hset, hcase⟩ := access_some_cases hr
    rcases hcase with ⟨i, hi, rfl⟩ | ⟨hi, v, vb, n1, k1, l2Hit, n2, k3, hv, hvb, _, _, rfl⟩
    · exact ⟨_, accessLast_hit_intro hb hn hset hi⟩
    · exact ⟨_, accessLast_miss_intro hb hn hset hi hv hvb⟩

theorem Cache.WF.step {c : Cache} (h : c.WF) {l2Size : Int} {a : Nat} {w : Bool}
    {next : Option Cache} {k : Counters} {r : Bool × Cache × Option Cache × Counters}
    (hr : c.access l2Size a w next k = some r) : r.2.1.WF := by
  obtain ⟨k', hk'⟩ := access_shadow hr
  exact h.step_last hk'

theorem writeBack_some_cases {l2Size : Int} {addr : Nat} {n : Cache} {k : Counters}
    {r : Option Cache × Counters} (h : Cache.writeBack l2Size addr (some n) k = some r) :
    ∃ l2Hit n1 k3,
      n.accessLast l2Size addr true
        { k with l2Writes := k.l2Writes + 1, l1Writebacks := k.l1Writebacks + 1 }
        = some (l2Hit, n1, k3) ∧
      r = (some n1, if !l2Hit then { k3 with l2WriteMisses := k3.l2WriteMisses + 1 } else k3) := by
  unfold Cache.writeBack at h
  simp only at h
  split at h
  · cases h
  · rename_i l2Hit n1 k3 heq
    simp only [Option.some.injEq] at h
    exact ⟨l2Hit, n1, k3, heq, h.symm⟩

theorem writeBack_some_intro {l2Size : Int} {addr : Nat} {n : Cache} {k : Counters}
    {l2Hit : Bool} {n1 : Cache} {k3 : Counters}
    (h : n.accessLast l2Size addr true
        { k with l2Writes := k.l2Writes + 1, l1Writebacks := k.l1Writebacks + 1 }
        = some (l2Hit, n1, k3)) :
    Cache.writeBack l2Size addr (some n) k
      = some (some n1,
          if !l2Hit then { k3 with l2WriteMisses := k3.l2WriteMisses + 1 } else k3) := by
  unfold Cache.writeBack
  simp only
  rw [h]

/-- With a well-formed next level, lines 78-91 are defined and leave it well formed. -/
theorem evictBelow_total (l2Size : Int) (c : Cache) (si : Nat) (vb : CacheBlock) {n : Cache}
    (hn : n.WF) (k : Counters) :
    ∃ n1 k1, c.evictBelow l2Size si vb n k = some (some n1, k1) ∧ n1.WF := by
  unfold Cache.evictBelow
  split
  · obtain ⟨r, hr⟩ := hn.accessLast_total l2Size (c.victimAddress vb si) true
      { k with l2Writes := k.l2Writes + 1, l1Writebacks := k.l1Writebacks + 1 }
    obtain ⟨l2Hit, n1, k3⟩ := r
    exact ⟨n1, _, writeBack_some_intro hr, hn.step_last hr⟩
  · exact ⟨n, k, rfl, hn⟩

/-- On a well-formed cache with a well-formed (or absent) next level, `Cache::access` is
defined. -/
theorem Cache.WF.access_total {c : Cache} (h : c.WF) (l2Size : Int) (a : Nat) (w : Bool)
    (next : Option Cache) (hnext : ∀ n, next = some n → n.WF) (k : Counters) :
    ∃ r, c.access l2Size a w next k = some r := by
  cases next with
  | none =>
    obtain ⟨r, hr⟩ := h.accessLast_total l2Size a w k
    rw [access_none_eq, hr]
    exact ⟨_, rfl⟩
  | some n =>
    have hn := hnext n rfl
    obtain ⟨set, hset, hinv⟩ := h.getSet a
    obtain ⟨r, hr⟩ := findHit_total set.blocks (c.tagOf a) c.associativity.toNat 0
      (by rw [hinv.len]; omega)
    cases r with
    | some i => exact ⟨_, access_some_hit_intro h.blockSize_ne h.numSets_ne hset hr⟩
    | none =>
      obtain ⟨v, vb, hv, hvb, _⟩ := hinv.getLast h.assoc_toNat_pos
      obtain ⟨n1, k1, hwb, hn1⟩ := evictBelow_total l2Size c (c.setIndexOf a) vb hn k
      obtain ⟨r2, hr2⟩ := hn1.accessLast_total l2Size a false
        { k1 with l2Reads := k1.l2Reads + 1 }
      obtain ⟨l2Hit, n2, k3⟩ := r2
      exact ⟨_, access_some_miss_intro h.blockSize_ne h.numSets_ne hset hr hv hvb hwb hr2⟩

/-- The next level stays well formed across an access. -/
theorem Cache.WF.access_next {c : Cache} {l2Size : Int} {a : Nat} {w : Bool}
    {n : Cache} (hn : n.WF) {k : Counters} {r : Bool × Cache × Option Cache × Counters}
    (hr : c.access l2Size a w (some n) k = some r) : ∃ n', r.2.2.1 = some n' ∧ n'.WF := by
  obtain ⟨_, _, set, _, hcase⟩ := access_some_cases hr
  rcases hcase with ⟨i, _, rfl⟩ | ⟨_, v, vb, n1, k1, l2Hit, n2, k3, _, _, hwb, hl2, rfl⟩
  · exact ⟨n, rfl, hn⟩
  · refine ⟨n2, rfl, ?_⟩
    have hn1 : n1.WF := by
      unfold Cache.evictBelow at hwb
      split at hwb
      · obtain ⟨h2, m1, k3', hacc, hreq⟩ := writeBack_some_cases hwb
        simp only [Prod.mk.injEq, Option.some.injEq] at hreq
        rw [hreq.1]
        exact hn.step_last hacc
      · simp only [Option.some.injEq, Prod.mk.injEq] at hwb
        rw [← hwb.1]; exact hn
    exact hn1.step_last hl2

/-! ### Construction -/

theorem ValidLevel.facts {size associativity blockSize : Int}
    (h : ValidLevel size associativity blockSize) :
    0 < associativity * blockSize ∧ associativity * blockSize ≤ size ∧
    Int.tdiv size (associativity * blockSize) = size / (associativity * blockSize) ∧
    size / (associativity * blockSize) ≤ size ∧ blockSize ≤ associativity * blockSize := by
  obtain ⟨h1, h2, h3, h4⟩ := h
  have hp : 0 < associativity * blockSize := Int.mul_pos (by omega) (by omega)
  have hs : 0 ≤ size := by
    by_contra hneg
    have hneg' : 0 ≤ -size := by omega
    have := Int.tdiv_nonneg hneg' (Int.le_of_lt hp)
    rw [show size = -(-size) by omega, Int.neg_tdiv] at h4
    omega
  have he := Int.tdiv_eq_ediv hs (Int.le_of_lt hp)
  rw [he] at h4
  refine ⟨hp, ?_, he, Int.ediv_le_self _ hs, ?_⟩
  · have := (Int.le_ediv_iff_mul_le hp).1 h4
    omega
  · nlinarith

/-- With a valid configuration the constructor succeeds, with the stated contents. -/
theorem Cache.new_valid {size associativity blockSize : Int}
    (h : ValidLevel size associativity blockSize) :
    Cache.new size associativity blockSize = some
      { size := size
        associativity := associativity
        blockSize := blockSize
        numSets := Int.tdiv size (associativity * blockSize)
        sets := List.replicate (Int.tdiv size (associativity * blockSize)).toNat
          { blocks := List.replicate associativity.toNat CacheBlock.empty
            lruOrder := List.range associativity.toNat } } := by
  obtain ⟨hp, hle, he, hdl, hb⟩ := h.facts
  obtain ⟨h1, h2, h3, h4⟩ := h
  unfold Cache.new
  have i1 : inInt32 (associativity * blockSize) := ⟨by omega, by omega⟩
  have i2 : inInt32 (Int.tdiv size (associativity * blockSize)) := ⟨by omega, by omega⟩
  have i3 : ¬ (associativity * blockSize = 0) := by omega
  have i4 : ¬ (Int.tdiv size (associativity * blockSize) < 0) := by omega
  have i5 : ¬ (0 < Int.tdiv size (associativity * blockSize) ∧ associativity < 0) := by omega
  simp only [i1, i2, i3, i4, i5, not_true_eq_false, if_false]

theorem Cache.new_wf {size associativity blockSize : Int} {c : Cache}
    (h : ValidLevel size associativity blockSize)
    (hc : Cache.new size associativity blockSize = some c) : c.WF := by
  rw [Cache.new_valid h] at hc
  obtain ⟨hp, hle, he, hdl, hb⟩ := h.facts
  obtain ⟨h1, h2, h3, h4⟩ := h
  simp only [Option.some.injEq] at hc
  subst hc
  refine ⟨h2, h4, by simp only; omega, h3, by simp only; omega, by simp, ?_⟩
  intro s hs
  rw [List.eq_of_mem_replicate hs]
  exact SetInv.init_set _

theorem Cache.Reachable.wf {c : Cache} (h : c.Reachable) : c.WF := by
  induction h with
  | init size associativity blockSize c hv hc => exact Cache.new_wf hv hc
  | step l2Size c a w next k r _ hr ih => exact ih.step hr

theorem Cache.WF.setIndexOf_eq {c : Cache} (h : c.WF) (a : Nat) :
    c.setIndexOf a = (a / c.blockSize.toNat) % c.numSets.toNat := by
  unfold Cache.setIndexOf
  rw [h.toU32_blockSize, h.toU32_numSets]

theorem Cache.WF.tagOf_eq {c : Cache} (h : c.WF) (a : Nat) :
    c.tagOf a = (a / c.blockSize.toNat) / c.numSets.toNat := by
  unfold Cache.tagOf
  rw [h.toU32_blockSize, h.toU32_numSets]

theorem updateLRU_eq_filter {s : CacheSet} (hnd : s.lruOrder.Nodup) (i : Nat) :
    (updateLRU s i).lruOrder = i :: s.lruOrder.filter (fun j => j != i) := by
  unfold updateLRU
  simp only
  rw [hnd.erase_eq_filter]

/-- C2. In every cache state reachable from the constructor by `Cache::access` calls, the
`lruOrder` of every set is a permutation of `[0, associativity)`: it has exactly
`associativity` entries and contains every line index exactly once. Moreover `updateLRU`
applied to a set whose order is a permutation of `[0, k)` and to an index below `k` yields a
permutation of `[0, k)` that is the index followed by the old order with that index removed
(so the index is at the head and the other indices keep their relative order), and it leaves
the lines untouched. -/
theorem lruOrder_permutation (c : Cache) (hc : c.Reachable) :
    (∀ s ∈ c.sets,
      s.lruOrder.Perm (List.range c.associativity.toNat) ∧
      s.lruOrder.length = c.associativity.toNat ∧
      ∀ i, i < c.associativity.toNat → s.lruOrder.count i = 1) ∧
    (∀ (s : CacheSet) (k i : Nat), s.lruOrder.Perm (List.range k) → i < k →
      (updateLRU s i).lruOrder.Perm (List.range k) ∧
      (updateLRU s i).lruOrder = i :: s.lruOrder.filter (fun j => j != i) ∧
      (updateLRU s i).blocks = s.blocks) := by
  constructor
  · intro s hs
    have hinv := hc.wf.sets_inv s hs
    refine ⟨hinv.perm, hinv.lru_length, ?_⟩
    intro i hi
    exact List.count_eq_one_of_mem hinv.lru_nodup ((hinv.mem_lru i).2 hi)
  · intro s k i hp hi
    have hnd : s.lruOrder.Nodup := (hp.nodup_iff).2 (List.nodup_range k)
    have hmem : i ∈ s.lruOrder := (hp.mem_iff).2 (List.mem_range.2 hi)
    refine ⟨?_, updateLRU_eq_filter hnd i, rfl⟩
    exact (List.perm_cons_erase hmem).symm.trans hp

theorem freshCache_reachable : freshCache.Reachable :=
  Cache.Reachable.init 16 2 4 freshCache (by decide) (by decide)

theorem sampleCache_reachable : sampleCache.Reachable :=
  Cache.Reachable.step 0 freshCache 0 false none Counters.zero
    (false, sampleCache, none, ⟨1, 0, 0, 0, 0, 0, 0⟩) freshCache_reachable (by decide)

theorem lruOrder_permutation_witness :
    (∀ s ∈ sampleCache.sets,
      s.lruOrder.Perm (List.range sampleCache.associativity.toNat) ∧
      s.lruOrder.length = sampleCache.associativity.toNat ∧
      ∀ i, i < sampleCache.associativity.toNat → s.lruOrder.count i = 1) ∧
    (∀ (s : CacheSet) (k i : Nat), s.lruOrder.Perm (List.range k) → i < k →
      (updateLRU s i).lruOrder.Perm (List.range k) ∧
      (updateLRU s i).lruOrder = i :: s.lruOrder.filter (fun j => j != i) ∧
      (updateLRU s i).blocks = s.blocks) :=
  lruOrder_permutation sampleCache sampleCache_reachable

theorem Cache.Reachable.next_wf {next : Option Cache}
    (h : ∀ n, next = some n → n.Reachable) : ∀ n, next = some n → n.WF :=
  fun n hn => (h n hn).wf

/-- C3. In every reachable cache state, for every address and access kind (and any reachable
or absent next level), `Cache::access` returns, and it returns `true` exactly when some line
of set `(address / blockSize) mod numSets` is valid, in the state before the call, with tag
`(address / blockSize) / numSets`; otherwise it returns `false`. -/
theorem access_hit_iff (c : Cache) (hc : c.Reachable) (l2Size : Int) (a : Nat) (w : Bool)
    (next : Option Cache) (hnext : ∀ n, next = some n → n.Reachable) (k : Counters) :
    ∃ r, c.access l2Size a w next k = some r ∧
      (r.1 = true ↔
        ∃ (set : CacheSet) (i : Nat) (b : CacheBlock), c.sets[(a / c.blockSize.toNat) % c.numSets.toNat]? = some set ∧
          set.blocks[i]? = some b ∧ b.valid = true ∧
          b.tag = (a / c.blockSize.toNat) / c.numSets.toNat) ∧
      (r.1 = false ↔
        ¬ ∃ (set : CacheSet) (i : Nat) (b : CacheBlock), c.sets[(a / c.blockSize.toNat) % c.numSets.toNat]? = some set ∧
          set.blocks[i]? = some b ∧ b.valid = true ∧
          b.tag = (a / c.blockSize.toNat) / c.numSets.toNat) := by
  have hwf := hc.wf
  obtain ⟨r, hr⟩ := hwf.access_total l2Size a w next (Cache.Reachable.next_wf hnext) k
  refine ⟨r, hr, ?_⟩
  have key : r.1 = true ↔
      ∃ (set : CacheSet) (i : Nat) (b : CacheBlock), c.sets[(a / c.blockSize.toNat) % c.numSets.toNat]? = some set ∧
          set.blocks[i]? = some b ∧ b.valid = true ∧
          b.tag = (a / c.blockSize.toNat) / c.numSets.toNat := by
    rw [← hwf.setIndexOf_eq, ← hwf.tagOf_eq]
    obtain ⟨k', hk'⟩ := access_shadow hr
    obtain ⟨_, _, set, hset, hcase⟩ := accessLast_cases hk'
    obtain ⟨set', hset', hinv⟩ := hwf.getSet a
    rw [hset] at hset'
    cases hset'
    rcases hcase with ⟨i, hi, hreq⟩ | ⟨hi, v, vb, _, _, hreq⟩
    · have h1 : r.1 = true := by
        have := congrArg Prod.fst hreq
        exact this
      obtain ⟨_, b, hb, hbv, hbt⟩ := hinv.of_findHit_some hi
      exact ⟨fun _ => ⟨set, i, b, hset, hb, hbv, hbt⟩, fun _ => h1⟩
    · have h1 : r.1 = false := by
        have := congrArg Prod.fst hreq
        exact this
      constructor
      · intro h2; rw [h1] at h2; cases h2
      · rintro ⟨set2, i, b, hset2, hb, hbv, hbt⟩
        rw [hset] at hset2
        cases hset2
        have hik : i < c.associativity.toNat := by
          have := (List.getElem?_eq_some_iff.1 hb).1
          rw [hinv.len] at this; exact this
        exact absurd ⟨hbv, hbt⟩ (hinv.of_findHit_none hi i b hik hb)
  refine ⟨key, ?_⟩
  rw [← key]
  cases r.1 <;> simp

theorem access_hit_iff_witness :
    ∃ r, sampleCache.access 0 0 true none Counters.zero = some r ∧
      (r.1 = true ↔
        ∃ (set : CacheSet) (i : Nat) (b : CacheBlock),
          sampleCache.sets[(0 / sampleCache.blockSize.toNat) % sampleCache.numSets.toNat]?
            = some set ∧
          set.blocks[i]? = some b ∧ b.valid = true ∧
          b.tag = (0 / sampleCache.blockSize.toNat) / sampleCache.numSets.toNat) ∧
      (r.1 = false ↔
        ¬ ∃ (set : CacheSet) (i : Nat) (b : CacheBlock),
          sampleCache.sets[(0 / sampleCache.blockSize.toNat) % sampleCache.numSets.toNat]?
            = some set ∧
          set.blocks[i]? = some b ∧ b.valid = true ∧
          b.tag = (0 / sampleCache.blockSize.toNat) / sampleCache.numSets.toNat) :=
  access_hit_iff sampleCache sampleCache_reachable 0 0 true none
    (fun _ hn => by cases hn) Counters.zero

theorem access_params {l2Size : Int} {c : Cache} {a : Nat} {w : Bool} {next : Option Cache}
    {k : Counters} {r : Bool × Cache × Option Cache × Counters}
    (hr : c.access l2Size a w next k = some r) :
    r.2.1.size = c.size ∧ r.2.1.associativity = c.associativity ∧
    r.2.1.blockSize = c.blockSize ∧ r.2.1.numSets = c.numSets ∧
    r.2.1.sets.length = c.sets.length := by
  obtain ⟨k', hk'⟩ := access_shadow hr
  obtain ⟨_, _, set, hset, hcase⟩ := accessLast_cases hk'
  rcases hcase with ⟨i, hi, hreq⟩ | ⟨hi, v, vb, _, _, hreq⟩
  · have := congrArg (fun x => x.2.1) hreq
    simp only at this
    rw [this]
    simp
  · have := congrArg (fun x => x.2.1) hreq
    simp only at this
    rw [this]
    simp

/-- The state after a hit, given explicitly. -/
theorem Cache.WF.access_hit {c : Cache} (hwf : c.WF) (l2Size : Int) (a : Nat) (w : Bool)
    (next : Option Cache) (k : Counters) (c1 : Cache) (next1 : Option Cache) (k1 : Counters)
    (h : c.access l2Size a w next k = some (true, c1, next1, k1)) :
    k1 = k ∧ next1 = next ∧
    ∃ (set : CacheSet) (i : Nat) (b : CacheBlock),
      c.sets[(a / c.blockSize.toNat) % c.numSets.toNat]? = some set ∧
      set.blocks[i]? = some b ∧ b.valid = true ∧
      b.tag = (a / c.blockSize.toNat) / c.numSets.toNat ∧
      (∀ (j : Nat) (bj : CacheBlock), set.blocks[j]? = some bj → bj.valid = true →
        bj.tag = (a / c.blockSize.toNat) / c.numSets.toNat → j = i) ∧
      c1 = { c with
              sets := c.sets.set ((a / c.blockSize.toNat) % c.numSets.toNat)
                ⟨set.blocks.set i ⟨b.valid, (if w then true else b.dirty), b.tag⟩,
                  i :: set.lruOrder.filter (fun j => j != i)⟩ } := by
  rw [← hwf.setIndexOf_eq, ← hwf.tagOf_eq]
  obtain ⟨set, hset, hinv⟩ := hwf.getSet a
  have hfin : ∀ i, findHit set.blocks (c.tagOf a) c.associativity.toNat 0 = some (some i) →
      c1 = { c with sets := c.sets.set (c.setIndexOf a) (hitSet set i w) } →
      ∃ (set : CacheSet) (i : Nat) (b : CacheBlock),
      c.sets[c.setIndexOf a]? = some set ∧
      set.blocks[i]? = some b ∧ b.valid = true ∧ b.tag = c.tagOf a ∧
      (∀ (j : Nat) (bj : CacheBlock), set.blocks[j]? = some bj → bj.valid = true → bj.tag = c.tagOf a → j = i) ∧
      c1 = { c with
              sets := c.sets.set (c.setIndexOf a)
                ⟨set.blocks.set i ⟨b.valid, (if w then true else b.dirty), b.tag⟩,
                  i :: set.lruOrder.filter (fun j => j != i)⟩ } := by
    intro i hi hc1
    obtain ⟨_, b, hb, hbv, hbt⟩ := hinv.of_findHit_some hi
    refine ⟨set, i, b, hset, hb, hbv, hbt, ?_, ?_⟩
    · intro j bj hj hjv hjt
      exact hinv.uniqueTags j i bj b hj hb hjv hbv (hjt.trans hbt.symm)
    · rw [hc1]
      congr 2
      have hl : (hitSet set i w).lruOrder = i :: set.lruOrder.filter (fun j => j != i) := by
        rw [hitSet_lruOrder, hinv.lru_nodup.erase_eq_filter]
      have hbl : (hitSet set i w).blocks
          = set.blocks.set i ⟨b.valid, (if w then true else b.dirty), b.tag⟩ := by
        apply List.ext_getElem?
        intro j
        rw [hitSet_getElem?, List.getElem?_set]
        by_cases hij : i = j
        · subst hij
          have hlt := (List.getElem?_eq_some_iff.1 hb).1
          simp only [if_true, hb, hlt, Option.map_some']
          cases w <;> simp
        · simp only [hij, if_false]
      cases hs : hitSet set i w with
      | mk bl lr =>
        rw [hs] at hl hbl
        simp only at hl hbl
        rw [hl, hbl]
  cases next with
  | none =>
    rw [access_none_eq] at h
    cases h0 : c.accessLast l2Size a w k with
    | none => rw [h0] at h; cases h
    | some r0 =>
      rw [h0] at h
      simp only [Option.map_some', Option.some.injEq, Prod.mk.injEq] at h
      obtain ⟨h1, h2, h3, h4⟩ := h
      obtain ⟨_, _, set', hset', hcase⟩ := accessLast_cases h0
      rw [hset] at hset'
      cases hset'
      rcases hcase with ⟨i, hi, hreq⟩ | ⟨hi, v, vb, _, _, hreq⟩
      · rw [hreq] at h2 h4
        simp only at h2 h4
        exact ⟨h4.symm, h3.symm, hfin i hi h2.symm⟩
      · rw [hreq] at h1
        cases h1
  | some n =>
    obtain ⟨_, _, set', hset', hcase⟩ := access_some_cases h
    rw [hset] at hset'
    cases hset'
    rcases hcase with ⟨i, hi, hreq⟩ | ⟨hi, v, vb, n1, k1', l2Hit, n2, k3, _, _, _, _, hreq⟩
    · simp only [Prod.mk.injEq, true_and] at hreq
      exact ⟨hreq.2.2, hreq.2.1, hfin i hi hreq.1⟩
    · simp only [Prod.mk.injEq] at hreq
      cases hreq.1

/-- C4. Whenever `Cache::access` returns `true` in a reachable cache state: the seven counters
are unchanged and so is the next level; exactly one line of the target set is valid with the
requested tag; the cache afterwards differs from the cache before only in the target set,
whose lines are the old lines except that the matching line has dirty flag `true` when
`isWrite` holds and its old dirty flag otherwise (valid flags and tags are all unchanged), and
whose `lruOrder` is the matching index followed by the old order with that index removed. -/
theorem hit_effect (c : Cache) (hc : c.Reachable) (l2Size : Int) (a : Nat) (w : Bool)
    (next : Option Cache) (k : Counters) (c1 : Cache) (next1 : Option Cache) (k1 : Counters)
    (h : c.access l2Size a w next k = some (true, c1, next1, k1)) :
    k1 = k ∧ next1 = next ∧
    ∃ (set : CacheSet) (i : Nat) (b : CacheBlock),
      c.sets[(a / c.blockSize.toNat) % c.numSets.toNat]? = some set ∧
      set.blocks[i]? = some b ∧ b.valid = true ∧
      b.tag = (a / c.blockSize.toNat) / c.numSets.toNat ∧
      (∀ (j : Nat) (bj : CacheBlock), set.blocks[j]? = some bj → bj.valid = true →
        bj.tag = (a / c.blockSize.toNat) / c.numSets.toNat → j = i) ∧
      c1 = { c with
              sets := c.sets.set ((a / c.blockSize.toNat) % c.numSets.toNat)
                ⟨set.blocks.set i ⟨b.valid, (if w then true else b.dirty), b.tag⟩,
                  i :: set.lruOrder.filter (fun j => j != i)⟩ } := by
  exact hc.wf.access_hit l2Size a w next k c1 next1 k1 h

theorem hit_effect_witness :
    (⟨1, 0, 0, 0, 0, 0, 0⟩ : Counters) = ⟨1, 0, 0, 0, 0, 0, 0⟩ ∧ (none : Option Cache) = none ∧
    ∃ (set : CacheSet) (i : Nat) (b : CacheBlock),
      sampleCache.sets[(0 / sampleCache.blockSize.toNat) % sampleCache.numSets.toNat]?
        = some set ∧
      set.blocks[i]? = some b ∧ b.valid = true ∧
      b.tag = (0 / sampleCache.blockSize.toNat) / sampleCache.numSets.toNat ∧
      (∀ (j : Nat) (bj : CacheBlock), set.blocks[j]? = some bj → bj.valid = true →
        bj.tag = (0 / sampleCache.blockSize.toNat) / sampleCache.numSets.toNat → j = i) ∧
      sampleCacheHit = { sampleCache with
              sets := sampleCache.sets.set
                ((0 / sampleCache.blockSize.toNat) % sampleCache.numSets.toNat)
                ⟨set.blocks.set i ⟨b.valid, (if true then true else b.dirty), b.tag⟩,
                  i :: set.lruOrder.filter (fun j => j != i)⟩ } :=
  hit_effect sampleCache sampleCache_reachable 0 0 true none ⟨1, 0, 0, 0, 0, 0, 0⟩
    sampleCacheHit none ⟨1, 0, 0, 0, 0, 0, 0⟩ (by decide)

/-- C5. Whenever `Cache::access(address, isWrite, ...)` returns `false` in a reachable cache
state, the line that was at the tail of the target set's `lruOrder` before the call is
afterwards valid with tag `(address / blockSize) / numSets` and dirty flag `isWrite`, and its
index is at the head of that set's `lruOrder`; every other line of that set is unchanged, the
rest of the `lruOrder` is the old order without the victim index (so the other lines keep
their relative LRU position), and every other set of the cache is unchanged, as are the
configuration members. -/
theorem miss_effect (c : Cache) (hc : c.Reachable) (l2Size : Int) (a : Nat) (w : Bool)
    (next : Option Cache) (k : Counters) (c1 : Cache) (next1 : Option Cache) (k1 : Counters)
    (h : c.access l2Size a w next k = some (false, c1, next1, k1)) :
    ∃ (set set1 : CacheSet) (v : Nat),
      c.sets[(a / c.blockSize.toNat) % c.numSets.toNat]? = some set ∧
      set.lruOrder.getLast? = some v ∧
      c1.sets[(a / c.blockSize.toNat) % c.numSets.toNat]? = some set1 ∧
      set1.blocks[v]? = some ⟨true, w, (a / c.blockSize.toNat) / c.numSets.toNat⟩ ∧
      set1.lruOrder = v :: set.lruOrder.filter (fun j => j != v) ∧
      set1.blocks.length = set.blocks.length ∧
      (∀ j, j ≠ v → set1.blocks[j]? = set.blocks[j]?) ∧
      c1.sets.length = c.sets.length ∧
      (∀ s, s ≠ (a / c.blockSize.toNat) % c.numSets.toNat → c1.sets[s]? = c.sets[s]?) ∧
      c1.size = c.size ∧ c1.associativity = c.associativity ∧
      c1.blockSize = c.blockSize ∧ c1.numSets = c.numSets := by
  have hwf := hc.wf
  rw [← hwf.setIndexOf_eq, ← hwf.tagOf_eq]
  obtain ⟨set, hset, hinv⟩ := hwf.getSet a
  obtain ⟨k', hk'⟩ := access_shadow h
  simp only at hk'
  obtain ⟨_, _, set', hset', hcase⟩ := accessLast_cases hk'
  rw [hset] at hset'
  cases hset'
  rcases hcase with ⟨i, hi, hreq⟩ | ⟨hi, v, vb, hv, hvb, hreq⟩
  · simp only [Prod.mk.injEq] at hreq
    cases hreq.1
  · simp only [Prod.mk.injEq, true_and] at hreq
    have hc1 := hreq.1
    have hsi := hwf.setIndexOf_lt a
    have hvlen : v < set.blocks.length := (List.getElem?_eq_some_iff.1 hvb).1
    refine ⟨set, fillSet set v w (c.tagOf a), v, hset, hv, ?_, ?_, ?_, ?_, ?_, ?_, ?_, ?_⟩
    · rw [hc1]
      simp only
      rw [List.getElem?_set_self hsi]
    · exact fillSet_getElem?_self set v w _ hvlen
    · rw [fillSet_lruOrder, hinv.lru_nodup.erase_eq_filter]
    · rw [fillSet_blocks, List.length_set]
    · intro j hj
      exact fillSet_getElem?_ne set v w _ (Ne.symm hj)
    · rw [hc1]; simp
    · intro s hs
      rw [hc1]
      simp only
      rw [List.getElem?_set_ne (Ne.symm hs)]
    · rw [hc1]; simp

theorem miss_effect_witness :
    ∃ (set set1 : CacheSet) (v : Nat),
      sampleCache.sets[(8 / sampleCache.blockSize.toNat) % sampleCache.numSets.toNat]?
        = some set ∧
      set.lruOrder.getLast? = some v ∧
      sampleCacheMiss.sets[(8 / sampleCache.blockSize.toNat) % sampleCache.numSets.toNat]?
        = some set1 ∧
      set1.blocks[v]?
        = some ⟨true, true, (8 / sampleCache.blockSize.toNat) / sampleCache.numSets.toNat⟩ ∧
      set1.lruOrder = v :: set.lruOrder.filter (fun j => j != v) ∧
      set1.blocks.length = set.blocks.length ∧
      (∀ j, j ≠ v → set1.blocks[j]? = set.blocks[j]?) ∧
      sampleCacheMiss.sets.length = sampleCache.sets.length ∧
      (∀ s, s ≠ (8 / sampleCache.blockSize.toNat) % sampleCache.numSets.toNat →
        sampleCacheMiss.sets[s]? = sampleCache.sets[s]?) ∧
      sampleCacheMiss.size = sampleCache.size ∧
      sampleCacheMiss.associativity = sampleCache.associativity ∧
      sampleCacheMiss.blockSize = sampleCache.blockSize ∧
      sampleCacheMiss.numSets = sampleCache.numSets :=
  miss_effect sampleCache sampleCache_reachable 0 8 true none ⟨1, 0, 0, 0, 0, 0, 0⟩
    sampleCacheMiss none ⟨2, 0, 0, 0, 0, 0, 0⟩ (by decide)

/-! ### Refinement of the reference LRU list -/

theorem filterMap_erase_of_inj {f : Nat → Option Nat} {t : Nat} :
    ∀ (l : List Nat) (i : Nat), i ∈ l → f i = some t → (∀ j ∈ l, f j = some t → j = i) →
      (l.erase i).filterMap f = (l.filterMap f).erase t := by
  intro l
  induction l with
  | nil => intro i hi; cases hi
  | cons x xs ih =>
    intro i hi hfi hinj
    by_cases hxi : x = i
    · subst hxi
      rw [List.erase_cons_head, List.filterMap_cons_some hfi, List.erase_cons_head]
    · have hi' : i ∈ xs := by
        rcases List.mem_cons.1 hi with h | h
        · exact absurd h.symm hxi
        · exact h
      have hinj' : ∀ j ∈ xs, f j = some t → j = i :=
        fun j hj => hinj j (List.mem_cons_of_mem _ hj)
      rw [List.erase_cons_tail (by simpa using hxi)]
      cases hfx : f x with
      | none =>
        rw [List.filterMap_cons_none hfx, List.filterMap_cons_none hfx]
        exact ih i hi' hfi hinj'
      | some u =>
        have hut : u ≠ t := by
          intro e
          subst e
          exact hxi (hinj x (List.mem_cons_self _ _) hfx)
        rw [List.filterMap_cons_some hfx, List.filterMap_cons_some hfx,
          List.erase_cons_tail (by simpa using hut), ih i hi' hfi hinj']

theorem filterMap_length_of_isSome {f : Nat → Option Nat} :
    ∀ (l : List Nat), (∀ x ∈ l, ∃ u, f x = some u) → (l.filterMap f).length = l.length := by
  intro l
  induction l with
  | nil => intro _; rfl
  | cons x xs ih =>
    intro h
    obtain ⟨u, hu⟩ := h x (List.mem_cons_self _ _)
    rw [List.filterMap_cons_some hu, List.length_cons, List.length_cons,
      ih (fun y hy => h y (List.mem_cons_of_mem _ hy))]

theorem filterMap_congr_mem {f g : Nat → Option Nat} :
    ∀ (l : List Nat), (∀ x ∈ l, f x = g x) → l.filterMap f = l.filterMap g := by
  intro l
  induction l with
  | nil => intro _; rfl
  | cons x xs ih =>
    intro h
    have hx := h x (List.mem_cons_self _ _)
    have hxs := ih (fun y hy => h y (List.mem_cons_of_mem _ hy))
    cases hg : g x with
    | none =>
      rw [List.filterMap_cons_none (hx.trans hg), List.filterMap_cons_none hg, hxs]
    | some u =>
      rw [List.filterMap_cons_some (hx.trans hg), List.filterMap_cons_some hg, hxs]

theorem tagAt_eq_some {s : CacheSet} {i t : Nat} :
    s.tagAt i = some t ↔ ∃ b, s.blocks[i]? = some b ∧ b.valid = true ∧ b.tag = t := by
  unfold CacheSet.tagAt
  cases h : s.blocks[i]? with
  | none => simp
  | some b =>
    by_cases hv : b.valid = true
    · simp [hv]
    · simp [hv]

theorem mem_residentTags {s : CacheSet} {t : Nat} :
    t ∈ s.residentTags ↔
      ∃ i ∈ s.lruOrder, ∃ b, s.blocks[i]? = some b ∧ b.valid = true ∧ b.tag = t := by
  unfold CacheSet.residentTags
  rw [List.mem_filterMap]
  constructor
  · rintro ⟨i, hi, hti⟩
    exact ⟨i, hi, tagAt_eq_some.1 hti⟩
  · rintro ⟨i, hi, hb⟩
    exact ⟨i, hi, tagAt_eq_some.2 hb⟩

theorem hitSet_tagAt (s : CacheSet) (i j : Nat) (w : Bool) :
    (hitSet s i w).tagAt j = s.tagAt j := by
  unfold CacheSet.tagAt
  rw [hitSet_getElem?]
  by_cases h : i = j
  · simp only [h, if_true]
    cases s.blocks[j]? <;> rfl
  · simp only [h, if_false]

/-- A hit acts on the resident tags as the reference list prescribes. -/
theorem SetInv.residentTags_hit {k : Nat} {s : CacheSet} (h : SetInv k s) {i : Nat}
    {b : CacheBlock} (hb : s.blocks[i]? = some b) (hv : b.valid = true) (w : Bool) :
    (hitSet s i w).residentTags = refLRU k s.residentTags b.tag := by
  have hik : i < k := by
    have := (List.getElem?_eq_some_iff.1 hb).1
    rw [h.len] at this; exact this
  have himem : i ∈ s.lruOrder := (h.mem_lru i).2 hik
  have hti : s.tagAt i = some b.tag := tagAt_eq_some.2 ⟨b, hb, hv, rfl⟩
  have hmem : b.tag ∈ s.residentTags := mem_residentTags.2 ⟨i, himem, b, hb, hv, rfl⟩
  unfold refLRU
  rw [if_pos hmem]
  unfold CacheSet.residentTags
  rw [hitSet_lruOrder]
  have hfun : (hitSet s i w).tagAt = s.tagAt := funext (fun j => hitSet_tagAt s i j w)
  rw [hfun, List.filterMap_cons_some hti]
  congr 1
  apply filterMap_erase_of_inj s.lruOrder i himem hti
  intro j _ hj
  obtain ⟨bj, hbj, hvj, htj⟩ := tagAt_eq_some.1 hj
  exact h.uniqueTags j i bj b hbj hb hvj hv htj

theorem validAt_iff_tagAt {s : CacheSet} {i : Nat} :
    s.validAt i = true ↔ ∃ u, s.tagAt i = some u := by
  unfold CacheSet.validAt CacheSet.tagAt
  cases h : s.blocks[i]? with
  | none => simp
  | some b =>
    by_cases hv : b.valid = true
    · simp [hv]
    · simp [hv]

theorem fillSet_tagAt_ne (s : CacheSet) (v : Nat) (w : Bool) (t : Nat) {j : Nat}
    (h : v ≠ j) : (fillSet s v w t).tagAt j = s.tagAt j := by
  unfold CacheSet.tagAt
  rw [fillSet_getElem?_ne s v w t h]

theorem fillSet_tagAt_self (s : CacheSet) (v : Nat) (w : Bool) (t : Nat)
    (h : v < s.blocks.length) : (fillSet s v w t).tagAt v = some t := by
  unfold CacheSet.tagAt
  rw [fillSet_getElem?_self s v w t h]
  rfl

/-- A fill of the LRU-tail line acts on the resident tags as the reference list prescribes;
when the victim line is valid the set is full and the victim holds the last (least recently
used) tag of the list. -/
theorem SetInv.residentTags_miss {k : Nat} {s : CacheSet} (h : SetInv k s) {v : Nat}
    {vb : CacheBlock} (hv : s.lruOrder.getLast? = some v) (hvb : s.blocks[v]? = some vb)
    (w : Bool) (t : Nat)
    (hmiss : ∀ m b, m < k → s.blocks[m]? = some b → ¬ (b.valid = true ∧ b.tag = t)) :
    (fillSet s v w t).residentTags = refLRU k s.residentTags t ∧
    (vb.valid = true → s.residentTags.length = k ∧ s.residentTags.getLast? = some vb.tag) ∧
    (vb.valid = false → s.residentTags.length < k) := by
  obtain ⟨l0, hl0⟩ := List.getLast?_eq_some_iff.1 hv
  have hnd := h.lru_nodup
  rw [hl0] at hnd
  have hvl0 : v ∉ l0 := by
    intro hmem
    have := (List.nodup_append.1 hnd).2.2
    exact this hmem (List.mem_singleton_self v)
  have hvlen : v < s.blocks.length := (List.getElem?_eq_some_iff.1 hvb).1
  have hlen : l0.length + 1 = k := by
    have := h.lru_length
    rw [hl0] at this
    simpa using this
  have hnot : t ∉ s.residentTags := by
    intro hmem
    obtain ⟨i, hi, b, hb, hbv, hbt⟩ := mem_residentTags.1 hmem
    exact hmiss i b ((h.mem_lru i).1 hi) hb ⟨hbv, hbt⟩
  have hres : s.residentTags = l0.filterMap s.tagAt ++ [v].filterMap s.tagAt := by
    unfold CacheSet.residentTags
    rw [hl0, List.filterMap_append]
  have hnew : (fillSet s v w t).residentTags = t :: l0.filterMap s.tagAt := by
    unfold CacheSet.residentTags
    rw [fillSet_lruOrder, hl0, List.erase_append_right _ hvl0]
    simp only [List.erase_cons_head, List.append_nil]
    rw [List.filterMap_cons_some (fillSet_tagAt_self s v w t hvlen)]
    congr 1
    apply filterMap_congr_mem
    intro x hx
    exact fillSet_tagAt_ne s v w t (fun e => hvl0 (e ▸ hx))
  have hle : (l0.filterMap s.tagAt).length ≤ l0.length := List.length_filterMap_le _ _
  by_cases hval : vb.valid = true
  · have htv : s.tagAt v = some vb.tag := tagAt_eq_some.2 ⟨vb, hvb, hval, rfl⟩
    have hvalidv : s.validAt v = true := validAt_iff_tagAt.2 ⟨_, htv⟩
    have hall : ∀ x ∈ l0, ∃ u, s.tagAt x = some u := by
      intro x hx
      have hp := h.validFirst
      rw [hl0, List.pairwise_append] at hp
      exact validAt_iff_tagAt.1 (hp.2.2 x hx v (List.mem_singleton_self v) hvalidv)
    have hfull : (l0.filterMap s.tagAt).length = l0.length := filterMap_length_of_isSome l0 hall
    have hres' : s.residentTags = l0.filterMap s.tagAt ++ [vb.tag] := by
      rw [hres, List.filterMap_cons_some htv]
      rfl
    refine ⟨?_, ?_, ?_⟩
    · unfold refLRU
      rw [if_neg hnot, hnew]
      rw [if_neg (by rw [hres']; simp; omega)]
      rw [hres', List.dropLast_concat]
    · intro _
      rw [hres']
      constructor
      · simp; omega
      · simp
    · intro hf; rw [hval] at hf; cases hf
  · have htv : s.tagAt v = none := by
      unfold CacheSet.tagAt
      rw [hvb]
      simp [hval]
    have hres' : s.residentTags = l0.filterMap s.tagAt := by
      rw [hres, List.filterMap_cons_none htv]
      simp
    refine ⟨?_, ?_, ?_⟩
    · unfold refLRU
      rw [if_neg hnot, hnew, hres']
      rw [if_pos (by omega)]
    · intro hf; exact absurd hf hval
    · intro _
      rw [hres']; omega

/-- One access refines one step of the reference LRU list of the target set. -/
theorem Cache.WF.access_refines {c : Cache} (hwf : c.WF) {l2Size : Int} {a : Nat} {w : Bool}
    {next : Option Cache} {k : Counters} {r : Bool × Cache × Option Cache × Counters}
    (hr : c.access l2Size a w next k = some r) :
    ∃ (set set1 : CacheSet),
      c.sets[c.setIndexOf a]? = some set ∧ r.2.1.sets[c.setIndexOf a]? = some set1 ∧
      (r.1 = true ↔ c.tagOf a ∈ set.residentTags) ∧
      set1.residentTags = refLRU c.associativity.toNat set.residentTags (c.tagOf a) ∧
      (∀ s, s ≠ c.setIndexOf a → r.2.1.sets[s]? = c.sets[s]?) ∧
      (r.1 = false → ∃ (v : Nat) (vb : CacheBlock),
        set.lruOrder.getLast? = some v ∧ set.blocks[v]? = some vb ∧
        set1.blocks = set.blocks.set v ⟨true, w, c.tagOf a⟩ ∧
        (vb.valid = true → set.residentTags.length = c.associativity.toNat ∧
          set.residentTags.getLast? = some vb.tag) ∧
        (vb.valid = false → set.residentTags.length < c.associativity.toNat)) := by
  obtain ⟨set, hset, hinv⟩ := hwf.getSet a
  obtain ⟨k', hk'⟩ := access_shadow hr
  obtain ⟨_, _, set', hset', hcase⟩ := accessLast_cases hk'
  rw [hset] at hset'
  cases hset'
  have hsi := hwf.setIndexOf_lt a
  rcases hcase with ⟨i, hi, hreq⟩ | ⟨hi, v, vb, hv, hvb, hreq⟩
  · simp only [Prod.mk.injEq] at hreq
    obtain ⟨h1, h2, _⟩ := hreq
    obtain ⟨hik, b, hb, hbv, hbt⟩ := hinv.of_findHit_some hi
    refine ⟨set, hitSet set i w, hset, ?_, ?_, ?_, ?_, ?_⟩
    · rw [h2]; simp only; rw [List.getElem?_set_self hsi]
    · rw [h1]
      simp only [true_iff]
      exact mem_residentTags.2 ⟨i, (hinv.mem_lru i).2 hik, b, hb, hbv, hbt⟩
    · rw [← hbt]; exact hinv.residentTags_hit hb hbv w
    · intro s hs
      rw [h2]; simp only
      rw [List.getElem?_set_ne (Ne.symm hs)]
    · intro hf; rw [h1] at hf; cases hf
  · simp only [Prod.mk.injEq] at hreq
    obtain ⟨h1, h2, _⟩ := hreq
    have hmiss := hinv.of_findHit_none hi
    obtain ⟨hres, hfull, hnotfull⟩ := hinv.residentTags_miss hv hvb w (c.tagOf a) hmiss
    refine ⟨set, fillSet set v w (c.tagOf a), hset, ?_, ?_, hres, ?_, ?_⟩
    · rw [h2]; simp only; rw [List.getElem?_set_self hsi]
    · rw [h1]
      simp only [Bool.false_eq_true, false_iff]
      intro hmem
      obtain ⟨i, hi', b, hb, hbv, hbt⟩ := mem_residentTags.1 hmem
      exact hmiss i b ((hinv.mem_lru i).1 hi') hb ⟨hbv, hbt⟩
    · intro s hs
      rw [h2]; simp only
      rw [List.getElem?_set_ne (Ne.symm hs)]
    · intro _
      exact ⟨v, vb, hv, hvb, rfl, hfull, hnotfull⟩

theorem residentTags_empty (k : Nat) :
    CacheSet.residentTags ⟨List.replicate k CacheBlock.empty, List.range k⟩ = [] := by
  unfold CacheSet.residentTags
  rw [List.filterMap_eq_nil_iff]
  intro i _
  unfold CacheSet.tagAt
  simp only [List.getElem?_replicate]
  by_cases h : i < k
  · simp only [h, if_true]; rfl
  · simp only [h, if_false]

/-- A run of calls is defined when every next level handed in is reachable. -/
theorem Cache.WF.run_total :
    ∀ (calls : List Call) (c : Cache), c.WF →
      (∀ x ∈ calls, ∀ n, x.nextLevel = some n → n.Reachable) →
      ∃ c1, c.run calls = some c1 := by
  intro calls
  induction calls with
  | nil => intro c _ _; exact ⟨c, rfl⟩
  | cons x rest ih =>
    intro c hwf hnext
    obtain ⟨r, hr⟩ := hwf.access_total x.l2Size x.address x.isWrite x.nextLevel
      (fun n hn => (hnext x (List.mem_cons_self _ _) n hn).wf) x.counters
    unfold Cache.run
    rw [hr]
    exact ih r.2.1 (hwf.step hr) (fun y hy => hnext y (List.mem_cons_of_mem _ hy))

/-- A run of calls refines the run of the reference cache. -/
theorem Cache.WF.run_refines :
    ∀ (calls : List Call) (c c1 : Cache) (ref : Nat → List Nat), c.WF →
      (∀ s, s < c.numSets.toNat →
        ∃ set, c.sets[s]? = some set ∧ set.residentTags = ref s) →
      c.run calls = some c1 →
      c1.WF ∧ c1.associativity = c.associativity ∧ c1.numSets = c.numSets ∧
      c1.blockSize = c.blockSize ∧
      ∀ s, s < c.numSets.toNat →
        ∃ set, c1.sets[s]? = some set ∧
          set.residentTags = refRun c.associativity.toNat c.numSets.toNat c.blockSize.toNat
            ref (calls.map Call.address) s := by
  intro calls
  induction calls with
  | nil =>
    intro c c1 ref hwf href hrun
    simp only [Cache.run, Option.some.injEq] at hrun
    subst hrun
    exact ⟨hwf, rfl, rfl, rfl, href⟩
  | cons x rest ih =>
    intro c c1 ref hwf href hrun
    unfold Cache.run at hrun
    cases hr : c.access x.l2Size x.address x.isWrite x.nextLevel x.counters with
    | none => rw [hr] at hrun; cases hrun
    | some r =>
      rw [hr] at hrun
      simp only at hrun
      obtain ⟨_, hpa, hpb, hpn, _⟩ := access_params hr
      obtain ⟨set, set1, hset, hset1, _, hres, hother, _⟩ := hwf.access_refines hr
      have href1 : ∀ s, s < r.2.1.numSets.toNat →
          ∃ set, r.2.1.sets[s]? = some set ∧
            set.residentTags = refAccess c.associativity.toNat c.numSets.toNat
              c.blockSize.toNat ref x.address s := by
        intro s hs
        rw [hpn] at hs
        unfold refAccess
        rw [← hwf.setIndexOf_eq, ← hwf.tagOf_eq]
        by_cases hsi : s = c.setIndexOf x.address
        · subst hsi
          simp only [if_true]
          obtain ⟨set0, hset0, hres0⟩ := href _ hs
          rw [hset] at hset0
          cases hset0
          exact ⟨set1, hset1, by rw [hres, hres0]⟩
        · simp only [hsi, if_false]
          rw [hother s hsi]
          exact href s hs
      obtain ⟨h1, h2, h3, h4, h5⟩ := ih r.2.1 c1 _ (hwf.step hr) href1 hrun
      refine ⟨h1, h2.trans hpa, h3.trans hpn, h4.trans hpb, ?_⟩
      intro s hs
      have := h5 s (by rw [hpn]; exact hs)
      rw [hpa, hpn, hpb] at this
      simpa [List.map_cons, refRun] using this

/-! ### Recency stamps -/

theorem runStamped_fst :
    ∀ (calls : List Call) (c : Cache) (stamp : Nat → Nat → Option Nat) (now : Nat),
      (c.runStamped stamp now calls).map Prod.fst = c.run calls := by
  intro calls
  induction calls with
  | nil => intro c stamp now; rfl
  | cons x rest ih =>
    intro c stamp now
    unfold Cache.runStamped Cache.run
    cases c.access x.l2Size x.address x.isWrite x.nextLevel x.counters with
    | none => rfl
    | some r => exact ih _ _ _

/-- What one access does to the target set, in terms of the touched line. -/
theorem Cache.WF.access_touched {c : Cache} (hwf : c.WF) {l2Size : Int} {a : Nat} {w : Bool}
    {next : Option Cache} {k : Counters} {r : Bool × Cache × Option Cache × Counters}
    (hr : c.access l2Size a w next k = some r) :
    ∃ (set set1 : CacheSet) (i : Nat),
      c.sets[c.setIndexOf a]? = some set ∧ r.2.1.sets[c.setIndexOf a]? = some set1 ∧
      c.touchedLine a = some i ∧ i < c.associativity.toNat ∧
      set1.lruOrder = i :: set.lruOrder.erase i ∧
      set1.validAt i = true ∧
      (∀ j, j ≠ i → set1.validAt j = set.validAt j) ∧
      (∀ s, s ≠ c.setIndexOf a → r.2.1.sets[s]? = c.sets[s]?) ∧
      (r.1 = false → set.lruOrder.getLast? = some i ∧
        set1.blocks = set.blocks.set i ⟨true, w, c.tagOf a⟩) := by
  obtain ⟨set, hset, hinv⟩ := hwf.getSet a
  obtain ⟨k', hk'⟩ := access_shadow hr
  obtain ⟨_, _, set', hset', hcase⟩ := accessLast_cases hk'
  rw [hset] at hset'
  cases hset'
  have hsi := hwf.setIndexOf_lt a
  rcases hcase with ⟨i, hi, hreq⟩ | ⟨hi, v, vb, hv, hvb, hreq⟩
  · simp only [Prod.mk.injEq] at hreq
    obtain ⟨h1, h2, _⟩ := hreq
    obtain ⟨hik, b, hb, hbv, hbt⟩ := hinv.of_findHit_some hi
    refine ⟨set, hitSet set i w, i, hset, ?_, ?_, hik, hitSet_lruOrder set i w, ?_, ?_, ?_, ?_⟩
    · rw [h2]; simp only; rw [List.getElem?_set_self hsi]
    · unfold Cache.touchedLine; rw [hset]; simp only [hi]
    · rw [hitSet_validAt]; unfold CacheSet.validAt; rw [hb]; exact hbv
    · intro j _; exact hitSet_validAt set i j w
    · intro s hs
      rw [h2]; simp only
      rw [List.getElem?_set_ne (Ne.symm hs)]
    · intro hf; rw [h1] at hf; cases hf
  · simp only [Prod.mk.injEq] at hreq
    obtain ⟨h1, h2, _⟩ := hreq
    have hvlen : v < set.blocks.length := (List.getElem?_eq_some_iff.1 hvb).1
    have hvk : v < c.associativity.toNat := by rw [← hinv.len]; exact hvlen
    refine ⟨set, fillSet set v w (c.tagOf a), v, hset, ?_, ?_, hvk, rfl, ?_, ?_, ?_, ?_⟩
    · rw [h2]; simp only; rw [List.getElem?_set_self hsi]
    · unfold Cache.touchedLine; rw [hset]; simp only [hi]; exact hv
    · exact fillSet_validAt_self set v w _ hvlen
    · intro j hj; exact fillSet_validAt_ne set v w _ (Ne.symm hj)
    · intro s hs
      rw [h2]; simp only
      rw [List.getElem?_set_ne (Ne.symm hs)]
    · intro _; exact ⟨hv, rfl⟩

theorem StampInv.init_stamp (c : Cache)
    (h : ∀ (s : Nat) (set : CacheSet) (j : Nat), c.sets[s]? = some set →
      set.validAt j = false) :
    StampInv c (fun _ _ => none) 0 where
  sorted := by
    intro s set _
    apply List.pairwise_of_forall
    intro i j q hq
    cases hq
  touched := by
    intro s set j hset hv
    rw [h s set j hset] at hv
    cases hv
  past := by
    intro s j p hp
    cases hp

theorem stampTouch_self (stamp : Nat → Nat → Option Nat) (s0 i now : Nat) :
    stampTouch stamp s0 (some i) now s0 i = some now := by
  unfold stampTouch
  rw [if_pos ⟨rfl, rfl⟩]

theorem stampTouch_ne_line (stamp : Nat → Nat → Option Nat) (s0 i now : Nat) {j : Nat}
    (h : j ≠ i) (s : Nat) : stampTouch stamp s0 (some i) now s j = stamp s j := by
  unfold stampTouch
  rw [if_neg]
  rintro ⟨_, h2⟩
  exact h (Option.some.inj h2).symm

theorem stampTouch_ne_set (stamp : Nat → Nat → Option Nat) (s0 : Nat) (line : Option Nat)
    (now : Nat) {s : Nat} (h : s ≠ s0) (j : Nat) :
    stampTouch stamp s0 line now s j = stamp s j := by
  unfold stampTouch
  rw [if_neg]
  rintro ⟨h1, _⟩
  exact h h1

theorem stampTouch_past (stamp : Nat → Nat → Option Nat) (s0 : Nat) (line : Option Nat)
    (now : Nat) (hpast : ∀ (s j p : Nat), stamp s j = some p → p < now) (s j p : Nat)
    (h : stampTouch stamp s0 line now s j = some p) : p < now + 1 := by
  unfold stampTouch at h
  split at h
  · cases h; omega
  · have := hpast s j p h
    omega

/-- One access keeps the ghost record consistent. -/
theorem StampInv.step_stamp {c : Cache} {stamp : Nat → Nat → Option Nat} {now : Nat}
    (hs : StampInv c stamp now) (hwf : c.WF) {l2Size : Int} {a : Nat} {w : Bool}
    {next : Option Cache} {k : Counters} {r : Bool × Cache × Option Cache × Counters}
    (hr : c.access l2Size a w next k = some r) :
    StampInv r.2.1 (stampTouch stamp (c.setIndexOf a) (c.touchedLine a) now) (now + 1) := by
  obtain ⟨set, set1, i, hset, hset1, htl, hik, hlru, hvi, hvo, hother, _⟩ :=
    hwf.access_touched hr
  have hnd : set.lruOrder.Nodup :=
    (hwf.sets_inv set (List.getElem?_mem hset)).lru_nodup
  rw [htl]
  refine ⟨?_, ?_, ?_⟩
  · intro s set' hset'
    by_cases hsi : s = c.setIndexOf a
    · subst hsi
      rw [hset1] at hset'
      cases hset'
      rw [hlru, List.pairwise_cons]
      constructor
      · intro j hj q hq
        have hji : j ≠ i := ((hnd.mem_erase_iff).1 hj).1
        rw [stampTouch_ne_line stamp _ i now hji] at hq
        rw [stampTouch_self]
        exact ⟨now, rfl, hs.past _ _ _ hq⟩
      · have := (hs.sorted _ set hset).sublist (List.erase_sublist i set.lruOrder)
        refine this.imp_of_mem ?_
        intro x y hx hy hxy q hq
        have hxi : x ≠ i := ((hnd.mem_erase_iff).1 hx).1
        have hyi : y ≠ i := ((hnd.mem_erase_iff).1 hy).1
        rw [stampTouch_ne_line stamp _ i now hyi] at hq
        rw [stampTouch_ne_line stamp _ i now hxi]
        exact hxy q hq
    · rw [hother s hsi] at hset'
      have := hs.sorted s set' hset'
      refine this.imp ?_
      intro x y hxy q hq
      rw [stampTouch_ne_set stamp _ _ now hsi] at hq
      rw [stampTouch_ne_set stamp _ _ now hsi]
      exact hxy q hq
  · intro s set' j hset' hv
    by_cases hsi : s = c.setIndexOf a
    · subst hsi
      rw [hset1] at hset'
      cases hset'
      by_cases hji : j = i
      · subst hji
        exact ⟨now, stampTouch_self _ _ _ _⟩
      · rw [stampTouch_ne_line stamp _ i now hji]
        rw [hvo j hji] at hv
        exact hs.touched _ set j hset hv
    · rw [hother s hsi] at hset'
      rw [stampTouch_ne_set stamp _ _ now hsi]
      exact hs.touched s set' j hset' hv
  · exact stampTouch_past stamp _ _ now hs.past

/-- The instrumented run keeps the ghost record consistent. -/
theorem StampInv.run :
    ∀ (calls : List Call) (c : Cache) (stamp : Nat → Nat → Option Nat) (now : Nat)
      (c1 : Cache) (stamp1 : Nat → Nat → Option Nat), c.WF → StampInv c stamp now →
      c.runStamped stamp now calls = some (c1, stamp1) →
      StampInv c1 stamp1 (now + calls.length) := by
  intro calls
  induction calls with
  | nil =>
    intro c stamp now c1 stamp1 _ hs hrun
    simp only [Cache.runStamped, Option.some.injEq, Prod.mk.injEq] at hrun
    rw [← hrun.1, ← hrun.2]
    exact hs
  | cons x rest ih =>
    intro c stamp now c1 stamp1 hwf hs hrun
    unfold Cache.runStamped at hrun
    cases hr : c.access x.l2Size x.address x.isWrite x.nextLevel x.counters with
    | none => rw [hr] at hrun; cases hrun
    | some r =>
      rw [hr] at hrun
      simp only at hrun
      have := ih r.2.1 _ (now + 1) c1 stamp1 (hwf.step hr) (hs.step_stamp hwf hr) hrun
      rw [List.length_cons]
      rw [show now + (rest.length + 1) = now + 1 + rest.length by omega]
      exact this

/-- In a consistent record, when the line at the tail of `lruOrder` is valid, it was touched
strictly earlier than every other line of its set. -/
theorem StampInv.tail_oldest {c : Cache} {stamp : Nat → Nat → Option Nat} {now : Nat}
    (hs : StampInv c stamp now) {s k : Nat} {set : CacheSet} (hset : c.sets[s]? = some set)
    (hinv : SetInv k set) {v : Nat} (hv : set.lruOrder.getLast? = some v)
    (hval : set.validAt v = true) :
    ∃ p, stamp s v = some p ∧
      ∀ j, j < k → j ≠ v → ∃ q, stamp s j = some q ∧ p < q := by
  obtain ⟨p, hp⟩ := hs.touched s set v hset hval
  refine ⟨p, hp, ?_⟩
  intro j hjk hjv
  obtain ⟨l0, hl0⟩ := List.getLast?_eq_some_iff.1 hv
  have hjmem : j ∈ set.lruOrder := (hinv.mem_lru j).2 hjk
  rw [hl0] at hjmem
  have hj0 : j ∈ l0 := by
    rcases List.mem_append.1 hjmem with h | h
    · exact h
    · exact absurd (List.mem_singleton.1 h) hjv
  have hsorted := hs.sorted s set hset
  rw [hl0, List.pairwise_append] at hsorted
  exact hsorted.2.2 j hj0 v (List.mem_singleton_self v) p hp

theorem Cache.new_residentTags {size associativity blockSize : Int} {c : Cache}
    (h : ValidLevel size associativity blockSize)
    (hc : Cache.new size associativity blockSize = some c) :
    c.associativity = associativity ∧ c.blockSize = blockSize ∧
    (∀ s, s < c.numSets.toNat → ∃ set, c.sets[s]? = some set ∧ set.residentTags = []) ∧
    StampInv c (fun _ _ => none) 0 := by
  rw [Cache.new_valid h] at hc
  simp only [Option.some.injEq] at hc
  subst hc
  refine ⟨rfl, rfl, ?_, ?_⟩
  · intro s hs
    simp only at hs
    refine ⟨_, ?_, residentTags_empty associativity.toNat⟩
    simp only [List.getElem?_replicate, hs, if_true]
  · apply StampInv.init_stamp
    intro s set j hset
    have := List.getElem?_mem hset
    rw [List.eq_of_mem_replicate this]
    exact validAt_empty _ _

/-- C1. Start from the cache built by the constructor with associativity `k >= 1`, block
size `>= 1` and set count `>= 1`, and apply any sequence of `Cache::access` calls (each with
any counters and any next level); `stamp s j` records the position in the sequence of the
most recent call that hit or filled line `j` of set `s`. The run is defined whenever the next
levels handed in are reachable caches. After the run, the valid tags of every set, read along
`lruOrder`, are exactly the reference LRU list of that set (at most `k` tags, most recent
first; a hit moves the tag to the front, a miss inserts at the front and drops the last tag
when the list is full) after the same addresses. For the next access: it hits exactly when
the tag is in the list, the set afterwards again carries the reference list, and when it
misses while all `k` lines of the target set are valid, the one line it overwrites is the
line at the tail of `lruOrder`; that line holds the last tag of the full reference list, and
its most recent hit or fill happened strictly earlier than that of each of the other `k - 1`
lines of the set. -/
theorem lru_refinement (size associativity blockSize : Int)
    (hv : ValidLevel size associativity blockSize) (c0 : Cache)
    (hnew : Cache.new size associativity blockSize = some c0) (calls : List Call) :
    ((∀ x ∈ calls, ∀ n, x.nextLevel = some n → n.Reachable) →
      ∃ c stamp, c0.runStamped (fun _ _ => none) 0 calls = some (c, stamp)) ∧
    ∀ (c : Cache) (stamp : Nat → Nat → Option Nat),
      c0.runStamped (fun _ _ => none) 0 calls = some (c, stamp) →
      c0.run calls = some c ∧
      (∀ s, s < c0.numSets.toNat →
        ∃ set, c.sets[s]? = some set ∧
          set.residentTags = refRun associativity.toNat c0.numSets.toNat blockSize.toNat
            (fun _ => []) (calls.map Call.address) s) ∧
      (∀ (l2Size : Int) (a : Nat) (w : Bool) (next : Option Cache) (k : Counters)
          (r : Bool × Cache × Option Cache × Counters),
        c.access l2Size a w next k = some r →
        ∃ (set set1 : CacheSet),
          c.sets[(a / blockSize.toNat) % c0.numSets.toNat]? = some set ∧
          r.2.1.sets[(a / blockSize.toNat) % c0.numSets.toNat]? = some set1 ∧
          (r.1 = true ↔ (a / blockSize.toNat) / c0.numSets.toNat ∈ set.residentTags) ∧
          set1.residentTags = refLRU associativity.toNat set.residentTags
            ((a / blockSize.toNat) / c0.numSets.toNat) ∧
          (r.1 = false → (∀ b ∈ set.blocks, b.valid = true) →
            ∃ (v : Nat) (vb : CacheBlock) (p : Nat),
              set.lruOrder.getLast? = some v ∧ set.blocks[v]? = some vb ∧
              set1.blocks = set.blocks.set v
                ⟨true, w, (a / blockSize.toNat) / c0.numSets.toNat⟩ ∧
              set.residentTags.length = associativity.toNat ∧
              set.residentTags.getLast? = some vb.tag ∧
              stamp ((a / blockSize.toNat) % c0.numSets.toNat) v = some p ∧
              ∀ j, j < associativity.toNat → j ≠ v →
                ∃ q, stamp ((a / blockSize.toNat) % c0.numSets.toNat) j = some q ∧ p < q)) := by
  have hwf0 := Cache.new_wf hv hnew
  obtain ⟨ha0, hb0, hempty, hstamp0⟩ := Cache.new_residentTags hv hnew
  constructor
  · intro hnext
    obtain ⟨c, hc⟩ := hwf0.run_total calls c0 hnext
    have hfst := runStamped_fst calls c0 (fun _ _ => none) 0
    rw [hc] at hfst
    cases hrs : c0.runStamped (fun _ _ => none) 0 calls with
    | none => rw [hrs] at hfst; cases hfst
    | some cs => exact ⟨cs.1, cs.2, rfl⟩
  intro c stamp hrs
  have hrun : c0.run calls = some c := by
    rw [← runStamped_fst calls c0 (fun _ _ => none) 0, hrs]
    rfl
  obtain ⟨hwf, hpa, hpn, hpb, href⟩ := hwf0.run_refines calls c0 c (fun _ => []) hempty hrun
  have hst := StampInv.run calls c0 _ 0 c stamp hwf0 hstamp0 hrs
  rw [ha0, hb0] at href
  refine ⟨hrun, href, ?_⟩
  intro l2Size a w next k r hr
  obtain ⟨set, set1, hset, hset1, hhit, hres, _, hmiss⟩ := hwf.access_refines hr
  have hinv := hwf.sets_inv set (List.getElem?_mem hset)
  rw [hwf.setIndexOf_eq, hpb, hpn, hb0] at hset hset1
  rw [hwf.tagOf_eq, hpb, hpn, hb0] at hhit hres hmiss
  rw [hpa, ha0] at hres hmiss hinv
  refine ⟨set, set1, hset, hset1, hhit, hres, ?_⟩
  intro hf hall
  obtain ⟨v, vb, hv', hvb, hbl, hfull, _⟩ := hmiss hf
  have hval : vb.valid = true := hall vb (List.getElem?_mem hvb)
  have hvalAt : set.validAt v = true := by
    unfold CacheSet.validAt; rw [hvb]; exact hval
  obtain ⟨p, hp, hold⟩ := hst.tail_oldest hset hinv hv' hvalAt
  exact ⟨v, vb, p, hv', hvb, hbl, (hfull hval).1, (hfull hval).2, hp, hold⟩

theorem lru_refinement_witness :
    ValidLevel 16 2 4 ∧ Cache.new 16 2 4 = some freshCache ∧
    (((∀ x ∈ sampleCalls, ∀ n, x.nextLevel = some n → n.Reachable) →
      ∃ c stamp, freshCache.runStamped (fun _ _ => none) 0 sampleCalls = some (c, stamp)) ∧
    ∀ (c : Cache) (stamp : Nat → Nat → Option Nat),
      freshCache.runStamped (fun _ _ => none) 0 sampleCalls = some (c, stamp) →
      freshCache.run sampleCalls = some c ∧
      (∀ s, s < freshCache.numSets.toNat →
        ∃ set, c.sets[s]? = some set ∧
          set.residentTags = refRun (2 : Int).toNat freshCache.numSets.toNat (4 : Int).toNat
            (fun _ => []) (sampleCalls.map Call.address) s) ∧
      (∀ (l2Size : Int) (a : Nat) (w : Bool) (next : Option Cache) (k : Counters)
          (r : Bool × Cache × Option Cache × Counters),
        c.access l2Size a w next k = some r →
        ∃ (set set1 : CacheSet),
          c.sets[(a / (4 : Int).toNat) % freshCache.numSets.toNat]? = some set ∧
          r.2.1.sets[(a / (4 : Int).toNat) % freshCache.numSets.toNat]? = some set1 ∧
          (r.1 = true ↔ (a / (4 : Int).toNat) / freshCache.numSets.toNat ∈ set.residentTags) ∧
          set1.residentTags = refLRU (2 : Int).toNat set.residentTags
            ((a / (4 : Int).toNat) / freshCache.numSets.toNat) ∧
          (r.1 = false → (∀ b ∈ set.blocks, b.valid = true) →
            ∃ (v : Nat) (vb : CacheBlock) (p : Nat),
              set.lruOrder.getLast? = some v ∧ set.blocks[v]? = some vb ∧
              set1.blocks = set.blocks.set v
                ⟨true, w, (a / (4 : Int).toNat) / freshCache.numSets.toNat⟩ ∧
              set.residentTags.length = (2 : Int).toNat ∧
              set.residentTags.getLast? = some vb.tag ∧
              stamp ((a / (4 : Int).toNat) % freshCache.numSets.toNat) v = some p ∧
              ∀ j, j < (2 : Int).toNat → j ≠ v →
                ∃ q, stamp ((a / (4 : Int).toNat) % freshCache.numSets.toNat) j = some q ∧
                  p < q))) :=
  ⟨by decide, by decide, lru_refinement 16 2 4 (by decide) freshCache (by decide) sampleCalls⟩

/-! ### The hierarchy -/

theorem MemoryHierarchy.access_eq (h : MemoryHierarchy) (a : Nat) (w : Bool) :
    h.access a w = (h.l1.access h.l2Size a w h.l2 h.stats).map (h.afterL1 w) := by
  unfold MemoryHierarchy.access MemoryHierarchy.afterL1
  cases h.l1.access h.l2Size a w h.l2 h.stats with
  | none => rfl
  | some r =>
    obtain ⟨hit, l1, l2, stats⟩ := r
    cases w <;> cases hit <;> rfl

theorem MemoryHierarchy.access_cases {h h1 : MemoryHierarchy} {a : Nat} {w : Bool}
    (hacc : h.access a w = some h1) :
    ∃ r, h.l1.access h.l2Size a w h.l2 h.stats = some r ∧ h1 = h.afterL1 w r := by
  rw [MemoryHierarchy.access_eq] at hacc
  cases hr : h.l1.access h.l2Size a w h.l2 h.stats with
  | none => rw [hr] at hacc; cases hacc
  | some r =>
    rw [hr] at hacc
    simp only [Option.map_some', Option.some.injEq] at hacc
    exact ⟨r, rfl, hacc.symm⟩

theorem MemoryHierarchy.new_hier_wf {l1Size l1Associativity l2Size l2Associativity blockSize : Int}
    {h : MemoryHierarchy}
    (hv : ValidConfig l1Size l1Associativity l2Size l2Associativity blockSize)
    (hn : MemoryHierarchy.new l1Size l1Associativity l2Size l2Associativity blockSize = some h) :
    h.WF ∧ h.l2Size = l2Size ∧ h.stats = Counters.zero ∧ h.l1Reads = 0 ∧ h.l1Writes = 0 ∧
      h.l1ReadMisses = 0 ∧ h.l1WriteMisses = 0 := by
  unfold MemoryHierarchy.new at hn
  cases h1 : Cache.new l1Size l1Associativity blockSize with
  | none => rw [h1] at hn; cases hn
  | some l1 =>
    rw [h1] at hn
    simp only at hn
    have hl1 := Cache.new_wf hv.1 h1
    by_cases hpos : l2Size > 0
    · rw [if_pos hpos] at hn
      cases h2 : Cache.new l2Size l2Associativity blockSize with
      | none => rw [h2] at hn; cases hn
      | some l2 =>
        rw [h2] at hn
        simp only [Option.some.injEq] at hn
        subst hn
        have hl2 := Cache.new_wf (hv.2 hpos) h2
        refine ⟨⟨hl1, ?_, ?_, ?_⟩, rfl, rfl, rfl, rfl, rfl, rfl⟩
        · intro n hn
          simp only [Option.some.injEq] at hn
          rw [← hn]; exact hl2
        · intro _; exact ⟨l2, rfl⟩
        · intro hneg; exact absurd hpos hneg
    · rw [if_neg hpos] at hn
      simp only [Option.some.injEq] at hn
      subst hn
      refine ⟨⟨hl1, ?_, ?_, ?_⟩, rfl, rfl, rfl, rfl, rfl, rfl⟩
      · intro n hn; cases hn
      · intro hp; exact absurd hp hpos
      · intro _; rfl

theorem MemoryHierarchy.new_total
    {l1Size l1Associativity l2Size l2Associativity blockSize : Int}
    (hv : ValidConfig l1Size l1Associativity l2Size l2Associativity blockSize) :
    ∃ h, MemoryHierarchy.new l1Size l1Associativity l2Size l2Associativity blockSize
      = some h := by
  unfold MemoryHierarchy.new
  rw [Cache.new_valid hv.1]
  simp only
  by_cases hpos : l2Size > 0
  · rw [if_pos hpos, Cache.new_valid (hv.2 hpos)]
    exact ⟨_, rfl⟩
  · rw [if_neg hpos]
    exact ⟨_, rfl⟩

theorem MemoryHierarchy.WF.hier_access_total {h : MemoryHierarchy} (hwf : h.WF) (a : Nat)
    (w : Bool) : ∃ h1, h.access a w = some h1 := by
  obtain ⟨r, hr⟩ := hwf.l1_wf.access_total h.l2Size a w h.l2 hwf.l2_wf h.stats
  rw [MemoryHierarchy.access_eq, hr]
  exact ⟨_, rfl⟩

theorem access_next_none {l2Size : Int} {c : Cache} {a : Nat} {w : Bool} {k : Counters}
    {r : Bool × Cache × Option Cache × Counters}
    (hr : c.access l2Size a w none k = some r) : r.2.2.1 = none := by
  rw [access_none_eq] at hr
  cases h0 : c.accessLast l2Size a w k with
  | none => rw [h0] at hr; cases hr
  | some r0 =>
    rw [h0] at hr
    simp only [Option.map_some', Option.some.injEq] at hr
    rw [← hr]

theorem MemoryHierarchy.WF.step_hier {h h1 : MemoryHierarchy} (hwf : h.WF) {a : Nat} {w : Bool}
    (hacc : h.access a w = some h1) : h1.WF ∧ h1.l2Size = h.l2Size := by
  obtain ⟨r, hr, rfl⟩ := MemoryHierarchy.access_cases hacc
  refine ⟨⟨hwf.l1_wf.step hr, ?_, ?_, ?_⟩, rfl⟩
  · intro n hn
    cases hl2 : h.l2 with
    | none =>
      rw [hl2] at hr
      have := access_next_none hr
      simp only [MemoryHierarchy.afterL1] at hn
      rw [this] at hn
      cases hn
    | some n0 =>
      rw [hl2] at hr
      obtain ⟨n', hn', hwf'⟩ := Cache.WF.access_next (hwf.l2_wf n0 hl2) hr
      simp only [MemoryHierarchy.afterL1] at hn
      rw [hn'] at hn
      cases hn
      exact hwf'
  · intro hpos
    obtain ⟨n0, hl2⟩ := hwf.l2_some hpos
    rw [hl2] at hr
    obtain ⟨n', hn', _⟩ := Cache.WF.access_next (hwf.l2_wf n0 hl2) hr
    exact ⟨n', hn'⟩
  · intro hneg
    have hl2 := hwf.l2_none hneg
    rw [hl2] at hr
    exact access_next_none hr

theorem MemoryHierarchy.Reachable.hier_wf {h : MemoryHierarchy} (hr : h.Reachable) : h.WF := by
  induction hr with
  | init l1Size l1Associativity l2Size l2Associativity blockSize h hv hn =>
    exact (MemoryHierarchy.new_hier_wf hv hn).1
  | step h a w h1 _ hacc ih => exact (ih.step_hier hacc).1

theorem MemoryHierarchy.WF.replay_total :
    ∀ (trace : List (Nat × Bool)) (h : MemoryHierarchy), h.WF →
      ∃ h1, h.replay trace = some h1 := by
  intro trace
  induction trace with
  | nil => intro h _; exact ⟨h, rfl⟩
  | cons x rest ih =>
    intro h hwf
    obtain ⟨a, w⟩ := x
    obtain ⟨h1, hacc⟩ := hwf.hier_access_total a w
    unfold MemoryHierarchy.replay
    rw [hacc]
    exact ih h1 (hwf.step_hier hacc).1

theorem MemoryHierarchy.Reachable.replay :
    ∀ (trace : List (Nat × Bool)) (h h1 : MemoryHierarchy), h.Reachable →
      h.replay trace = some h1 → h1.Reachable := by
  intro trace
  induction trace with
  | nil =>
    intro h h1 hr hrep
    simp only [MemoryHierarchy.replay, Option.some.injEq] at hrep
    rw [← hrep]; exact hr
  | cons x rest ih =>
    intro h h1 hr hrep
    obtain ⟨a, w⟩ := x
    unfold MemoryHierarchy.replay at hrep
    cases hacc : h.access a w with
    | none => rw [hacc] at hrep; cases hrep
    | some h2 =>
      rw [hacc] at hrep
      exact ih h2 h1 (MemoryHierarchy.Reachable.step h a w h2 hr hacc) hrep

/-! ### Counters -/

/-- A last-level access changes the counters only through memory traffic and one
write-back counter, chosen by the global `l2Size`; hit flag and cache do not depend on the
counters handed in. -/
theorem accessLast_counters {l2Size : Int} {c : Cache} {a : Nat} {w : Bool} {k : Counters}
    {r : Bool × Cache × Counters} (hr : c.accessLast l2Size a w k = some r) :
    (∃ d : Int, (d = 0 ∨ d = 1) ∧ (r.1 = true → d = 0) ∧
      r.2.2 =
        { k with
          memoryTraffic := k.memoryTraffic + (if r.1 then 0 else 1) + d
          l1Writebacks := k.l1Writebacks + (if l2Size = 0 then d else 0)
          l2Writebacks := k.l2Writebacks + (if l2Size = 0 then 0 else d) }) ∧
    ∀ k2, ∃ k3, c.accessLast l2Size a w k2 = some (r.1, r.2.1, k3) := by
  obtain ⟨hb, hn, set, hset, hcase⟩ := accessLast_cases hr
  rcases hcase with ⟨i, hi, rfl⟩ | ⟨hi, v, vb, hv, hvb, rfl⟩
  · constructor
    · refine ⟨0, Or.inl rfl, fun _ => rfl, ?_⟩
      simp
    · intro k2
      exact ⟨_, accessLast_hit_intro hb hn hset hi⟩
  · constructor
    · by_cases hd : (vb.valid && vb.dirty) = true
      · refine ⟨1, Or.inr rfl, (fun h => Bool.noConfusion h), ?_⟩
        unfold lastLevelCounters
        simp only [hd, if_true]
        by_cases hz : l2Size = 0
        · simp [hz]
        · simp [hz]
      · refine ⟨0, Or.inl rfl, fun _ => rfl, ?_⟩
        unfold lastLevelCounters
        simp only [hd]
        simp
    · intro k2
      exact ⟨_, accessLast_miss_intro hb hn hset hi hv hvb⟩

theorem accessLast_frame {l2Size : Int} {c : Cache} {a : Nat} {w : Bool} {k : Counters}
    {r : Bool × Cache × Counters} (hr : c.accessLast l2Size a w k = some r) :
    r.2.2.l2Writes = k.l2Writes ∧ r.2.2.l2Reads = k.l2Reads ∧
    r.2.2.l2ReadMisses = k.l2ReadMisses ∧ r.2.2.l2WriteMisses = k.l2WriteMisses ∧
    (l2Size ≠ 0 → r.2.2.l1Writebacks = k.l1Writebacks) ∧
    (l2Size = 0 → r.2.2.l2Writebacks = k.l2Writebacks) := by
  obtain ⟨⟨d, _, _, hk⟩, _⟩ := accessLast_counters hr
  rw [hk]
  refine ⟨rfl, rfl, rfl, rfl, ?_, ?_⟩
  · intro hz; simp [hz]
  · intro hz; simp [hz]

theorem SetInv.findHit_of_miss {k : Nat} {s : CacheSet} (h : SetInv k s) {t : Nat}
    (hmiss : ∀ (i : Nat) (b : CacheBlock), s.blocks[i]? = some b →
      ¬ (b.valid = true ∧ b.tag = t)) :
    findHit s.blocks t k 0 = some none := by
  obtain ⟨r, hr⟩ := findHit_total s.blocks t k 0 (by rw [h.len]; omega)
  cases r with
  | none => exact hr
  | some i =>
    obtain ⟨_, b, hb, hbv, hbt⟩ := h.of_findHit_some hr
    exact absurd ⟨hbv, hbt⟩ (hmiss i b hb)

/-- An L1 miss with a next level and a valid dirty victim: the next level is accessed
twice, first with a write of the victim address, then with a read of the requested address. -/
theorem Cache.WF.access_some_dirty {c n : Cache} (hwf : c.WF) (hn : n.WF) (l2Size : Int)
    (a : Nat) (w : Bool) (k : Counters) {set : CacheSet} {v : Nat} {vb : CacheBlock}
    (hset : c.sets[c.setIndexOf a]? = some set)
    (hmiss : ∀ (i : Nat) (b : CacheBlock), set.blocks[i]? = some b →
      ¬ (b.valid = true ∧ b.tag = c.tagOf a))
    (hv : set.lruOrder.getLast? = some v) (hvb : set.blocks[v]? = some vb)
    (hd : (vb.valid && vb.dirty) = true) :
    ∃ (wHit : Bool) (n1 : Cache) (kw : Counters) (rHit : Bool) (n2 : Cache) (kr : Counters),
      n.accessLast l2Size (c.victimAddress vb (c.setIndexOf a)) true
        { k with l2Writes := k.l2Writes + 1, l1Writebacks := k.l1Writebacks + 1 }
        = some (wHit, n1, kw) ∧
      n1.accessLast l2Size a false
        { (if !wHit then { kw with l2WriteMisses := kw.l2WriteMisses + 1 } else kw) with
          l2Reads := (if !wHit then { kw with l2WriteMisses := kw.l2WriteMisses + 1 }
            else kw).l2Reads + 1 }
        = some (rHit, n2, kr) ∧
      c.access l2Size a w (some n) k
        = some (false,
            { c with sets := c.sets.set (c.setIndexOf a) (fillSet set v w (c.tagOf a)) },
            some n2,
            if !rHit then { kr with l2ReadMisses := kr.l2ReadMisses + 1 } else kr) := by
  have hinv := hwf.sets_inv set (List.getElem?_mem hset)
  have hfind := hinv.findHit_of_miss hmiss
  obtain ⟨r1, hr1⟩ := hn.accessLast_total l2Size (c.victimAddress vb (c.setIndexOf a)) true
    { k with l2Writes := k.l2Writes + 1, l1Writebacks := k.l1Writebacks + 1 }
  obtain ⟨wHit, n1, kw⟩ := r1
  have hn1 : n1.WF := hn.step_last hr1
  obtain ⟨r2, hr2⟩ := hn1.accessLast_total l2Size a false
    { (if !wHit then { kw with l2WriteMisses := kw.l2WriteMisses + 1 } else kw) with
      l2Reads := (if !wHit then { kw with l2WriteMisses := kw.l2WriteMisses + 1 }
        else kw).l2Reads + 1 }
  obtain ⟨rHit, n2, kr⟩ := r2
  refine ⟨wHit, n1, kw, rHit, n2, kr, hr1, hr2, ?_⟩
  have hwb : c.evictBelow l2Size (c.setIndexOf a) vb n k
      = some (some n1, if !wHit then { kw with l2WriteMisses := kw.l2WriteMisses + 1 }
          else kw) := by
    unfold Cache.evictBelow
    rw [if_pos hd]
    exact writeBack_some_intro hr1
  exact access_some_miss_intro hwf.blockSize_ne hwf.numSets_ne hset hfind hv hvb hwb hr2

/-- An L1 miss with a next level and an invalid or clean victim: the next level is accessed
once, with a read of the requested address. -/
theorem Cache.WF.access_some_clean {c n : Cache} (hwf : c.WF) (hn : n.WF) (l2Size : Int)
    (a : Nat) (w : Bool) (k : Counters) {set : CacheSet} {v : Nat} {vb : CacheBlock}
    (hset : c.sets[c.setIndexOf a]? = some set)
    (hmiss : ∀ (i : Nat) (b : CacheBlock), set.blocks[i]? = some b →
      ¬ (b.valid = true ∧ b.tag = c.tagOf a))
    (hv : set.lruOrder.getLast? = some v) (hvb : set.blocks[v]? = some vb)
    (hd : ¬ (vb.valid && vb.dirty) = true) :
    ∃ (rHit : Bool) (n2 : Cache) (kr : Counters),
      n.accessLast l2Size a false { k with l2Reads := k.l2Reads + 1 }
        = some (rHit, n2, kr) ∧
      c.access l2Size a w (some n) k
        = some (false,
            { c with sets := c.sets.set (c.setIndexOf a) (fillSet set v w (c.tagOf a)) },
            some n2,
            if !rHit then { kr with l2ReadMisses := kr.l2ReadMisses + 1 } else kr) := by
  have hinv := hwf.sets_inv set (List.getElem?_mem hset)
  have hfind := hinv.findHit_of_miss hmiss
  obtain ⟨r2, hr2⟩ := hn.accessLast_total l2Size a false { k with l2Reads := k.l2Reads + 1 }
  obtain ⟨rHit, n2, kr⟩ := r2
  refine ⟨rHit, n2, kr, hr2, ?_⟩
  have hwb : c.evictBelow l2Size (c.setIndexOf a) vb n k = some (some n, k) := by
    unfold Cache.evictBelow
    rw [if_neg hd]
  exact access_some_miss_intro hwf.blockSize_ne hwf.numSets_ne hset hfind hv hvb hwb hr2

/-- C6. In a reachable hierarchy with an L2, an access that misses in L1 (no valid line of the
target set carries the tag) and whose victim, the line at the tail of the target set's
`lruOrder`, is valid and dirty, is defined and has these effects. L2 receives exactly two
accesses: first a write (`isWrite = true`) to the victim address
`(tag * numSets + setIndex) * blockSize` (in 32-bit arithmetic), then, in the state that
write left, a read (`isWrite = false`) of the requested address; the L2 afterwards is the
result of the second. The L2 write counter, the L1 write-back counter and the L2 demand-read
counter each grow by exactly 1; the L2 write-miss counter grows by 1 exactly when the write
missed in L2 and the L2 read-miss counter grows by 1 exactly when the read missed in L2
(both are unchanged otherwise). -/
theorem dirty_eviction_with_l2 (h : MemoryHierarchy) (hr : h.Reachable) (l2 : Cache)
    (hl2 : h.l2 = some l2) (a : Nat) (w : Bool) (set : CacheSet) (v : Nat) (vb : CacheBlock)
    (hset : h.l1.sets[(a / h.l1.blockSize.toNat) % h.l1.numSets.toNat]? = some set)
    (hmiss : ∀ (i : Nat) (b : CacheBlock), set.blocks[i]? = some b →
      ¬ (b.valid = true ∧ b.tag = (a / h.l1.blockSize.toNat) / h.l1.numSets.toNat))
    (hv : set.lruOrder.getLast? = some v) (hvb : set.blocks[v]? = some vb)
    (hvalid : vb.valid = true) (hdirty : vb.dirty = true) :
    ∃ (h1 : MemoryHierarchy) (wHit rHit : Bool) (l2a l2b : Cache),
      h.access a w = some h1 ∧
      (∀ k, ∃ k1, l2.accessLast h.l2Size
        (((vb.tag * h.l1.numSets.toNat + (a / h.l1.blockSize.toNat) % h.l1.numSets.toNat)
          * h.l1.blockSize.toNat) % 4294967296) true k = some (wHit, l2a, k1)) ∧
      (∀ k, ∃ k1, l2a.accessLast h.l2Size a false k = some (rHit, l2b, k1)) ∧
      h1.l2 = some l2b ∧
      h1.stats.l2Writes = h.stats.l2Writes + 1 ∧
      h1.stats.l1Writebacks = h.stats.l1Writebacks + 1 ∧
      h1.stats.l2Reads = h.stats.l2Reads + 1 ∧
      h1.stats.l2WriteMisses = h.stats.l2WriteMisses + (if wHit then 0 else 1) ∧
      h1.stats.l2ReadMisses = h.stats.l2ReadMisses + (if rHit then 0 else 1) := by
  have hwf := hr.hier_wf
  have hl1 := hwf.l1_wf
  have hn := hwf.l2_wf l2 hl2
  have hpos : h.l2Size ≠ 0 := by
    intro hz
    have := hwf.l2_none (by rw [hz]; decide)
    rw [hl2] at this
    cases this
  rw [← hl1.setIndexOf_eq] at hset
  rw [← hl1.tagOf_eq] at hmiss
  have hd : (vb.valid && vb.dirty) = true := by rw [hvalid, hdirty]; rfl
  obtain ⟨wHit, n1, kw, rHit, n2, kr, hw1, hr2, hacc⟩ :=
    hl1.access_some_dirty hn h.l2Size a w h.stats hset hmiss hv hvb hd
  have hva : ((vb.tag * h.l1.numSets.toNat + (a / h.l1.blockSize.toNat) % h.l1.numSets.toNat)
      * h.l1.blockSize.toNat) % 4294967296 = h.l1.victimAddress vb (h.l1.setIndexOf a) := by
    unfold Cache.victimAddress
    rw [hl1.setIndexOf_eq, hl1.toU32_numSets, hl1.toU32_blockSize]
  rw [hva]
  have hacc1 : h.access a w = some (h.afterL1 w (false,
      { h.l1 with
        sets := h.l1.sets.set (h.l1.setIndexOf a) (fillSet set v w (h.l1.tagOf a)) },
      some n2, if !rHit then { kr with l2ReadMisses := kr.l2ReadMisses + 1 } else kr)) := by
    rw [MemoryHierarchy.access_eq, hl2, hacc]
    rfl
  refine ⟨_, wHit, rHit, n1, n2, hacc1, (accessLast_counters hw1).2,
    (accessLast_counters hr2).2, rfl, ?_⟩
  · obtain ⟨f1, f2, f3, f4, f5, _⟩ := accessLast_frame hw1
    obtain ⟨g1, g2, g3, g4, g5, _⟩ := accessLast_frame hr2
    have f5 := f5 hpos
    have g5 := g5 hpos
    simp only at f1 f2 f3 f4 f5 g1 g2 g3 g4 g5
    simp only [MemoryHierarchy.afterL1]
    cases wHit <;> cases rHit <;>
      simp_all

theorem twoLevelFresh_reachable : twoLevelFresh.Reachable :=
  MemoryHierarchy.Reachable.init 16 1 32 1 4 twoLevelFresh (by decide) (by decide)

theorem twoLevelDirty_reachable : twoLevelDirty.Reachable :=
  MemoryHierarchy.Reachable.step twoLevelFresh 0 true twoLevelDirty twoLevelFresh_reachable
    (by decide)

theorem dirty_eviction_with_l2_witness :
    ∃ (h1 : MemoryHierarchy) (wHit rHit : Bool) (l2a l2b : Cache),
      twoLevelDirty.access 16 false = some h1 ∧
      (∀ k, ∃ k1, sampleL2.accessLast twoLevelDirty.l2Size
        ((((⟨true, true, 0⟩ : CacheBlock).tag * twoLevelDirty.l1.numSets.toNat
            + (16 / twoLevelDirty.l1.blockSize.toNat) % twoLevelDirty.l1.numSets.toNat)
          * twoLevelDirty.l1.blockSize.toNat) % 4294967296) true k = some (wHit, l2a, k1)) ∧
      (∀ k, ∃ k1, l2a.accessLast twoLevelDirty.l2Size 16 false k = some (rHit, l2b, k1)) ∧
      h1.l2 = some l2b ∧
      h1.stats.l2Writes = twoLevelDirty.stats.l2Writes + 1 ∧
      h1.stats.l1Writebacks = twoLevelDirty.stats.l1Writebacks + 1 ∧
      h1.stats.l2Reads = twoLevelDirty.stats.l2Reads + 1 ∧
      h1.stats.l2WriteMisses = twoLevelDirty.stats.l2WriteMisses + (if wHit then 0 else 1) ∧
      h1.stats.l2ReadMisses = twoLevelDirty.stats.l2ReadMisses + (if rHit then 0 else 1) :=
  dirty_eviction_with_l2 twoLevelDirty twoLevelDirty_reachable sampleL2 rfl 16 false
    ⟨[⟨true, true, 0⟩], [0]⟩ 0 ⟨true, true, 0⟩ (by decide)
    (by
      intro i b hb
      cases i with
      | zero =>
        simp only [List.getElem?_cons_zero, Option.some.injEq] at hb
        subst hb
        decide
      | succ j => simp at hb)
    (by decide) (by decide) rfl rfl

/-- C9. In a reachable hierarchy with an L2, an access of either kind that misses in L1 (no
valid line of the target set carries the tag) and whose victim, the line at the tail of the
target set's `lruOrder`, is invalid or not dirty, is defined and has these effects. L2
receives exactly one access, a read (`isWrite = false`) of the requested address, also when the
request itself is a write; the L2 afterwards is the result of that read. The L2 demand-read
counter grows by exactly 1; the L2 write counter, the L2 write-miss counter and the L1
write-back counter are unchanged; the L2 read-miss counter grows by 1 exactly when the read
missed in L2. -/
theorem clean_eviction_with_l2 (h : MemoryHierarchy) (hr : h.Reachable) (l2 : Cache)
    (hl2 : h.l2 = some l2) (a : Nat) (w : Bool) (set : CacheSet) (v : Nat) (vb : CacheBlock)
    (hset : h.l1.sets[(a / h.l1.blockSize.toNat) % h.l1.numSets.toNat]? = some set)
    (hmiss : ∀ (i : Nat) (b : CacheBlock), set.blocks[i]? = some b →
      ¬ (b.valid = true ∧ b.tag = (a / h.l1.blockSize.toNat) / h.l1.numSets.toNat))
    (hv : set.lruOrder.getLast? = some v) (hvb : set.blocks[v]? = some vb)
    (hclean : vb.valid = false ∨ vb.dirty = false) :
    ∃ (h1 : MemoryHierarchy) (rHit : Bool) (l2b : Cache),
      h.access a w = some h1 ∧
      (∀ k, ∃ k1, l2.accessLast h.l2Size a false k = some (rHit, l2b, k1)) ∧
      h1.l2 = some l2b ∧
      h1.stats.l2Reads = h.stats.l2Reads + 1 ∧
      h1.stats.l2Writes = h.stats.l2Writes ∧
      h1.stats.l2WriteMisses = h.stats.l2WriteMisses ∧
      h1.stats.l1Writebacks = h.stats.l1Writebacks ∧
      h1.stats.l2ReadMisses = h.stats.l2ReadMisses + (if rHit then 0 else 1) := by
  have hwf := hr.hier_wf
  have hl1 := hwf.l1_wf
  have hn := hwf.l2_wf l2 hl2
  have hpos : h.l2Size ≠ 0 := by
    intro hz
    have := hwf.l2_none (by rw [hz]; decide)
    rw [hl2] at this
    cases this
  rw [← hl1.setIndexOf_eq] at hset
  rw [← hl1.tagOf_eq] at hmiss
  have hd : ¬ (vb.valid && vb.dirty) = true := by
    rcases hclean with hc | hc <;> rw [hc] <;> simp
  obtain ⟨rHit, n2, kr, hr2, hacc⟩ :=
    hl1.access_some_clean hn h.l2Size a w h.stats hset hmiss hv hvb hd
  have hacc1 : h.access a w = some (h.afterL1 w (false,
      { h.l1 with
        sets := h.l1.sets.set (h.l1.setIndexOf a) (fillSet set v w (h.l1.tagOf a)) },
      some n2, if !rHit then { kr with l2ReadMisses := kr.l2ReadMisses + 1 } else kr)) := by
    rw [MemoryHierarchy.access_eq, hl2, hacc]
    rfl
  refine ⟨_, rHit, n2, hacc1, (accessLast_counters hr2).2, rfl, ?_⟩
  obtain ⟨g1, g2, g3, g4, g5, _⟩ := accessLast_frame hr2
  have g5 := g5 hpos
  simp only at g1 g2 g3 g4 g5
  simp only [MemoryHierarchy.afterL1]
  cases rHit <;> simp_all

theorem clean_eviction_with_l2_witness :
    ∃ (h1 : MemoryHierarchy) (rHit : Bool) (l2b : Cache),
      twoLevelFresh.access 0 true = some h1 ∧
      (∀ k, ∃ k1,
        Cache.accessLast twoLevelFresh.l2Size
          { size := 32, associativity := 1, blockSize := 4, numSets := 8,
            sets := List.replicate 8 coldSet } 0 false k = some (rHit, l2b, k1)) ∧
      h1.l2 = some l2b ∧
      h1.stats.l2Reads = twoLevelFresh.stats.l2Reads + 1 ∧
      h1.stats.l2Writes = twoLevelFresh.stats.l2Writes ∧
      h1.stats.l2WriteMisses = twoLevelFresh.stats.l2WriteMisses ∧
      h1.stats.l1Writebacks = twoLevelFresh.stats.l1Writebacks ∧
      h1.stats.l2ReadMisses = twoLevelFresh.stats.l2ReadMisses + (if rHit then 0 else 1) :=
  clean_eviction_with_l2 twoLevelFresh twoLevelFresh_reachable _ rfl 0 true coldSet 0
    ⟨false, false, 0⟩ (by decide)
    (by
      intro i b hb
      cases i with
      | zero =>
        simp only [coldSet, List.getElem?_cons_zero, Option.some.injEq] at hb
        subst hb
        decide
      | succ j => simp [coldSet] at hb)
    (by decide) (by decide) (Or.inl rfl)

theorem mem_refLRU (k : Nat) (l : List Nat) (t : Nat) : t ∈ refLRU k l t := by
  unfold refLRU
  split
  · exact List.mem_cons_self _ _
  · split
    · exact List.mem_cons_self _ _
    · exact List.mem_cons_self _ _

/-- After any access to an address, an immediately following access to the same address
hits. -/
theorem Cache.WF.access_twice {c : Cache} (hwf : c.WF) {l2Size : Int} {a : Nat} {w : Bool}
    {next : Option Cache} {k : Counters} {r : Bool × Cache × Option Cache × Counters}
    (hr : c.access l2Size a w next k = some r) (l2Size2 : Int) (w2 : Bool)
    (next2 : Option Cache) (hnext2 : ∀ n, next2 = some n → n.WF) (k2 : Counters) :
    ∃ c2, r.2.1.access l2Size2 a w2 next2 k2 = some (true, c2, next2, k2) := by
  have hwf1 := hwf.step hr
  obtain ⟨_, hpa, hpb, hpn, _⟩ := access_params hr
  obtain ⟨set, set1, hset, hset1, _, hres, _, _⟩ := hwf.access_refines hr
  obtain ⟨r2, hr2⟩ := hwf1.access_total l2Size2 a w2 next2 hnext2 k2
  obtain ⟨set', set2, hset', _, hhit, _, _, _⟩ := hwf1.access_refines hr2
  have hsi : r.2.1.setIndexOf a = c.setIndexOf a := by
    unfold Cache.setIndexOf; rw [hpb, hpn]
  have htg : r.2.1.tagOf a = c.tagOf a := by
    unfold Cache.tagOf; rw [hpb, hpn]
  rw [hsi, hset1] at hset'
  cases hset'
  rw [htg, hres] at hhit
  have htrue : r2.1 = true := hhit.2 (mem_refLRU _ _ _)
  obtain ⟨hit, c2, n2, k2'⟩ := r2
  simp only at htrue
  subst htrue
  obtain ⟨hk, hn, _⟩ := hwf1.access_hit l2Size2 a w2 next2 k2 c2 n2 k2' hr2
  subst hk
  subst hn
  exact ⟨c2, hr2⟩

/-- C10. In every reachable hierarchy state, for every address and any two access kinds,
`MemoryHierarchy::access` on the address followed immediately by `MemoryHierarchy::access` on
the same address is defined, and the second access is an L1 hit: the L1 call returns `true`;
the two L1 miss counters, the seven shared counters (memory traffic, L1 write-backs and the
five L2 counters) and the L2 are unchanged; only the L1 read or write counter grows by 1; in
L1 only the target set changes: exactly one of its lines holds the address, all valid flags
and tags stay, the dirty flag of that line becomes `true` when the second access is a write
and stays otherwise, and all other lines are unchanged. -/
theorem repeated_access_hits (h : MemoryHierarchy) (hr : h.Reachable) (a : Nat)
    (w1 w2 : Bool) :
    ∃ (h1 h2 : MemoryHierarchy) (c2 : Cache),
      h.access a w1 = some h1 ∧ h1.access a w2 = some h2 ∧
      h1.l1.access h1.l2Size a w2 h1.l2 h1.stats = some (true, c2, h1.l2, h1.stats) ∧
      h2.l1 = c2 ∧
      h2.stats = h1.stats ∧ h2.l2 = h1.l2 ∧
      h2.l1ReadMisses = h1.l1ReadMisses ∧ h2.l1WriteMisses = h1.l1WriteMisses ∧
      h2.l1Reads = (if w2 then h1.l1Reads else h1.l1Reads + 1) ∧
      h2.l1Writes = (if w2 then h1.l1Writes + 1 else h1.l1Writes) ∧
      ∃ (set : CacheSet) (i : Nat) (b : CacheBlock),
        h1.l1.sets[(a / h1.l1.blockSize.toNat) % h1.l1.numSets.toNat]? = some set ∧
        set.blocks[i]? = some b ∧ b.valid = true ∧
        b.tag = (a / h1.l1.blockSize.toNat) / h1.l1.numSets.toNat ∧
        (∀ (j : Nat) (bj : CacheBlock), set.blocks[j]? = some bj → bj.valid = true →
          bj.tag = (a / h1.l1.blockSize.toNat) / h1.l1.numSets.toNat → j = i) ∧
        c2 = { h1.l1 with
                sets := h1.l1.sets.set ((a / h1.l1.blockSize.toNat) % h1.l1.numSets.toNat)
                  ⟨set.blocks.set i ⟨b.valid, (if w2 then true else b.dirty), b.tag⟩,
                    i :: set.lruOrder.filter (fun j => j != i)⟩ } := by
  have hwf := hr.hier_wf
  obtain ⟨h1, hacc1⟩ := hwf.hier_access_total a w1
  have hwf1 := (hwf.step_hier hacc1).1
  obtain ⟨r1, hr1, hh1⟩ := MemoryHierarchy.access_cases hacc1
  have hl1eq : h1.l1 = r1.2.1 := by rw [hh1]; rfl
  obtain ⟨c2, hc2⟩ := hwf.l1_wf.access_twice hr1 h1.l2Size w2 h1.l2 hwf1.l2_wf h1.stats
  rw [← hl1eq] at hc2
  have hacc2 : h1.access a w2 = some (h1.afterL1 w2 (true, c2, h1.l2, h1.stats)) := by
    rw [MemoryHierarchy.access_eq, hc2]
    rfl
  obtain ⟨_, _, hexp⟩ := hwf1.l1_wf.access_hit h1.l2Size a w2 h1.l2 h1.stats c2 h1.l2 h1.stats hc2
  refine ⟨h1, _, c2, hacc1, hacc2, hc2, rfl, rfl, rfl, ?_, ?_, rfl, rfl, hexp⟩
  · simp [MemoryHierarchy.afterL1]
  · simp [MemoryHierarchy.afterL1]

theorem repeated_access_hits_witness :
    ∃ (h1 h2 : MemoryHierarchy) (c2 : Cache),
      twoLevelDirty.access 16 false = some h1 ∧ h1.access 16 true = some h2 ∧
      h1.l1.access h1.l2Size 16 true h1.l2 h1.stats = some (true, c2, h1.l2, h1.stats) ∧
      h2.l1 = c2 ∧
      h2.stats = h1.stats ∧ h2.l2 = h1.l2 ∧
      h2.l1ReadMisses = h1.l1ReadMisses ∧ h2.l1WriteMisses = h1.l1WriteMisses ∧
      h2.l1Reads = (if true then h1.l1Reads else h1.l1Reads + 1) ∧
      h2.l1Writes = (if true then h1.l1Writes + 1 else h1.l1Writes) ∧
      ∃ (set : CacheSet) (i : Nat) (b : CacheBlock),
        h1.l1.sets[(16 / h1.l1.blockSize.toNat) % h1.l1.numSets.toNat]? = some set ∧
        set.blocks[i]? = some b ∧ b.valid = true ∧
        b.tag = (16 / h1.l1.blockSize.toNat) / h1.l1.numSets.toNat ∧
        (∀ (j : Nat) (bj : CacheBlock), set.blocks[j]? = some bj → bj.valid = true →
          bj.tag = (16 / h1.l1.blockSize.toNat) / h1.l1.numSets.toNat → j = i) ∧
        c2 = { h1.l1 with
                sets := h1.l1.sets.set ((16 / h1.l1.blockSize.toNat) % h1.l1.numSets.toNat)
                  ⟨set.blocks.set i ⟨b.valid, (if true then true else b.dirty), b.tag⟩,
                    i :: set.lruOrder.filter (fun j => j != i)⟩ } :=
  repeated_access_hits twoLevelDirty twoLevelDirty_reachable 16 false true

/-- What an access with a next level does to the seven counters when the global `l2Size` is
not zero: `e` counts the write-back pushed down, `wm` and `rm` the misses of the write and of
the read in the next level, `d` the dirty evictions from the next level. -/
theorem access_some_counters {l2Size : Int} (hz : l2Size ≠ 0) {c n : Cache} {a : Nat} {w : Bool}
    {k : Counters} {r : Bool × Cache × Option Cache × Counters}
    (hr : c.access l2Size a w (some n) k = some r) :
    ∃ e wm rm d : Int,
      0 ≤ e ∧ 0 ≤ wm ∧ wm ≤ e ∧ 0 ≤ rm ∧ rm ≤ (if r.1 then 0 else 1) ∧ 0 ≤ d ∧
      (r.1 = true → e = 0 ∧ d = 0) ∧
      r.2.2.2 =
        { memoryTraffic := k.memoryTraffic + wm + rm + d
          l1Writebacks := k.l1Writebacks + e
          l2Writes := k.l2Writes + e
          l2Reads := k.l2Reads + (if r.1 then 0 else 1)
          l2ReadMisses := k.l2ReadMisses + rm
          l2Writebacks := k.l2Writebacks + d
          l2WriteMisses := k.l2WriteMisses + wm } := by
  obtain ⟨_, _, set, _, hcase⟩ := access_some_cases hr
  rcases hcase with ⟨i, _, rfl⟩ | ⟨_, v, vb, n1, k1, l2Hit, n2, k3, _, _, hwb, hl2, rfl⟩
  · refine ⟨0, 0, 0, 0, le_refl _, le_refl _, le_refl _, le_refl _, ?_, le_refl _, ?_, ?_⟩
    · simp
    · intro _; exact ⟨rfl, rfl⟩
    · simp
  · obtain ⟨⟨d2, hd2, hd2hit, hk3⟩, _⟩ := accessLast_counters hl2
    simp only at hd2hit hk3
    have hev : ∃ e wm d1 : Int, 0 ≤ e ∧ 0 ≤ wm ∧ wm ≤ e ∧ 0 ≤ d1 ∧
        k1 = { memoryTraffic := k.memoryTraffic + wm + d1
               l1Writebacks := k.l1Writebacks + e
               l2Writes := k.l2Writes + e
               l2Reads := k.l2Reads
               l2ReadMisses := k.l2ReadMisses
               l2Writebacks := k.l2Writebacks + d1
               l2WriteMisses := k.l2WriteMisses + wm } := by
      unfold Cache.evictBelow at hwb
      split at hwb
      · obtain ⟨wHit, m1, kw, hacc, hreq⟩ := writeBack_some_cases hwb
        simp only [Prod.mk.injEq, Option.some.injEq] at hreq
        obtain ⟨⟨d1, hd1, hd1hit, hkw⟩, _⟩ := accessLast_counters hacc
        simp only at hd1hit hkw
        rw [hreq.2, hkw]
        cases wHit
        · refine ⟨1, 1, d1, by decide, by decide, le_refl _, by omega, ?_⟩
          simp [hz]
        · refine ⟨1, 0, d1, by decide, le_refl _, by decide, by omega, ?_⟩
          simp [hz]
      · simp only [Option.some.injEq, Prod.mk.injEq] at hwb
        refine ⟨0, 0, 0, le_refl _, le_refl _, le_refl _, le_refl _, ?_⟩
        rw [← hwb.2]
        simp
    obtain ⟨e, wm, d1, he, hwm, hwme, hd1, hk1⟩ := hev
    rw [hk3, hk1]
    cases l2Hit
    · refine ⟨e, wm, 1, d1 + d2, he, hwm, hwme, by decide, by simp, by omega, ?_, ?_⟩
      · intro hf; cases hf
      · simp [hz]
        omega
    · refine ⟨e, wm, 0, d1 + d2, he, hwm, hwme, le_refl _, by simp, by omega, ?_, ?_⟩
      · intro hf; cases hf
      · simp [hz]
        omega

/-! ### Write-backs and memory traffic at the last level -/

theorem MemoryHierarchy.afterL1_misses (h : MemoryHierarchy) (w : Bool)
    (r : Bool × Cache × Option Cache × Counters) :
    (h.afterL1 w r).l1ReadMisses + (h.afterL1 w r).l1WriteMisses
      = h.l1ReadMisses + h.l1WriteMisses + (if r.1 then 0 else 1) := by
  unfold MemoryHierarchy.afterL1
  cases w <;> cases r.1 <;> simp <;> omega

theorem StatsInv.step_stats {h h1 : MemoryHierarchy} (hs : StatsInv h) (hwf : h.WF) {a : Nat}
    {w : Bool} (hacc : h.access a w = some h1) : StatsInv h1 := by
  obtain ⟨r, hr, rfl⟩ := MemoryHierarchy.access_cases hacc
  have hm := h.afterL1_misses w r
  by_cases hpos : 0 < h.l2Size
  · obtain ⟨n, hn⟩ := hwf.l2_some hpos
    rw [hn] at hr
    obtain ⟨e, wm, rm, d, _, _, _, _, _, _, _, hk⟩ :=
      access_some_counters (by omega) hr
    have hp := hs.present hpos
    refine ⟨?_, ?_, ?_⟩
    · intro hz
      have : h.l2Size = 0 := hz
      omega
    · intro _
      show r.2.2.2.memoryTraffic = r.2.2.2.l2ReadMisses + r.2.2.2.l2WriteMisses
        + r.2.2.2.l2Writebacks
      rw [hk]
      simp only
      omega
    · intro hz
      have : h.l2Size < 0 := hz
      omega
  · have hnone := hwf.l2_none hpos
    rw [hnone, access_none_eq] at hr
    cases h0 : h.l1.accessLast h.l2Size a w h.stats with
    | none => rw [h0] at hr; cases hr
    | some r0 =>
      rw [h0] at hr
      simp only [Option.map_some', Option.some.injEq] at hr
      obtain ⟨⟨d, _, _, hk⟩, _⟩ := accessLast_counters h0
      have hr1 : r.1 = r0.1 := by rw [← hr]
      have hr2 : r.2.2.2 = r0.2.2 := by rw [← hr]
      rw [hr1] at hm
      refine ⟨?_, ?_, ?_⟩
      · intro hz
        have hz' : h.l2Size = 0 := hz
        have hp := hs.absent_zero hz'
        show r.2.2.2.memoryTraffic = _ + _ + r.2.2.2.l1Writebacks
        rw [hm, hr2, hk]
        simp only [hz', if_true]
        omega
      · intro hz
        exact absurd hz hpos
      · intro hz
        have hz' : h.l2Size < 0 := hz
        have hne : h.l2Size ≠ 0 := by omega
        have hp := hs.absent_negative hz'
        show r.2.2.2.memoryTraffic = _ + _ + r.2.2.2.l2Writebacks
        rw [hm, hr2, hk]
        simp only [hne, if_false]
        omega

theorem MemoryHierarchy.Reachable.statsInv {h : MemoryHierarchy} (hr : h.Reachable) :
    StatsInv h := by
  induction hr with
  | init l1Size l1Associativity l2Size l2Associativity blockSize h hv hn =>
    obtain ⟨_, _, h3, _, _, h6, h7⟩ := MemoryHierarchy.new_hier_wf hv hn
    refine ⟨?_, ?_, ?_⟩
    · intro _; rw [h3, h6, h7]; rfl
    · intro _; rw [h3]; rfl
    · intro _; rw [h3, h6, h7]; rfl
  | step h a w h1 hreach hacc ih => exact ih.step_stats hreach.hier_wf hacc

/-- Inclusive traffic accounting holds after every trace whenever the configured L2 size is
not negative: without an L2 (size 0) memory traffic is the number of L1 misses plus L1
write-backs, with an L2 it is the number of L2 misses plus L2 write-backs. -/
theorem traffic_accounting_nonnegative (l1Size l1Associativity l2Size l2Associativity
    blockSize : Int)
    (hv : ValidConfig l1Size l1Associativity l2Size l2Associativity blockSize)
    (hnn : 0 ≤ l2Size) (trace : List (Nat × Bool)) :
    ∃ h0 h, MemoryHierarchy.new l1Size l1Associativity l2Size l2Associativity blockSize
        = some h0 ∧
      h0.replay trace = some h ∧
      (h.l2 = none →
        h.stats.memoryTraffic = h.l1ReadMisses + h.l1WriteMisses + h.stats.l1Writebacks) ∧
      (h.l2 ≠ none →
        h.stats.memoryTraffic
          = h.stats.l2ReadMisses + h.stats.l2WriteMisses + h.stats.l2Writebacks) := by
  obtain ⟨h0, hn⟩ := MemoryHierarchy.new_total hv
  have hreach0 := MemoryHierarchy.Reachable.init _ _ _ _ _ h0 hv hn
  obtain ⟨h, hrep⟩ := hreach0.hier_wf.replay_total trace h0
  have hreach := MemoryHierarchy.Reachable.replay trace h0 h hreach0 hrep
  have hs := hreach.statsInv
  have hwf := hreach.hier_wf
  have hsize : ∀ (tr : List (Nat × Bool)) (x y : MemoryHierarchy), x.WF →
      x.replay tr = some y → y.l2Size = x.l2Size := by
    intro tr
    induction tr with
    | nil =>
      intro x y _ hxy
      simp only [MemoryHierarchy.replay, Option.some.injEq] at hxy
      rw [hxy]
    | cons p rest ih =>
      intro x y hx hxy
      obtain ⟨a, w⟩ := p
      unfold MemoryHierarchy.replay at hxy
      cases hacc : x.access a w with
      | none => rw [hacc] at hxy; cases hxy
      | some z =>
        rw [hacc] at hxy
        have := hx.step_hier hacc
        rw [ih z y this.1 hxy, this.2]
  have hl2size : h.l2Size = l2Size := by
    rw [hsize trace h0 h hreach0.hier_wf hrep]
    exact (MemoryHierarchy.new_hier_wf hv hn).2.1
  refine ⟨h0, h, hn, hrep, ?_, ?_⟩
  · intro hnone
    apply hs.absent_zero
    by_contra hne
    have hpos : 0 < h.l2Size := by omega
    obtain ⟨n, hn'⟩ := hwf.l2_some hpos
    rw [hnone] at hn'
    cases hn'
  · intro hsome
    apply hs.present
    by_contra hne
    exact hsome (hwf.l2_none hne)

/-- C8, failing input. With configured L2 size -1 the constructor builds no L2, and after the
trace `w 0, r 10` (hexadecimal) memory traffic is 3 while L1 read misses, L1 write misses
and L1 write-backs add up to 2: the write-back of the evicted dirty block was counted as an
L2 write-back. -/
theorem traffic_accounting_negative_l2Size :
    MemoryHierarchy.new 16 1 (-1) 1 4 = some negativeL2Fresh ∧
    negativeL2Fresh.replay [(0, true), (16, false)] = some negativeL2Evicted ∧
    negativeL2Evicted.l2 = none ∧
    negativeL2Evicted.stats.memoryTraffic = 3 ∧
    negativeL2Evicted.l1ReadMisses + negativeL2Evicted.l1WriteMisses
      + negativeL2Evicted.stats.l1Writebacks = 2 ∧
    negativeL2Evicted.stats.l2Writebacks = 1 := by
  decide

/-- C7, failing input. With configured L2 size -1 the constructor builds no L2. After a write
of address 0, the read of address 16 misses in L1 and evicts the valid dirty line of set 0:
the L1 write-back counter stays at 0, the L2 write-back counter goes from 0 to 1, and memory
traffic grows by 2. -/
theorem dirty_eviction_negative_l2Size :
    MemoryHierarchy.new 16 1 (-1) 1 4 = some negativeL2Fresh ∧
    negativeL2Fresh.access 0 true = some negativeL2Dirty ∧
    negativeL2Dirty.l2 = none ∧
    negativeL2Dirty.l1.sets[0]? = some ⟨[⟨true, true, 0⟩], [0]⟩ ∧
    negativeL2Dirty.access 16 false = some negativeL2Evicted ∧
    negativeL2Evicted.l1ReadMisses = negativeL2Dirty.l1ReadMisses + 1 ∧
    negativeL2Evicted.stats.l1Writebacks = negativeL2Dirty.stats.l1Writebacks ∧
    negativeL2Evicted.stats.l2Writebacks = negativeL2Dirty.stats.l2Writebacks + 1 ∧
    negativeL2Evicted.stats.memoryTraffic = negativeL2Dirty.stats.memoryTraffic + 2 := by
  decide

/-- Write-back conservation at the last level holds when the configured L2 size is exactly 0:
a miss in L1 with a valid dirty victim adds 1 to the L1 write-back counter and 2 to memory
traffic, a miss with an invalid or clean victim adds 1 to memory traffic and nothing to the
write-back counters, and in both cases the five L2 counters are unchanged. -/
theorem last_level_eviction_l2Size_zero (h : MemoryHierarchy) (hr : h.Reachable)
    (hz : h.l2Size = 0) (a : Nat) (w : Bool) (set : CacheSet) (v : Nat) (vb : CacheBlock)
    (hset : h.l1.sets[(a / h.l1.blockSize.toNat) % h.l1.numSets.toNat]? = some set)
    (hmiss : ∀ (i : Nat) (b : CacheBlock), set.blocks[i]? = some b →
      ¬ (b.valid = true ∧ b.tag = (a / h.l1.blockSize.toNat) / h.l1.numSets.toNat))
    (hv : set.lruOrder.getLast? = some v) (hvb : set.blocks[v]? = some vb) :
    ∃ h1, h.access a w = some h1 ∧
      h1.stats.l1Writebacks
        = h.stats.l1Writebacks + (if vb.valid && vb.dirty then 1 else 0) ∧
      h1.stats.memoryTraffic
        = h.stats.memoryTraffic + (if vb.valid && vb.dirty then 2 else 1) ∧
      h1.stats.l2Reads = h.stats.l2Reads ∧ h1.stats.l2ReadMisses = h.stats.l2ReadMisses ∧
      h1.stats.l2Writes = h.stats.l2Writes ∧ h1.stats.l2WriteMisses = h.stats.l2WriteMisses ∧
      h1.stats.l2Writebacks = h.stats.l2Writebacks := by
  have hwf := hr.hier_wf
  have hl1 := hwf.l1_wf
  have hnone : h.l2 = none := hwf.l2_none (by rw [hz]; decide)
  rw [← hl1.setIndexOf_eq] at hset
  rw [← hl1.tagOf_eq] at hmiss
  have hinv := hl1.sets_inv set (List.getElem?_mem hset)
  have hfind := hinv.findHit_of_miss hmiss
  have hacc : h.l1.accessLast h.l2Size a w h.stats = some (false,
      { h.l1 with
        sets := h.l1.sets.set (h.l1.setIndexOf a) (fillSet set v w (h.l1.tagOf a)) },
      lastLevelCounters h.l2Size vb h.stats) :=
    accessLast_miss_intro hl1.blockSize_ne hl1.numSets_ne hset hfind hv hvb
  have hacc1 : h.access a w = some (h.afterL1 w (false,
      { h.l1 with
        sets := h.l1.sets.set (h.l1.setIndexOf a) (fillSet set v w (h.l1.tagOf a)) },
      none, lastLevelCounters h.l2Size vb h.stats)) := by
    rw [MemoryHierarchy.access_eq, hnone, access_none_eq, hacc]
    rfl
  refine ⟨_, hacc1, ?_⟩
  · simp only [MemoryHierarchy.afterL1, lastLevelCounters, hz]
    by_cases hd : (vb.valid && vb.dirty) = true
    · simp [hd]; omega
    · simp [hd]

/-! ### Relations among the counters -/

theorem MemoryHierarchy.afterL1_fields (h : MemoryHierarchy) (w : Bool)
    (r : Bool × Cache × Option Cache × Counters) :
    (h.afterL1 w r).l2Size = h.l2Size ∧ (h.afterL1 w r).stats = r.2.2.2 ∧
    (h.afterL1 w r).l1Reads = h.l1Reads + (if w then 0 else 1) ∧
    (h.afterL1 w r).l1Writes = h.l1Writes + (if w then 1 else 0) ∧
    (h.afterL1 w r).l1ReadMisses = h.l1ReadMisses + (if !w && !r.1 then 1 else 0) ∧
    (h.afterL1 w r).l1WriteMisses = h.l1WriteMisses + (if w && !r.1 then 1 else 0) := by
  unfold MemoryHierarchy.afterL1
  cases w <;> cases r.1 <;> simp

/-- What one `MemoryHierarchy::access` adds to each counter: `m` is 1 when L1 missed, `e`
counts the write-back pushed into L2, `wm` and `rm` the misses of the write and of the read
in L2, `d` the dirty evictions from the last level. -/
theorem MemoryHierarchy.WF.access_deltas {h h1 : MemoryHierarchy} (hwf : h.WF) {a : Nat}
    {w : Bool} (hacc : h.access a w = some h1) :
    ∃ (r : Bool × Cache × Option Cache × Counters) (m e wm rm d : Int),
      h.l1.access h.l2Size a w h.l2 h.stats = some r ∧ m = (if r.1 then 0 else 1) ∧
      0 ≤ e ∧ 0 ≤ wm ∧ wm ≤ e ∧ 0 ≤ rm ∧ rm ≤ m ∧ 0 ≤ d ∧
      h1.l2Size = h.l2Size ∧
      h1.l1Reads = h.l1Reads + (if w then 0 else 1) ∧
      h1.l1Writes = h.l1Writes + (if w then 1 else 0) ∧
      h1.l1ReadMisses = h.l1ReadMisses + (if w then 0 else m) ∧
      h1.l1WriteMisses = h.l1WriteMisses + (if w then m else 0) ∧
      h1.stats.l2Writes = h.stats.l2Writes + e ∧
      h1.stats.l2WriteMisses = h.stats.l2WriteMisses + wm ∧
      h1.stats.l2ReadMisses = h.stats.l2ReadMisses + rm ∧
      (0 < h.l2Size →
        h1.stats.memoryTraffic = h.stats.memoryTraffic + wm + rm + d ∧
        h1.stats.l1Writebacks = h.stats.l1Writebacks + e ∧
        h1.stats.l2Reads = h.stats.l2Reads + m ∧
        h1.stats.l2Writebacks = h.stats.l2Writebacks + d) ∧
      (¬ 0 < h.l2Size →
        e = 0 ∧ wm = 0 ∧ rm = 0 ∧
        h1.stats.memoryTraffic = h.stats.memoryTraffic + m + d ∧
        h1.stats.l1Writebacks = h.stats.l1Writebacks + (if h.l2Size = 0 then d else 0) ∧
        h1.stats.l2Reads = h.stats.l2Reads ∧
        h1.stats.l2Writebacks = h.stats.l2Writebacks + (if h.l2Size = 0 then 0 else d)) := by
  obtain ⟨r, hr, rfl⟩ := MemoryHierarchy.access_cases hacc
  obtain ⟨f1, f2, f3, f4, f5, f6⟩ := h.afterL1_fields w r
  have g5 : (h.afterL1 w r).l1ReadMisses
      = h.l1ReadMisses + (if w then 0 else (if r.1 then (0 : Int) else 1)) := by
    rw [f5]; cases w <;> cases r.1 <;> rfl
  have g6 : (h.afterL1 w r).l1WriteMisses
      = h.l1WriteMisses + (if w then (if r.1 then (0 : Int) else 1) else 0) := by
    rw [f6]; cases w <;> cases r.1 <;> rfl
  by_cases hpos : 0 < h.l2Size
  · obtain ⟨n, hn⟩ := hwf.l2_some hpos
    have hr' := hr
    rw [hn] at hr'
    obtain ⟨e, wm, rm, d, he, hwm, hwme, hrm, hrmle, hd, _, hk⟩ :=
      access_some_counters (by omega) hr'
    rw [hk] at f2
    refine ⟨r, _, e, wm, rm, d, hr, rfl, he, hwm, hwme, hrm, hrmle, hd, f1, f3, f4, g5, g6,
      ?_, ?_, ?_, ?_, ?_⟩
    · rw [f2]
    · rw [f2]
    · rw [f2]
    · intro _
      rw [f2]
      exact ⟨rfl, rfl, rfl, rfl⟩
    · intro hneg
      exact absurd hpos hneg
  · have hnone := hwf.l2_none hpos
    have hr' := hr
    rw [hnone, access_none_eq] at hr'
    cases h0 : h.l1.accessLast h.l2Size a w h.stats with
    | none => rw [h0] at hr'; cases hr'
    | some r0 =>
      rw [h0] at hr'
      simp only [Option.map_some', Option.some.injEq] at hr'
      obtain ⟨⟨d, hd, _, hk⟩, _⟩ := accessLast_counters h0
      have hr1 : r0.1 = r.1 := by rw [← hr']
      have hr2 : r.2.2.2 = r0.2.2 := by rw [← hr']
      rw [hr2, hk, hr1] at f2
      have hd0 : 0 ≤ d := by omega
      have hm : (0 : Int) ≤ (if r.1 then 0 else 1) := by cases r.1 <;> decide
      refine ⟨r, _, 0, 0, 0, d, hr, rfl, le_refl _, le_refl _, le_refl _, le_refl _, hm, hd0,
        f1, f3, f4, g5, g6, ?_, ?_, ?_, ?_, ?_⟩
      · rw [f2]; simp
      · rw [f2]; simp
      · rw [f2]; simp
      · intro hp
        exact absurd hp hpos
      · intro _
        rw [f2]
        exact ⟨rfl, rfl, rfl, rfl, rfl, rfl, rfl⟩

theorem CounterInv.step_counters {h h1 : MemoryHierarchy} (hs : CounterInv h) (hwf : h.WF)
    {a : Nat} {w : Bool} (hacc : h.access a w = some h1) : CounterInv h1 := by
  obtain ⟨r, m, e, wm, rm, d, _, hm, he, hwm, hwme, hrm, hrmle, hd, f1, f3, f4, f5, f6,
    f7, f8, f9, hP, hA⟩ := hwf.access_deltas hacc
  obtain ⟨a1, a2, a3, a4, a5, a6, a7, a8, a9, a10, a11, b1, b2, b3, b4, c1, c2, c3, c4⟩ := hs
  have hm01 : 0 ≤ m ∧ m ≤ 1 := by
    rw [hm]; cases r.1 <;> decide
  clear hacc hm
  by_cases hpos : 0 < h.l2Size
  · obtain ⟨p1, p2, p3, p4⟩ := hP hpos
    have c1' := c1 hpos
    have c2' := c2 hpos
    cases w <;> simp only [if_true, if_false, Bool.false_eq_true] at f3 f4 f5 f6 <;>
      constructor <;> (try intro hx) <;> (try rw [f1] at hx) <;>
      (try refine ⟨?_, ?_, ?_, ?_⟩) <;> omega
  · obtain ⟨q1, q2, q3, q4, q5, q6, q7⟩ := hA hpos
    obtain ⟨c31, c32, c33, c34⟩ := c3 hpos
    by_cases hz : h.l2Size = 0
    · have c4' := c4 hz
      simp only [hz, if_true] at q5 q7
      cases w <;> simp only [if_true, if_false, Bool.false_eq_true] at f3 f4 f5 f6 <;>
        constructor <;> (try intro hx) <;> (try rw [f1] at hx) <;>
        (try refine ⟨?_, ?_, ?_, ?_⟩) <;> omega
    · simp only [hz, if_false] at q5 q7
      cases w <;> simp only [if_true, if_false, Bool.false_eq_true] at f3 f4 f5 f6 <;>
        constructor <;> (try intro hx) <;> (try rw [f1] at hx) <;>
        (try refine ⟨?_, ?_, ?_, ?_⟩) <;> omega

theorem MemoryHierarchy.Reachable.counterInv {h : MemoryHierarchy} (hr : h.Reachable) :
    CounterInv h := by
  induction hr with
  | init l1Size l1Associativity l2Size l2Associativity blockSize h hv hn =>
    obtain ⟨_, _, h3, h4, h5, h6, h7⟩ := MemoryHierarchy.new_hier_wf hv hn
    constructor <;> (try intro _) <;> (try refine ⟨?_, ?_, ?_, ?_⟩) <;>
      simp [h3, h4, h5, h6, h7, Counters.zero]
  | step h a w h1 hreach hacc ih => exact ih.step_counters hreach.hier_wf hacc

theorem MemoryHierarchy.WF.replay_l2Size :
    ∀ (trace : List (Nat × Bool)) (h h1 : MemoryHierarchy), h.WF →
      h.replay trace = some h1 → h1.l2Size = h.l2Size := by
  intro trace
  induction trace with
  | nil =>
    intro h h1 _ hrep
    simp only [MemoryHierarchy.replay, Option.some.injEq] at hrep
    rw [hrep]
  | cons p rest ih =>
    intro h h1 hwf hrep
    obtain ⟨a, w⟩ := p
    unfold MemoryHierarchy.replay at hrep
    cases hacc : h.access a w with
    | none => rw [hacc] at hrep; cases hrep
    | some h2 =>
      rw [hacc] at hrep
      have := hwf.step_hier hacc
      rw [ih h2 h1 this.1 hrep, this.2]

/-- With a valid configuration the constructor succeeds and every trace can be replayed; the
state reached is reachable and carries the configured L2 size, and an L2 exists exactly when
that size is positive. -/
theorem MemoryHierarchy.replay_valid
    {l1Size l1Associativity l2Size l2Associativity blockSize : Int}
    (hv : ValidConfig l1Size l1Associativity l2Size l2Associativity blockSize)
    (trace : List (Nat × Bool)) :
    ∃ h0 h, MemoryHierarchy.new l1Size l1Associativity l2Size l2Associativity blockSize
        = some h0 ∧
      h0.replay trace = some h ∧ h0.Reachable ∧ h.Reachable ∧ h.l2Size = l2Size ∧
      (h.l2 = none ↔ ¬ 0 < l2Size) := by
  obtain ⟨h0, hn⟩ := MemoryHierarchy.new_total hv
  have hreach0 := MemoryHierarchy.Reachable.init _ _ _ _ _ h0 hv hn
  obtain ⟨h, hrep⟩ := hreach0.hier_wf.replay_total trace h0
  have hreach := MemoryHierarchy.Reachable.replay trace h0 h hreach0 hrep
  have hsize : h.l2Size = l2Size := by
    rw [MemoryHierarchy.WF.replay_l2Size trace h0 h hreach0.hier_wf hrep]
    exact (MemoryHierarchy.new_hier_wf hv hn).2.1
  refine ⟨h0, h, hn, hrep, hreach0, hreach, hsize, ?_⟩
  have hwf := hreach.hier_wf
  rw [← hsize]
  constructor
  · intro hnone hpos
    obtain ⟨n, hn'⟩ := hwf.l2_some hpos
    rw [hnone] at hn'
    cases hn'
  · exact hwf.l2_none

/-! ### Miss rates -/

theorem roundHalfEven_intCast (n : Int) : roundHalfEven (n : ℚ) = n := by
  unfold roundHalfEven
  simp

theorem roundHalfEven_mono {x y : ℚ} (h : x ≤ y) : roundHalfEven x ≤ roundHalfEven y := by
  have hf : ⌊x⌋ ≤ ⌊y⌋ := Int.floor_mono h
  have hx1 : roundHalfEven x ≤ ⌊x⌋ + 1 := by
    unfold roundHalfEven
    split_ifs <;> omega
  have hy0 : ⌊y⌋ ≤ roundHalfEven y := by
    unfold roundHalfEven
    split_ifs <;> omega
  rcases lt_or_eq_of_le hf with hlt | heq
  · omega
  · unfold roundHalfEven
    rw [heq]
    have hq : (⌊x⌋ : ℚ) = (⌊y⌋ : ℚ) := by rw [heq]
    have hfr : x - ⌊y⌋ ≤ y - ⌊y⌋ := by linarith
    split_ifs <;> first | omega | (exfalso; linarith)

theorem roundHalfEven_le_of_le {x : ℚ} {n : Int} (h : x ≤ n) : roundHalfEven x ≤ n := by
  have := roundHalfEven_mono h
  rwa [roundHalfEven_intCast] at this

theorem roundHalfEven_ge_of_ge {x : ℚ} {n : Int} (h : (n : ℚ) ≤ x) : n ≤ roundHalfEven x := by
  have := roundHalfEven_mono h
  rwa [roundHalfEven_intCast] at this


theorem ulpF32_pos (q : ℚ) : 0 < ulpF32 q := by
  unfold ulpF32
  positivity

theorem log_lt_succ (q : ℚ) : q < (2 : ℚ) ^ (Int.log 2 q + 1) := by
  have := Int.lt_zpow_succ_log_self (by norm_num : 1 < 2) q
  simpa using this

theorem pow_log_le {q : ℚ} (hq : 0 < q) : (2 : ℚ) ^ (Int.log 2 q) ≤ q := by
  have := Int.zpow_log_le_self (by norm_num : 1 < 2) hq
  simpa using this

theorem ulpF32_mul (q : ℚ) (k : Int) :
    (2 : ℚ) ^ k * ulpF32 q = (2 : ℚ) ^ (k + (max (Int.log 2 |q|) (-126) - 23)) := by
  unfold ulpF32
  rw [← zpow_add₀ (by norm_num : (2 : ℚ) ≠ 0)]

theorem nearestF32_nonneg {q : ℚ} (hq : 0 ≤ q) : 0 ≤ nearestF32 q := by
  unfold nearestF32
  apply mul_nonneg _ (le_of_lt (ulpF32_pos q))
  have h0 : ((0 : Int) : ℚ) ≤ q / ulpF32 q := by
    simpa using div_nonneg hq (le_of_lt (ulpF32_pos q))
  exact_mod_cast roundHalfEven_ge_of_ge h0

/-- The rounded value does not exceed the next power of two. -/
theorem nearestF32_le_pow {q : ℚ} (hq : 0 < q) :
    nearestF32 q ≤ (2 : ℚ) ^ (max (Int.log 2 q) (-126) + 1) := by
  have hu := ulpF32_pos q
  have habs : |q| = q := abs_of_pos hq
  have h1 : q ≤ (2 : ℚ) ^ (max (Int.log 2 q) (-126) + 1) :=
    le_trans (le_of_lt (log_lt_succ q))
      (zpow_le_zpow_right₀ (by norm_num) (by omega))
  have h2 : (2 : ℚ) ^ (max (Int.log 2 q) (-126) + 1) = ((2 ^ 24 : Int) : ℚ) * ulpF32 q := by
    rw [show ((2 ^ 24 : Int) : ℚ) = (2 : ℚ) ^ (24 : Int) by norm_num, ulpF32_mul, habs]
    congr 1
    omega
  rw [h2]
  unfold nearestF32
  apply mul_le_mul_of_nonneg_right _ (le_of_lt hu)
  have h3 : q / ulpF32 q ≤ ((2 ^ 24 : Int) : ℚ) := by
    rw [div_le_iff₀ hu, ← h2]
    exact h1
  exact_mod_cast roundHalfEven_le_of_le h3

/-- In the normal range the rounded value is at least the power of two below. -/
theorem pow_le_nearestF32 {q : ℚ} (hq : 0 < q) (hn : -126 ≤ Int.log 2 q) :
    (2 : ℚ) ^ (Int.log 2 q) ≤ nearestF32 q := by
  have hu := ulpF32_pos q
  have habs : |q| = q := abs_of_pos hq
  have h2 : (2 : ℚ) ^ (Int.log 2 q) = ((2 ^ 23 : Int) : ℚ) * ulpF32 q := by
    rw [show ((2 ^ 23 : Int) : ℚ) = (2 : ℚ) ^ (23 : Int) by norm_num, ulpF32_mul, habs]
    congr 1
    omega
  rw [h2]
  unfold nearestF32
  apply mul_le_mul_of_nonneg_right _ (le_of_lt hu)
  have h3 : ((2 ^ 23 : Int) : ℚ) ≤ q / ulpF32 q := by
    rw [le_div_iff₀ hu, ← h2]
    exact pow_log_le hq
  exact_mod_cast roundHalfEven_ge_of_ge h3

/-- Rounding to binary32 is monotone on positive rationals. -/
theorem nearestF32_mono {q1 q2 : ℚ} (h1 : 0 < q1) (h : q1 ≤ q2) :
    nearestF32 q1 ≤ nearestF32 q2 := by
  have h2 : 0 < q2 := lt_of_lt_of_le h1 h
  have hlog : Int.log 2 q1 ≤ Int.log 2 q2 := Int.log_mono_right h1 h
  by_cases he : max (Int.log 2 q1) (-126) = max (Int.log 2 q2) (-126)
  · have hu : ulpF32 q1 = ulpF32 q2 := by
      unfold ulpF32
      rw [abs_of_pos h1, abs_of_pos h2, he]
    unfold nearestF32
    rw [hu]
    apply mul_le_mul_of_nonneg_right _ (le_of_lt (ulpF32_pos q2))
    have : q1 / ulpF32 q2 ≤ q2 / ulpF32 q2 :=
      div_le_div_of_nonneg_right h (le_of_lt (ulpF32_pos q2))
    exact_mod_cast roundHalfEven_mono this
  · have hn : -126 ≤ Int.log 2 q2 := by omega
    have hlt : max (Int.log 2 q1) (-126) + 1 ≤ Int.log 2 q2 := by omega
    calc nearestF32 q1 ≤ (2 : ℚ) ^ (max (Int.log 2 q1) (-126) + 1) := nearestF32_le_pow h1
      _ ≤ (2 : ℚ) ^ (Int.log 2 q2) := zpow_le_zpow_right₀ (by norm_num) hlt
      _ ≤ nearestF32 q2 := pow_le_nearestF32 h2 hn

/-- Powers of two in the normal range are binary32 values. -/
theorem nearestF32_pow (m : Int) (hm : -126 ≤ m) : nearestF32 ((2 : ℚ) ^ m) = (2 : ℚ) ^ m := by
  have hpos : (0 : ℚ) < (2 : ℚ) ^ m := by positivity
  have hlog : Int.log 2 ((2 : ℚ) ^ m) = m := by
    have : Int.log 2 (((2 : ℕ) : ℚ) ^ m) = m := Int.log_zpow (by norm_num) m
    simpa using this
  have hu : ulpF32 ((2 : ℚ) ^ m) = (2 : ℚ) ^ (m - 23) := by
    unfold ulpF32
    rw [abs_of_pos hpos, hlog]
    congr 1
    omega
  unfold nearestF32
  rw [hu]
  have hq : (2 : ℚ) ^ m / (2 : ℚ) ^ (m - 23) = ((2 ^ 23 : Int) : ℚ) := by
    rw [← zpow_sub₀ (by norm_num : (2 : ℚ) ≠ 0)]
    rw [show m - (m - 23) = 23 by omega]
    norm_num
  rw [hq, roundHalfEven_intCast]
  rw [show ((2 ^ 23 : Int) : ℚ) = (2 : ℚ) ^ (23 : Int) by norm_num,
    ← zpow_add₀ (by norm_num : (2 : ℚ) ≠ 0)]
  congr 1
  omega


/-- Rounding to binary32 is monotone on non-negative rationals, and a value below one that
rounds to a number rounds to a number itself. -/
theorem roundF32_mono {q1 q2 r2 : ℚ} (h1 : 0 ≤ q1) (h : q1 ≤ q2)
    (h2 : roundF32 q2 = some r2) :
    ∃ r1, roundF32 q1 = some r1 ∧ 0 ≤ r1 ∧ r1 ≤ r2 := by
  rcases eq_or_lt_of_le h1 with hz | hpos
  · subst hz
    refine ⟨0, by simp [roundF32], le_refl _, ?_⟩
    unfold roundF32 at h2
    split_ifs at h2 with ha hb
    · cases h2; exact le_refl _
    · cases h2; exact nearestF32_nonneg h
  · have hq2 : 0 < q2 := lt_of_lt_of_le hpos h
    unfold roundF32 at h2
    rw [if_neg (ne_of_gt hq2)] at h2
    split_ifs at h2 with hb
    cases h2
    have hm := nearestF32_mono hpos h
    have hn := nearestF32_nonneg h1
    refine ⟨nearestF32 q1, ?_, hn, hm⟩
    unfold roundF32
    rw [if_neg (ne_of_gt hpos), if_pos]
    rw [abs_of_nonneg hn]
    rw [abs_of_nonneg (le_trans hn hm)] at hb
    exact lt_of_le_of_lt hm hb

theorem roundF32_pow (m : Int) (hm : -126 ≤ m) (hm2 : m < 128) :
    roundF32 ((2 : ℚ) ^ m) = some ((2 : ℚ) ^ m) := by
  have hpos : (0 : ℚ) < (2 : ℚ) ^ m := by positivity
  unfold roundF32
  rw [if_neg (ne_of_gt hpos), nearestF32_pow m hm, if_pos]
  rw [abs_of_pos hpos]
  calc (2 : ℚ) ^ m ≤ (2 : ℚ) ^ (127 : Int) := zpow_le_zpow_right₀ (by norm_num) (by omega)
    _ < 340282366920938463463374607431768211456 := by norm_num

theorem roundF32_one : roundF32 1 = some 1 := by
  have := roundF32_pow 0 (by norm_num) (by norm_num)
  simpa using this

/-- Conversion of non-negative `int` values to `float` is defined and monotone, and a
positive value converts to at least 1. -/
theorem roundF32_int {a b : Int} (ha : 0 ≤ a) (hab : a ≤ b) (hb : b < 2147483648) :
    ∃ x y, roundF32 (a : ℚ) = some x ∧ roundF32 (b : ℚ) = some y ∧ 0 ≤ x ∧ x ≤ y ∧
      (1 ≤ b → 1 ≤ y) := by
  have hbig : roundF32 ((2 : ℚ) ^ (31 : Int)) = some ((2 : ℚ) ^ (31 : Int)) :=
    roundF32_pow 31 (by norm_num) (by norm_num)
  have hbq : (b : ℚ) ≤ (2 : ℚ) ^ (31 : Int) := by
    have : b ≤ 2147483648 := by omega
    have h2 : (b : ℚ) ≤ ((2147483648 : Int) : ℚ) := by exact_mod_cast this
    calc (b : ℚ) ≤ ((2147483648 : Int) : ℚ) := h2
      _ = (2 : ℚ) ^ (31 : Int) := by norm_num
  have hb0 : (0 : ℚ) ≤ (b : ℚ) := by exact_mod_cast (le_trans ha hab)
  obtain ⟨y, hy, _, _⟩ := roundF32_mono hb0 hbq hbig
  have ha0 : (0 : ℚ) ≤ (a : ℚ) := by exact_mod_cast ha
  have habq : (a : ℚ) ≤ (b : ℚ) := by exact_mod_cast hab
  obtain ⟨x, hx, hx0, hxy⟩ := roundF32_mono ha0 habq hy
  refine ⟨x, y, hx, hy, hx0, hxy, ?_⟩
  intro h1
  have h1q : (1 : ℚ) ≤ (b : ℚ) := by exact_mod_cast h1
  obtain ⟨r, hr, _, hry⟩ := roundF32_mono (by norm_num) h1q hy
  rw [roundF32_one] at hr
  cases hr
  exact hry

/-- The `float` quotient of two counters with `0 <= a <= b`, `b` a positive `int` value, is a
number in `[0, 1]`. -/
theorem floatDiv_unit {a b : Int} (ha : 0 ≤ a) (hab : a ≤ b) (hb : b ≠ 0)
    (hb2 : b < 2147483648) :
    ∃ q, floatDiv a b = some q ∧ 0 ≤ q ∧ q ≤ 1 := by
  obtain ⟨x, y, hx, hy, hx0, hxy, hy1⟩ := roundF32_int ha hab hb2
  have hy1 : 1 ≤ y := hy1 (by omega)
  have hypos : 0 < y := by linarith
  have hq0 : 0 ≤ x / y := div_nonneg hx0 (le_of_lt hypos)
  have hq1 : x / y ≤ 1 := by
    rw [div_le_one hypos]
    exact hxy
  obtain ⟨r, hr, hr0, hr1⟩ := roundF32_mono hq0 hq1 roundF32_one
  refine ⟨r, ?_, hr0, hr1⟩
  unfold floatDiv
  rw [hx, hy]
  simp only
  rw [if_neg (ne_of_gt hypos)]
  exact hr

theorem floatDiv_zero (a : Int) : floatDiv a 0 = none := by
  unfold floatDiv
  have h0 : roundF32 ((0 : Int) : ℚ) = some 0 := by simp [roundF32]
  rw [h0]
  cases roundF32 (a : ℚ) <;> simp

theorem log_eq_of_bounds {q : ℚ} {e : Int} (h1 : (2 : ℚ) ^ e ≤ q) (h2 : q < (2 : ℚ) ^ (e + 1)) :
    Int.log 2 q = e := by
  have hq : 0 < q := lt_of_lt_of_le (by positivity) h1
  apply le_antisymm
  · have := (Int.lt_zpow_iff_log_lt (by norm_num : 1 < 2) hq).1
      (by simpa using h2 : q < ((2 : ℕ) : ℚ) ^ (e + 1))
    omega
  · exact (Int.zpow_le_iff_le_log (by norm_num : 1 < 2) hq).1
      (by simpa using h1 : ((2 : ℕ) : ℚ) ^ e ≤ q)

theorem roundHalfEven_of_near {x : ℚ} {m : Int} (h1 : (m : ℚ) - 1 / 2 < x)
    (h2 : x < (m : ℚ) + 1 / 2) : roundHalfEven x = m := by
  rcases le_or_lt (m : ℚ) x with hge | hlt
  · have hf : ⌊x⌋ = m := by
      rw [Int.floor_eq_iff]
      constructor
      · exact hge
      · linarith
    unfold roundHalfEven
    rw [hf, if_pos (by linarith)]
  · have hf : ⌊x⌋ = m - 1 := by
      rw [Int.floor_eq_iff]
      push_cast
      constructor
      · linarith
      · linarith
    unfold roundHalfEven
    rw [hf, if_neg (by push_cast; linarith), if_pos (by push_cast; linarith)]
    omega

/-- Evaluation of the rounding at a rational whose binary exponent `e` and nearest multiple
`m` of the spacing are known. -/
theorem roundF32_eq {q : ℚ} {e m : Int} (h1 : (2 : ℚ) ^ e ≤ q) (h2 : q < (2 : ℚ) ^ (e + 1))
    (he : -126 ≤ e) (he2 : e ≤ 126) (hm1 : (m : ℚ) - 1 / 2 < q / (2 : ℚ) ^ (e - 23))
    (hm2 : q / (2 : ℚ) ^ (e - 23) < (m : ℚ) + 1 / 2) :
    roundF32 q = some ((m : ℚ) * (2 : ℚ) ^ (e - 23)) := by
  have hq : 0 < q := lt_of_lt_of_le (by positivity) h1
  have hlog : Int.log 2 q = e := log_eq_of_bounds h1 h2
  have hu : ulpF32 q = (2 : ℚ) ^ (e - 23) := by
    unfold ulpF32
    rw [abs_of_pos hq, hlog]
    congr 1
    omega
  have hn : nearestF32 q = (m : ℚ) * (2 : ℚ) ^ (e - 23) := by
    unfold nearestF32
    rw [hu, roundHalfEven_of_near hm1 hm2]
  have hle := nearestF32_le_pow hq
  rw [hlog] at hle
  unfold roundF32
  rw [if_neg (ne_of_gt hq), if_pos, hn]
  rw [abs_of_nonneg (nearestF32_nonneg (le_of_lt hq))]
  calc nearestF32 q ≤ (2 : ℚ) ^ (max e (-126) + 1) := hle
    _ ≤ (2 : ℚ) ^ (127 : Int) := zpow_le_zpow_right₀ (by norm_num) (by omega)
    _ < 340282366920938463463374607431768211456 := by norm_num

/-- The `float` quotient `2.0f / 3`, the value `0x3F2AAAAB`. -/
theorem floatDiv_two_three : floatDiv 2 3 = some (11184811 / 16777216) := by
  have h2 : roundF32 ((2 : Int) : ℚ) = some 2 := by
    have h := @roundF32_eq 2 1 8388608 (by norm_num) (by norm_num)
      (by norm_num) (by norm_num) (by norm_num) (by norm_num)
    rw [show ((2 : Int) : ℚ) = 2 by norm_num, h]
    norm_num
  have h3 : roundF32 ((3 : Int) : ℚ) = some 3 := by
    have h := @roundF32_eq 3 1 12582912 (by norm_num) (by norm_num)
      (by norm_num) (by norm_num) (by norm_num) (by norm_num)
    rw [show ((3 : Int) : ℚ) = 3 by norm_num, h]
    norm_num
  have hq := @roundF32_eq (2 / 3) (-1) 11184811 (by norm_num) (by norm_num)
    (by norm_num) (by norm_num) (by norm_num) (by norm_num)
  unfold floatDiv
  rw [h2, h3]
  simp only
  rw [if_neg (by norm_num), hq]
  norm_num

/-- The exact ratio of two counters with `0 <= a <= b` and `b` not zero lies in `[0, 1]`. -/
theorem ratio_unit {a b : Int} (ha : 0 ≤ a) (hab : a ≤ b) (hb : b ≠ 0) :
    0 ≤ (a : ℚ) / (b : ℚ) ∧ (a : ℚ) / (b : ℚ) ≤ 1 := by
  have hbpos : 0 < b := by omega
  have hbq : (0 : ℚ) < (b : ℚ) := by exact_mod_cast hbpos
  have haq : (0 : ℚ) ≤ (a : ℚ) := by exact_mod_cast ha
  have habq : (a : ℚ) ≤ (b : ℚ) := by exact_mod_cast hab
  refine ⟨div_nonneg haq (le_of_lt hbq), ?_⟩
  rw [div_le_one hbq]
  exact habq

/-- C11. After replaying any trace from the initial state of a valid configuration (the
replay is defined), all eleven counters are non-negative, `l1ReadMisses <= l1Reads`,
`l1WriteMisses <= l1Writes`, hence `l1ReadMisses + l1WriteMisses <= l1Reads + l1Writes`, and
`l2ReadMisses <= l2Reads`. So each miss rate, as the exact ratio of its counters, lies in
`[0, 1]` whenever its divisor is not zero; and so does the `float` value that `printStats`
computes for it (operands converted to `float`, quotient rounded to `float`) whenever the
divisor is a non-zero `int` value. The L2 miss rate computed by `printStats` is exactly 0
when `l2Reads` is 0. -/
theorem miss_rate_bounds (l1Size l1Associativity l2Size l2Associativity blockSize : Int)
    (hv : ValidConfig l1Size l1Associativity l2Size l2Associativity blockSize)
    (trace : List (Nat × Bool)) :
    ∃ h0 h, MemoryHierarchy.new l1Size l1Associativity l2Size l2Associativity blockSize
        = some h0 ∧
      h0.replay trace = some h ∧
      (0 ≤ h.l1Reads ∧ 0 ≤ h.l1Writes ∧ 0 ≤ h.l1ReadMisses ∧ 0 ≤ h.l1WriteMisses ∧
        0 ≤ h.stats.memoryTraffic ∧ 0 ≤ h.stats.l1Writebacks ∧ 0 ≤ h.stats.l2Writes ∧
        0 ≤ h.stats.l2Reads ∧ 0 ≤ h.stats.l2ReadMisses ∧ 0 ≤ h.stats.l2Writebacks ∧
        0 ≤ h.stats.l2WriteMisses) ∧
      h.l1ReadMisses ≤ h.l1Reads ∧ h.l1WriteMisses ≤ h.l1Writes ∧
      h.l1ReadMisses + h.l1WriteMisses ≤ h.l1Reads + h.l1Writes ∧
      h.stats.l2ReadMisses ≤ h.stats.l2Reads ∧
      (h.l1Reads + h.l1Writes ≠ 0 →
        0 ≤ ((h.l1ReadMisses + h.l1WriteMisses : Int) : ℚ) / ((h.l1Reads + h.l1Writes : Int) : ℚ) ∧
        ((h.l1ReadMisses + h.l1WriteMisses : Int) : ℚ) / ((h.l1Reads + h.l1Writes : Int) : ℚ)
          ≤ 1) ∧
      (h.stats.l2Reads ≠ 0 →
        0 ≤ (h.stats.l2ReadMisses : ℚ) / (h.stats.l2Reads : ℚ) ∧
        (h.stats.l2ReadMisses : ℚ) / (h.stats.l2Reads : ℚ) ≤ 1) ∧
      (h.l1Reads + h.l1Writes ≠ 0 → h.l1Reads + h.l1Writes < 2147483648 →
        ∃ q, h.l1MissRate = some q ∧ 0 ≤ q ∧ q ≤ 1) ∧
      (h.stats.l2Reads ≠ 0 → h.stats.l2Reads < 2147483648 →
        ∃ q, h.l2MissRate = some q ∧ 0 ≤ q ∧ q ≤ 1) ∧
      (h.stats.l2Reads = 0 → h.l2MissRate = some 0) := by
  obtain ⟨h0, h, hn, hrep, _, hreach, _, _⟩ := MemoryHierarchy.replay_valid hv trace
  have hc := hreach.counterInv
  have h1 := hc.l1ReadMisses_le
  have h2 := hc.l1WriteMisses_le
  have h3 := hc.l1ReadMisses_nonneg
  have h4 := hc.l1WriteMisses_nonneg
  have h5 := hc.l2Reads_nonneg
  refine ⟨h0, h, hn, hrep, ⟨hc.l1Reads_nonneg, hc.l1Writes_nonneg, hc.l1ReadMisses_nonneg,
    hc.l1WriteMisses_nonneg, hc.memoryTraffic_nonneg, hc.l1Writebacks_nonneg,
    hc.l2Writes_nonneg, hc.l2Reads_nonneg, hc.l2ReadMisses_nonneg, hc.l2Writebacks_nonneg,
    hc.l2WriteMisses_nonneg⟩, hc.l1ReadMisses_le, hc.l1WriteMisses_le, by omega,
    hc.l2ReadMisses_le, ?_, ?_, ?_, ?_, ?_⟩
  · intro hne
    exact ratio_unit (by omega) (by omega) hne
  · intro hne
    exact ratio_unit hc.l2ReadMisses_nonneg hc.l2ReadMisses_le hne
  · intro hne hlt
    unfold MemoryHierarchy.l1MissRate
    exact floatDiv_unit (by omega) (by omega) hne hlt
  · intro hne hlt
    unfold MemoryHierarchy.l2MissRate
    rw [if_pos (by omega)]
    exact floatDiv_unit hc.l2ReadMisses_nonneg hc.l2ReadMisses_le hne hlt
  · intro hz
    unfold MemoryHierarchy.l2MissRate
    rw [if_neg (by omega)]

/-- On the trace `w 0`, `r 10`, `r 0` (hex) with block size 4, L1 size 16 and L2 size 32, both
direct mapped, the counters end with `l2ReadMisses = 2` and `l2Reads = 3`, and the L2 miss rate
that `printStats` computes is the `float` nearest to 2/3, which is `11184811 / 2 ^ 24`. -/
theorem l2MissRate_sample :
    MemoryHierarchy.new 16 1 32 1 4 = some twoLevelFresh ∧
    ∃ h, twoLevelFresh.replay [(0, true), (16, false), (0, false)] = some h ∧
      h.stats.l2ReadMisses = 2 ∧ h.stats.l2Reads = 3 ∧
      h.l2MissRate = some (11184811 / 16777216) := by
  have hc : (twoLevelFresh.replay [(0, true), (16, false), (0, false)]).map
      (fun h => (h.stats.l2ReadMisses, h.stats.l2Reads)) = some (2, 3) := by decide
  cases hr : twoLevelFresh.replay [(0, true), (16, false), (0, false)] with
  | none => rw [hr] at hc; cases hc
  | some h =>
    rw [hr] at hc
    simp only [Option.map_some', Option.some.injEq, Prod.mk.injEq] at hc
    refine ⟨by decide, h, rfl, hc.1, hc.2, ?_⟩
    unfold MemoryHierarchy.l2MissRate
    rw [hc.1, hc.2, if_pos (by norm_num)]
    exact floatDiv_two_three

theorem miss_rate_bounds_witness :
    ValidConfig 16 1 32 1 4 ∧
    ∃ h0 h, MemoryHierarchy.new 16 1 32 1 4 = some h0 ∧
      h0.replay [(0, true), (16, false), (0, false)] = some h ∧
      (0 ≤ h.l1Reads ∧ 0 ≤ h.l1Writes ∧ 0 ≤ h.l1ReadMisses ∧ 0 ≤ h.l1WriteMisses ∧
        0 ≤ h.stats.memoryTraffic ∧ 0 ≤ h.stats.l1Writebacks ∧ 0 ≤ h.stats.l2Writes ∧
        0 ≤ h.stats.l2Reads ∧ 0 ≤ h.stats.l2ReadMisses ∧ 0 ≤ h.stats.l2Writebacks ∧
        0 ≤ h.stats.l2WriteMisses) ∧
      h.l1ReadMisses ≤ h.l1Reads ∧ h.l1WriteMisses ≤ h.l1Writes ∧
      h.l1ReadMisses + h.l1WriteMisses ≤ h.l1Reads + h.l1Writes ∧
      h.stats.l2ReadMisses ≤ h.stats.l2Reads ∧
      (h.l1Reads + h.l1Writes ≠ 0 →
        0 ≤ ((h.l1ReadMisses + h.l1WriteMisses : Int) : ℚ) / ((h.l1Reads + h.l1Writes : Int) : ℚ) ∧
        ((h.l1ReadMisses + h.l1WriteMisses : Int) : ℚ) / ((h.l1Reads + h.l1Writes : Int) : ℚ)
          ≤ 1) ∧
      (h.stats.l2Reads ≠ 0 →
        0 ≤ (h.stats.l2ReadMisses : ℚ) / (h.stats.l2Reads : ℚ) ∧
        (h.stats.l2ReadMisses : ℚ) / (h.stats.l2Reads : ℚ) ≤ 1) ∧
      (h.l1Reads + h.l1Writes ≠ 0 → h.l1Reads + h.l1Writes < 2147483648 →
        ∃ q, h.l1MissRate = some q ∧ 0 ≤ q ∧ q ≤ 1) ∧
      (h.stats.l2Reads ≠ 0 → h.stats.l2Reads < 2147483648 →
        ∃ q, h.l2MissRate = some q ∧ 0 ≤ q ∧ q ≤ 1) ∧
      (h.stats.l2Reads = 0 → h.l2MissRate = some 0) ∧
      h.stats.l2ReadMisses = 2 ∧ h.stats.l2Reads = 3 ∧
      h.l2MissRate = some (11184811 / 16777216) := by
  obtain ⟨h0, h, hn, hr, hrest⟩ :=
    miss_rate_bounds 16 1 32 1 4 (by decide) [(0, true), (16, false), (0, false)]
  obtain ⟨hn1, h1, hr1, hm, hd, hrate⟩ := l2MissRate_sample
  rw [hn1] at hn
  cases hn
  rw [hr1] at hr
  cases hr
  obtain ⟨c1, c2, c3, c4, c5, c6, c7, c8, c9, c10⟩ := hrest
  exact ⟨by decide, twoLevelFresh, _, hn1, hr1, c1, c2, c3, c4, c5, c6, c7, c8, c9, c10,
    hm, hd, hrate⟩

/-- The L1 miss rate of `printStats` is not a number when no access has been counted (line
200 has no guard for a zero divisor), and it is a number for every non-zero `int` divisor. -/
theorem l1MissRate_eq_none_iff (h : MemoryHierarchy)
    (h0 : 0 ≤ h.l1ReadMisses + h.l1WriteMisses)
    (h1 : h.l1ReadMisses + h.l1WriteMisses ≤ h.l1Reads + h.l1Writes)
    (h2 : h.l1Reads + h.l1Writes < 2147483648) :
    h.l1MissRate = none ↔ h.l1Reads + h.l1Writes = 0 := by
  unfold MemoryHierarchy.l1MissRate
  constructor
  · intro hnone
    by_contra hne
    obtain ⟨q, hq, _⟩ := floatDiv_unit h0 h1 hne h2
    rw [hq] at hnone
    cases hnone
  · intro hz
    rw [hz]
    exact floatDiv_zero _

/-- C12, failing input. After the empty trace on the hierarchy built with block size 4, L1
size 16, associativity 1 and L2 size 0, `l1Reads + l1Writes` is 0 and the L1 miss rate
computed by `printStats` is the quotient `0.0f / 0`, which is not a number (so it is not 0);
the L2 miss rate, whose computation is guarded by `l2Reads > 0`, is 0. -/
theorem l1_miss_rate_empty_trace :
    MemoryHierarchy.new 16 1 0 1 4 = some oneLevelFresh ∧
    oneLevelFresh.replay [] = some oneLevelFresh ∧
    oneLevelFresh.l1Reads + oneLevelFresh.l1Writes = 0 ∧
    oneLevelFresh.l1MissRate = none ∧
    oneLevelFresh.l1MissRate ≠ some 0 ∧
    oneLevelFresh.l2MissRate = some 0 := by
  have hnone : oneLevelFresh.l1MissRate = none :=
    (l1MissRate_eq_none_iff oneLevelFresh (by decide) (by decide) (by decide)).2 (by decide)
  refine ⟨by decide, rfl, by decide, hnone, ?_, ?_⟩
  · rw [hnone]
    intro hx
    cases hx
  · unfold MemoryHierarchy.l2MissRate
    rw [if_neg (by decide)]

theorem MemoryHierarchy.WF.replay_requests :
    ∀ (trace : List (Nat × Bool)) (h h1 : MemoryHierarchy), h.WF →
      h.replay trace = some h1 →
      h1.l1Reads = h.l1Reads + (trace.countP (fun x => !x.2) : Nat) ∧
      h1.l1Writes = h.l1Writes + (trace.countP (fun x => x.2) : Nat) := by
  intro trace
  induction trace with
  | nil =>
    intro h h1 _ hrep
    simp only [MemoryHierarchy.replay, Option.some.injEq] at hrep
    rw [hrep]
    simp
  | cons p rest ih =>
    intro h h1 hwf hrep
    obtain ⟨a, w⟩ := p
    unfold MemoryHierarchy.replay at hrep
    cases hacc : h.access a w with
    | none => rw [hacc] at hrep; cases hrep
    | some h2 =>
      rw [hacc] at hrep
      obtain ⟨e1, e2⟩ := ih h2 h1 (hwf.step_hier hacc).1 hrep
      obtain ⟨r, m, e, wm, rm, d, _, _, _, _, _, _, _, _, _, f3, f4, _⟩ :=
        hwf.access_deltas hacc
      rw [e1, e2, f3, f4]
      cases w <;> simp [List.countP_cons] <;> omega

/-- C16. Replaying any trace from the initial state of a valid configuration is defined and
ends with `l1Reads` equal to the number of read records and `l1Writes` equal to the number
of write records of the trace. In the state reached, every further call
`MemoryHierarchy::access(address, isWrite)` is defined, adds exactly 1 to `l1Reads` and
nothing to `l1Writes` when `isWrite` is false, adds exactly 1 to `l1Writes` and nothing to
`l1Reads` when `isWrite` is true, adds 1 to the miss counter of the same kind
(`l1ReadMisses` or `l1WriteMisses`) exactly when the L1 call returned `false`, and leaves
the miss counter of the other kind unchanged. -/
theorem l1_request_counters (l1Size l1Associativity l2Size l2Associativity blockSize : Int)
    (hv : ValidConfig l1Size l1Associativity l2Size l2Associativity blockSize)
    (trace : List (Nat × Bool)) :
    ∃ h0 h, MemoryHierarchy.new l1Size l1Associativity l2Size l2Associativity blockSize
        = some h0 ∧
      h0.replay trace = some h ∧
      h.l1Reads = (trace.countP (fun x => !x.2) : Nat) ∧
      h.l1Writes = (trace.countP (fun x => x.2) : Nat) ∧
      ∀ (a : Nat) (w : Bool),
        ∃ (h1 : MemoryHierarchy) (r : Bool × Cache × Option Cache × Counters),
          h.access a w = some h1 ∧
          h.l1.access h.l2Size a w h.l2 h.stats = some r ∧
          h1.l1Reads = h.l1Reads + (if w then 0 else 1) ∧
          h1.l1Writes = h.l1Writes + (if w then 1 else 0) ∧
          h1.l1ReadMisses = h.l1ReadMisses + (if w then 0 else if r.1 then 0 else 1) ∧
          h1.l1WriteMisses = h.l1WriteMisses + (if w then (if r.1 then 0 else 1) else 0) := by
  obtain ⟨h0, h, hn, hrep, hreach0, hreach, _, _⟩ := MemoryHierarchy.replay_valid hv trace
  obtain ⟨_, _, _, z1, z2, _, _⟩ := MemoryHierarchy.new_hier_wf hv hn
  obtain ⟨e1, e2⟩ := MemoryHierarchy.WF.replay_requests trace h0 h hreach0.hier_wf hrep
  rw [z1, zero_add] at e1
  rw [z2, zero_add] at e2
  refine ⟨h0, h, hn, hrep, e1, e2, ?_⟩
  intro a w
  obtain ⟨h1, hacc⟩ := hreach.hier_wf.hier_access_total a w
  obtain ⟨r, m, e, wm, rm, d, hr, hm, _, _, _, _, _, _, _, f3, f4, f5, f6, _⟩ :=
    hreach.hier_wf.access_deltas hacc
  rw [hm] at f5 f6
  exact ⟨h1, r, hacc, hr, f3, f4, f5, f6⟩

theorem l1_request_counters_witness :
    ValidConfig 16 1 32 1 4 ∧
    ∃ h0 h, MemoryHierarchy.new 16 1 32 1 4 = some h0 ∧
      h0.replay [(0, true), (16, false), (0, false)] = some h ∧
      h.l1Reads = (([(0, true), (16, false), (0, false)] : List (Nat × Bool)).countP
        (fun x => !x.2) : Nat) ∧
      h.l1Writes = (([(0, true), (16, false), (0, false)] : List (Nat × Bool)).countP
        (fun x => x.2) : Nat) ∧
      ∀ (a : Nat) (w : Bool),
        ∃ (h1 : MemoryHierarchy) (r : Bool × Cache × Option Cache × Counters),
          h.access a w = some h1 ∧
          h.l1.access h.l2Size a w h.l2 h.stats = some r ∧
          h1.l1Reads = h.l1Reads + (if w then 0 else 1) ∧
          h1.l1Writes = h.l1Writes + (if w then 1 else 0) ∧
          h1.l1ReadMisses = h.l1ReadMisses + (if w then 0 else if r.1 then 0 else 1) ∧
          h1.l1WriteMisses = h.l1WriteMisses + (if w then (if r.1 then 0 else 1) else 0) :=
  ⟨by decide, l1_request_counters 16 1 32 1 4 (by decide) [(0, true), (16, false), (0, false)]⟩

/-- C20. After replaying any trace from the initial state of a valid configuration (the
replay is defined): when an L2 is present, `l2Reads = l1ReadMisses + l1WriteMisses` and
`l2Writes = l1Writebacks`; when no L2 is present and the configured L2 size is 0, the five L2
counters `l2Reads`, `l2ReadMisses`, `l2Writes`, `l2WriteMisses` and `l2Writebacks` are
all 0. -/
theorem inter_level_coupling (l1Size l1Associativity l2Size l2Associativity blockSize : Int)
    (hv : ValidConfig l1Size l1Associativity l2Size l2Associativity blockSize)
    (trace : List (Nat × Bool)) :
    ∃ h0 h, MemoryHierarchy.new l1Size l1Associativity l2Size l2Associativity blockSize
        = some h0 ∧
      h0.replay trace = some h ∧
      (h.l2 ≠ none →
        h.stats.l2Reads = h.l1ReadMisses + h.l1WriteMisses ∧
        h.stats.l2Writes = h.stats.l1Writebacks) ∧
      (h.l2 = none → l2Size = 0 →
        h.stats.l2Reads = 0 ∧ h.stats.l2ReadMisses = 0 ∧ h.stats.l2Writes = 0 ∧
        h.stats.l2WriteMisses = 0 ∧ h.stats.l2Writebacks = 0) := by
  obtain ⟨h0, h, hn, hrep, _, hreach, hsize, hl2⟩ := MemoryHierarchy.replay_valid hv trace
  have hc := hreach.counterInv
  refine ⟨h0, h, hn, hrep, ?_, ?_⟩
  · intro hsome
    have hpos : 0 < h.l2Size := by
      rw [hsize]
      by_contra hneg
      exact hsome (hl2.2 hneg)
    exact ⟨hc.l2Reads_eq hpos, hc.l2Writes_eq hpos⟩
  · intro _ hz
    have hz' : h.l2Size = 0 := by rw [hsize]; exact hz
    obtain ⟨a1, a2, a3, a4⟩ := hc.absent (by omega)
    exact ⟨a1, a2, a3, a4, hc.absent_zero hz'⟩

theorem inter_level_coupling_witness :
    ValidConfig 16 1 32 1 4 ∧
    ∃ h0 h, MemoryHierarchy.new 16 1 32 1 4 = some h0 ∧
      h0.replay [(0, true), (16, false), (0, false)] = some h ∧
      (h.l2 ≠ none →
        h.stats.l2Reads = h.l1ReadMisses + h.l1WriteMisses ∧
        h.stats.l2Writes = h.stats.l1Writebacks) ∧
      (h.l2 = none → (32 : Int) = 0 →
        h.stats.l2Reads = 0 ∧ h.stats.l2ReadMisses = 0 ∧ h.stats.l2Writes = 0 ∧
        h.stats.l2WriteMisses = 0 ∧ h.stats.l2Writebacks = 0) :=
  ⟨by decide, inter_level_coupling 16 1 32 1 4 (by decide) [(0, true), (16, false), (0, false)]⟩

/-! ### Direct-mapped single-level scenarios -/

/-- A miss in L1 without an L2, with the full state afterwards. -/
theorem MemoryHierarchy.WF.access_miss_last {h : MemoryHierarchy} (hwf : h.WF)
    (hl2 : h.l2 = none) (a : Nat) (w : Bool) {set : CacheSet} {v : Nat} {vb : CacheBlock}
    (hset : h.l1.sets[h.l1.setIndexOf a]? = some set)
    (hmiss : ∀ (i : Nat) (b : CacheBlock), set.blocks[i]? = some b →
      ¬ (b.valid = true ∧ b.tag = h.l1.tagOf a))
    (hv : set.lruOrder.getLast? = some v) (hvb : set.blocks[v]? = some vb) :
    h.access a w = some (h.afterL1 w (false,
      { h.l1 with
        sets := h.l1.sets.set (h.l1.setIndexOf a) (fillSet set v w (h.l1.tagOf a)) },
      none, lastLevelCounters h.l2Size vb h.stats)) := by
  have hl1 := hwf.l1_wf
  have hinv := hl1.sets_inv set (List.getElem?_mem hset)
  have hfind := hinv.findHit_of_miss hmiss
  have hacc : h.l1.accessLast h.l2Size a w h.stats = some (false,
      { h.l1 with
        sets := h.l1.sets.set (h.l1.setIndexOf a) (fillSet set v w (h.l1.tagOf a)) },
      lastLevelCounters h.l2Size vb h.stats) :=
    accessLast_miss_intro hl1.blockSize_ne hl1.numSets_ne hset hfind hv hvb
  rw [MemoryHierarchy.access_eq, hl2, access_none_eq, hacc]
  rfl

/-- One miss in a direct-mapped L1 without an L2: the single line of the target set is
replaced, and the counters move by the last-level rule. -/
theorem MemoryHierarchy.WF.direct_miss {h : MemoryHierarchy} (hwf : h.WF)
    (hl2 : h.l2 = none) (a : Nat) (w : Bool) {blk : CacheBlock}
    (hset : h.l1.sets[h.l1.setIndexOf a]? = some ⟨[blk], [0]⟩)
    (hm : ¬ (blk.valid = true ∧ blk.tag = h.l1.tagOf a)) :
    ∃ h1, h.access a w = some h1 ∧ h1.WF ∧ h1.l2 = none ∧ h1.l2Size = h.l2Size ∧
      (∀ x, h1.l1.setIndexOf x = h.l1.setIndexOf x) ∧
      (∀ x, h1.l1.tagOf x = h.l1.tagOf x) ∧
      h1.l1.sets[h.l1.setIndexOf a]? = some ⟨[⟨true, w, h.l1.tagOf a⟩], [0]⟩ ∧
      h1.stats = lastLevelCounters h.l2Size blk h.stats ∧
      h1.l1Reads = h.l1Reads + (if w then 0 else 1) ∧
      h1.l1Writes = h.l1Writes + (if w then 1 else 0) ∧
      h1.l1ReadMisses = h.l1ReadMisses + (if w then 0 else 1) ∧
      h1.l1WriteMisses = h.l1WriteMisses + (if w then 1 else 0) := by
  have hmiss : ∀ (i : Nat) (b : CacheBlock),
      (⟨[blk], [0]⟩ : CacheSet).blocks[i]? = some b →
      ¬ (b.valid = true ∧ b.tag = h.l1.tagOf a) := by
    intro i b hb
    cases i with
    | zero =>
      simp only [List.getElem?_cons_zero, Option.some.injEq] at hb
      rw [← hb]; exact hm
    | succ j => simp at hb
  have hacc := hwf.access_miss_last hl2 a w hset hmiss
    (show (⟨[blk], [0]⟩ : CacheSet).lruOrder.getLast? = some 0 from rfl)
    (show (⟨[blk], [0]⟩ : CacheSet).blocks[0]? = some blk from rfl)
  have hsi := hwf.l1_wf.setIndexOf_lt a
  obtain ⟨_, _, f3, f4, f5, f6⟩ := h.afterL1_fields w (false,
      { h.l1 with
        sets := h.l1.sets.set (h.l1.setIndexOf a)
          (fillSet ⟨[blk], [0]⟩ 0 w (h.l1.tagOf a)) },
      none, lastLevelCounters h.l2Size blk h.stats)
  refine ⟨_, hacc, (hwf.step_hier hacc).1, rfl, rfl, fun _ => rfl, fun _ => rfl, ?_, rfl,
    f3, f4, ?_, ?_⟩
  · simp only [MemoryHierarchy.afterL1]
    rw [List.getElem?_set_self hsi]
    rfl
  · rw [f5]; cases w <;> rfl
  · rw [f6]; cases w <;> rfl

/-- The initial state of a direct-mapped hierarchy without an L2. -/
theorem MemoryHierarchy.new_direct {l1Size l2Size l2Associativity blockSize : Int}
    {h0 : MemoryHierarchy}
    (hv : ValidConfig l1Size 1 l2Size l2Associativity blockSize) (hno : ¬ 0 < l2Size)
    (hn : MemoryHierarchy.new l1Size 1 l2Size l2Associativity blockSize = some h0) :
    h0.WF ∧ h0.l2 = none ∧ h0.l2Size = l2Size ∧ h0.stats = Counters.zero ∧
    h0.l1Reads = 0 ∧ h0.l1Writes = 0 ∧ h0.l1ReadMisses = 0 ∧ h0.l1WriteMisses = 0 ∧
    ∀ a, h0.l1.sets[h0.l1.setIndexOf a]? = some ⟨[CacheBlock.empty], [0]⟩ := by
  obtain ⟨hwf, h2, h3, h4, h5, h6, h7⟩ := MemoryHierarchy.new_hier_wf hv hn
  have hnone : h0.l2 = none := hwf.l2_none (by rw [h2]; exact hno)
  refine ⟨hwf, hnone, h2, h3, h4, h5, h6, h7, ?_⟩
  intro a
  have hlt := hwf.l1_wf.setIndexOf_lt a
  unfold MemoryHierarchy.new at hn
  rw [Cache.new_valid hv.1] at hn
  simp only [if_neg hno, Option.some.injEq] at hn
  rw [← hn] at hlt ⊢
  simp only [List.length_replicate] at hlt
  simp only [List.getElem?_replicate, hlt, if_true]
  rfl

/-- Three accesses `a`, `b`, `a` on a fresh direct-mapped hierarchy without an L2, where `a`
and `b` share a set and differ in tag: all three miss. -/
theorem MemoryHierarchy.direct_three_misses {h0 : MemoryHierarchy} (hwf : h0.WF)
    (hl2 : h0.l2 = none) (hstats : h0.stats = Counters.zero)
    (hr : h0.l1Reads = 0) (hw : h0.l1Writes = 0) (hrm : h0.l1ReadMisses = 0)
    (hwm : h0.l1WriteMisses = 0)
    (hsets : ∀ a, h0.l1.sets[h0.l1.setIndexOf a]? = some ⟨[CacheBlock.empty], [0]⟩)
    (a b : Nat) (w : Bool) (hsame : h0.l1.setIndexOf a = h0.l1.setIndexOf b)
    (hdiff : h0.l1.tagOf a ≠ h0.l1.tagOf b) :
    ∃ h, h0.replay [(a, w), (b, false), (a, false)] = some h ∧
      h.l1Reads = 2 + (if w then 0 else 1) ∧ h.l1Writes = (if w then 1 else 0) ∧
      h.l1ReadMisses = 2 + (if w then 0 else 1) ∧ h.l1WriteMisses = (if w then 1 else 0) ∧
      h.stats = lastLevelCounters h0.l2Size ⟨true, false, h0.l1.tagOf b⟩
        (lastLevelCounters h0.l2Size ⟨true, w, h0.l1.tagOf a⟩
          (lastLevelCounters h0.l2Size CacheBlock.empty Counters.zero)) := by
  obtain ⟨h1, acc1, wf1, l21, sz1, si1, tg1, set1, st1, r1, w1, rm1, wm1⟩ :=
    hwf.direct_miss hl2 a w (hsets a) (by
      rintro ⟨hv, _⟩
      cases hv)
  have hset1b : h1.l1.sets[h1.l1.setIndexOf b]? = some ⟨[⟨true, w, h0.l1.tagOf a⟩], [0]⟩ := by
    rw [si1 b, ← hsame]; exact set1
  obtain ⟨h2, acc2, wf2, l22, sz2, si2, tg2, set2, st2, r2, w2, rm2, wm2⟩ :=
    wf1.direct_miss l21 b false hset1b (by
      rintro ⟨_, ht⟩
      simp only at ht
      rw [tg1 b] at ht
      exact hdiff ht)
  have hset2a : h2.l1.sets[h2.l1.setIndexOf a]? = some ⟨[⟨true, false, h1.l1.tagOf b⟩], [0]⟩ := by
    rw [si2 a, si1 a, hsame, ← si1 b]; exact set2
  obtain ⟨h3, acc3, _, _, _, _, _, _, st3, r3, w3, rm3, wm3⟩ :=
    wf2.direct_miss l22 a false hset2a (by
      rintro ⟨_, ht⟩
      simp only at ht
      rw [tg2 a, tg1 a, tg1 b] at ht
      exact hdiff ht.symm)
  refine ⟨h3, ?_, ?_, ?_, ?_, ?_, ?_⟩
  · simp only [MemoryHierarchy.replay, acc1, acc2, acc3]
  · rw [r3, r2, r1, hr]; cases w <;> simp
  · rw [w3, w2, w1, hw]; cases w <;> simp
  · rw [rm3, rm2, rm1, hrm]; cases w <;> simp
  · rw [wm3, wm2, wm1, hwm]; cases w <;> simp
  · rw [st3, st2, st1, sz2, sz1, tg1 b, hstats]

/-- C13. For every valid single-level configuration (configured L2 size not positive) with
associativity 1, the constructor succeeds, and for every two addresses `a` and `b` with the
same set index `(address / blockSize) mod numSets` and different tags
`(address / blockSize) / numSets`, replaying read `a`, read `b`, read `a` from the initial
state is defined and ends with L1 reads = 3, L1 read misses = 3, L1 write-backs = 0 and
memory traffic = 3. -/
theorem conflict_miss_scenario (l1Size l2Size l2Associativity blockSize : Int)
    (hv : ValidConfig l1Size 1 l2Size l2Associativity blockSize) (hno : ¬ 0 < l2Size) :
    ∃ h0, MemoryHierarchy.new l1Size 1 l2Size l2Associativity blockSize = some h0 ∧
      ∀ (a b : Nat),
        (a / h0.l1.blockSize.toNat) % h0.l1.numSets.toNat
          = (b / h0.l1.blockSize.toNat) % h0.l1.numSets.toNat →
        (a / h0.l1.blockSize.toNat) / h0.l1.numSets.toNat
          ≠ (b / h0.l1.blockSize.toNat) / h0.l1.numSets.toNat →
        ∃ h, h0.replay [(a, false), (b, false), (a, false)] = some h ∧
          h.l1Reads = 3 ∧ h.l1ReadMisses = 3 ∧ h.stats.l1Writebacks = 0 ∧
          h.stats.memoryTraffic = 3 := by
  obtain ⟨h0, hn⟩ := MemoryHierarchy.new_total hv
  obtain ⟨hwf, hl2, _, hstats, hr, hw, hrm, hwm, hsets⟩ :=
    MemoryHierarchy.new_direct hv hno hn
  refine ⟨h0, hn, ?_⟩
  intro a b hsame hdiff
  rw [← hwf.l1_wf.setIndexOf_eq, ← hwf.l1_wf.setIndexOf_eq] at hsame
  rw [← hwf.l1_wf.tagOf_eq, ← hwf.l1_wf.tagOf_eq] at hdiff
  obtain ⟨h, hrep, e1, _, e3, _, e5⟩ :=
    MemoryHierarchy.direct_three_misses hwf hl2 hstats hr hw hrm hwm hsets a b false hsame hdiff
  refine ⟨h, hrep, ?_, ?_, ?_, ?_⟩
  · rw [e1]; rfl
  · rw [e3]; rfl
  · rw [e5]; rfl
  · rw [e5]; rfl

theorem conflict_miss_scenario_witness :
    ValidConfig 16 1 0 1 4 ∧ ¬ (0 : Int) < 0 ∧
    ∃ h, oneLevelFresh.replay [(0, false), (16, false), (0, false)] = some h ∧
      h.l1Reads = 3 ∧ h.l1ReadMisses = 3 ∧ h.stats.l1Writebacks = 0 ∧
      h.stats.memoryTraffic = 3 := by
  refine ⟨by decide, by decide, ?_⟩
  obtain ⟨h0, hn, hall⟩ := conflict_miss_scenario 16 0 1 4 (by decide) (by decide)
  have h0eq : h0 = oneLevelFresh := by
    have hfresh : MemoryHierarchy.new 16 1 0 1 4 = some oneLevelFresh := by decide
    rw [hfresh] at hn
    exact (Option.some.inj hn).symm
  subst h0eq
  exact hall 0 16 (by decide) (by decide)

/-- C14, counterexample. With block size 4, L1 size 16, associativity 1 and L2 size 0,
replaying write 0x0, read 0x10, read 0x0 from the initial state ends with L1 write-backs = 1
and memory traffic = 4 (three fills and one write-back), not 3. -/
theorem write_then_evict_not_three :
    MemoryHierarchy.new 16 1 0 1 4 = some oneLevelFresh ∧
    oneLevelFresh.replay [(0, true), (16, false), (0, false)] = some oneLevelEvicted ∧
    oneLevelEvicted.stats.l1Writebacks = 1 ∧
    oneLevelEvicted.stats.memoryTraffic = 4 ∧
    ¬ (oneLevelEvicted.stats.l1Writebacks = 1 ∧ oneLevelEvicted.stats.memoryTraffic = 3) := by
  decide

/-- C14, amended. For every valid direct-mapped configuration with configured L2 size 0 (in
particular block size 4, L1 size 16), the constructor succeeds, and for every two addresses
`a` and `b` with the same set index and different tags (in particular 0x0 and 0x10),
replaying write `a`, read `b`, read `a` from the initial state is defined and ends with L1
write-backs = 1 and memory traffic = 4: one fill per miss and one write-back of the dirty
block `a`. -/
theorem write_then_evict_scenario (l1Size l2Associativity blockSize : Int)
    (hv : ValidConfig l1Size 1 0 l2Associativity blockSize) :
    ∃ h0, MemoryHierarchy.new l1Size 1 0 l2Associativity blockSize = some h0 ∧
      ∀ (a b : Nat),
        (a / h0.l1.blockSize.toNat) % h0.l1.numSets.toNat
          = (b / h0.l1.blockSize.toNat) % h0.l1.numSets.toNat →
        (a / h0.l1.blockSize.toNat) / h0.l1.numSets.toNat
          ≠ (b / h0.l1.blockSize.toNat) / h0.l1.numSets.toNat →
        ∃ h, h0.replay [(a, true), (b, false), (a, false)] = some h ∧
          h.stats.l1Writebacks = 1 ∧ h.stats.memoryTraffic = 4 := by
  obtain ⟨h0, hn⟩ := MemoryHierarchy.new_total hv
  obtain ⟨hwf, hl2, hsz, hstats, hr, hw, hrm, hwm, hsets⟩ :=
    MemoryHierarchy.new_direct hv (by decide) hn
  refine ⟨h0, hn, ?_⟩
  intro a b hsame hdiff
  rw [← hwf.l1_wf.setIndexOf_eq, ← hwf.l1_wf.setIndexOf_eq] at hsame
  rw [← hwf.l1_wf.tagOf_eq, ← hwf.l1_wf.tagOf_eq] at hdiff
  obtain ⟨h, hrep, _, _, _, _, e5⟩ :=
    MemoryHierarchy.direct_three_misses hwf hl2 hstats hr hw hrm hwm hsets a b true hsame hdiff
  rw [hsz] at e5
  refine ⟨h, hrep, ?_, ?_⟩
  · rw [e5]; rfl
  · rw [e5]; rfl

theorem write_then_evict_scenario_witness :
    ValidConfig 16 1 0 1 4 ∧
    ∃ h, oneLevelFresh.replay [(0, true), (16, false), (0, false)] = some h ∧
      h.stats.l1Writebacks = 1 ∧ h.stats.memoryTraffic = 4 := by
  refine ⟨by decide, ?_⟩
  obtain ⟨h0, hn, hall⟩ := write_then_evict_scenario 16 1 4 (by decide)
  have h0eq : h0 = oneLevelFresh := by
    have hfresh : MemoryHierarchy.new 16 1 0 1 4 = some oneLevelFresh := by decide
    rw [hfresh] at hn
    exact (Option.some.inj hn).symm
  subst h0eq
  exact hall 0 16 (by decide) (by decide)

/-! ### Duplicate-free sets -/

/-- C18. In every cache state reachable from the constructor by `Cache::access` calls, no set
has two distinct valid lines with the same tag; so whenever `Cache::access` returns `true`,
exactly one line of the target set is valid with the requested tag. -/
theorem no_duplicate_residents (c : Cache) (hc : c.Reachable) :
    (∀ set ∈ c.sets, ∀ (i j : Nat) (bi bj : CacheBlock),
      set.blocks[i]? = some bi → set.blocks[j]? = some bj →
      bi.valid = true → bj.valid = true → bi.tag = bj.tag → i = j) ∧
    (∀ (l2Size : Int) (a : Nat) (w : Bool) (next : Option Cache) (k : Counters) (c1 : Cache)
        (next1 : Option Cache) (k1 : Counters),
      c.access l2Size a w next k = some (true, c1, next1, k1) →
      ∃ (set : CacheSet) (i : Nat) (b : CacheBlock),
        c.sets[(a / c.blockSize.toNat) % c.numSets.toNat]? = some set ∧
        set.blocks[i]? = some b ∧ b.valid = true ∧
        b.tag = (a / c.blockSize.toNat) / c.numSets.toNat ∧
        ∀ (j : Nat) (bj : CacheBlock), set.blocks[j]? = some bj → bj.valid = true →
          bj.tag = (a / c.blockSize.toNat) / c.numSets.toNat → j = i) := by
  have hwf := hc.wf
  constructor
  · intro set hset
    exact (hwf.sets_inv set hset).uniqueTags
  · intro l2Size a w next k c1 next1 k1 hacc
    obtain ⟨_, _, set, i, b, h1, h2, h3, h4, h5, _⟩ :=
      hwf.access_hit l2Size a w next k c1 next1 k1 hacc
    exact ⟨set, i, b, h1, h2, h3, h4, h5⟩

theorem no_duplicate_residents_witness :
    sampleCache.Reachable ∧
    ((∀ set ∈ sampleCache.sets, ∀ (i j : Nat) (bi bj : CacheBlock),
      set.blocks[i]? = some bi → set.blocks[j]? = some bj →
      bi.valid = true → bj.valid = true → bi.tag = bj.tag → i = j) ∧
    (∀ (l2Size : Int) (a : Nat) (w : Bool) (next : Option Cache) (k : Counters) (c1 : Cache)
        (next1 : Option Cache) (k1 : Counters),
      sampleCache.access l2Size a w next k = some (true, c1, next1, k1) →
      ∃ (set : CacheSet) (i : Nat) (b : CacheBlock),
        sampleCache.sets[(a / sampleCache.blockSize.toNat) % sampleCache.numSets.toNat]?
          = some set ∧
        set.blocks[i]? = some b ∧ b.valid = true ∧
        b.tag = (a / sampleCache.blockSize.toNat) / sampleCache.numSets.toNat ∧
        ∀ (j : Nat) (bj : CacheBlock), set.blocks[j]? = some bj → bj.valid = true →
          bj.tag = (a / sampleCache.blockSize.toNat) / sampleCache.numSets.toNat → j = i)) :=
  ⟨sampleCache_reachable, no_duplicate_residents sampleCache sampleCache_reachable⟩

/-! ### The victim address -/

/-- The arithmetic of lines 61-63 and 79 for a block size `B >= 1`, a set count `N` and a
32-bit address `A`. -/
theorem address_round_trip (A B N : Nat) (hB : 1 ≤ B) (hA : A < 4294967296) :
    (A / B) / N * N + (A / B) % N = A / B ∧
    ((A / B) / N * N + (A / B) % N) * B < 4294967296 ∧
    ((A / B) / N * N + (A / B) % N) * B = A - A % B ∧
    ((A / B) / N * N + (A / B) % N) * B / B = A / B := by
  have h1 : (A / B) / N * N + (A / B) % N = A / B := Nat.div_add_mod' (A / B) N
  have h2 : A / B * B ≤ A := Nat.div_mul_le_self A B
  have h3 : A / B * B + A % B = A := Nat.div_add_mod' A B
  refine ⟨h1, ?_, ?_, ?_⟩
  · rw [h1]; omega
  · rw [h1]; omega
  · rw [h1]
    exact Nat.mul_div_cancel _ (by omega)

/-- Decomposition, reconstruction and renewed decomposition of a 32-bit address by the
expressions of `Cache::access`, for a cache whose block size and set count are positive
`int` values. -/
theorem Cache.victimAddress_round_trip (c : Cache) (hb1 : 1 ≤ c.blockSize)
    (hb2 : c.blockSize < 2147483648) (hn1 : 1 ≤ c.numSets) (hn2 : c.numSets < 2147483648)
    (A : Nat) (hA : A < 4294967296) (vb : CacheBlock) (hvb : vb.tag = c.tagOf A) :
    c.setIndexOf A = (A / c.blockSize.toNat) % c.numSets.toNat ∧
    c.tagOf A = (A / c.blockSize.toNat) / c.numSets.toNat ∧
    vb.tag * c.numSets.toNat + c.setIndexOf A = A / c.blockSize.toNat ∧
    (vb.tag * c.numSets.toNat + c.setIndexOf A) * c.blockSize.toNat < 4294967296 ∧
    c.victimAddress vb (c.setIndexOf A)
      = (vb.tag * c.numSets.toNat + c.setIndexOf A) * c.blockSize.toNat ∧
    c.victimAddress vb (c.setIndexOf A) = A - A % c.blockSize.toNat ∧
    c.victimAddress vb (c.setIndexOf A) / c.blockSize.toNat
      = vb.tag * c.numSets.toNat + c.setIndexOf A ∧
    c.setIndexOf (c.victimAddress vb (c.setIndexOf A)) = c.setIndexOf A ∧
    c.tagOf (c.victimAddress vb (c.setIndexOf A)) = vb.tag := by
  have hB : toU32 c.blockSize = c.blockSize.toNat := toU32_of_range (by omega) (by omega)
  have hN : toU32 c.numSets = c.numSets.toNat := toU32_of_range (by omega) (by omega)
  have hBpos : 1 ≤ c.blockSize.toNat := by omega
  obtain ⟨e1, e2, e3, e4⟩ := address_round_trip A c.blockSize.toNat c.numSets.toNat hBpos hA
  have hsi : c.setIndexOf A = (A / c.blockSize.toNat) % c.numSets.toNat := by
    unfold Cache.setIndexOf; rw [hB, hN]
  have htg : c.tagOf A = (A / c.blockSize.toNat) / c.numSets.toNat := by
    unfold Cache.tagOf; rw [hB, hN]
  have hva : c.victimAddress vb (c.setIndexOf A)
      = (vb.tag * c.numSets.toNat + c.setIndexOf A) * c.blockSize.toNat := by
    unfold Cache.victimAddress
    rw [hB, hN, hvb, htg, hsi]
    exact Nat.mod_eq_of_lt e2
  rw [hva, hvb, htg, hsi]
  refine ⟨rfl, rfl, e1, e2, rfl, e3, ?_, ?_, ?_⟩
  · rw [e4, e1]
  · unfold Cache.setIndexOf
    rw [hB, hN, e4]
  · unfold Cache.tagOf
    rw [hB, hN, e4]

/-- Where a valid line after an access comes from: it was valid with the same tag before,
or it is the line just filled with the tag of the accessed address. -/
theorem access_line_origin {l2Size : Int} {c : Cache} {a : Nat} {w : Bool}
    {next : Option Cache} {k : Counters} {r : Bool × Cache × Option Cache × Counters}
    (hr : c.access l2Size a w next k = some r) (s : Nat) (set1 : CacheSet) (i : Nat)
    (b : CacheBlock) (hs : r.2.1.sets[s]? = some set1) (hb : set1.blocks[i]? = some b)
    (hv : b.valid = true) :
    (∃ (set : CacheSet) (b0 : CacheBlock), c.sets[s]? = some set ∧
      set.blocks[i]? = some b0 ∧ b0.valid = true ∧ b0.tag = b.tag) ∨
    (s = c.setIndexOf a ∧ b.tag = c.tagOf a) := by
  obtain ⟨k', hk'⟩ := access_shadow hr
  obtain ⟨_, _, set, hset, hcase⟩ := accessLast_cases hk'
  have hsets : ∃ newset, r.2.1.sets = c.sets.set (c.setIndexOf a) newset ∧
      ((∃ i0, newset = hitSet set i0 w) ∨
       (∃ v, newset = fillSet set v w (c.tagOf a))) := by
    rcases hcase with ⟨i0, _, hreq⟩ | ⟨_, v, vb, _, _, hreq⟩
    · simp only [Prod.mk.injEq] at hreq
      exact ⟨_, by rw [hreq.2.1], Or.inl ⟨i0, rfl⟩⟩
    · simp only [Prod.mk.injEq] at hreq
      exact ⟨_, by rw [hreq.2.1], Or.inr ⟨v, rfl⟩⟩
  obtain ⟨newset, hnew, hkind⟩ := hsets
  rw [hnew] at hs
  by_cases hsi : s = c.setIndexOf a
  · subst hsi
    have hlt : c.setIndexOf a < c.sets.length := (List.getElem?_eq_some_iff.1 hset).1
    rw [List.getElem?_set_self hlt] at hs
    cases hs
    rcases hkind with ⟨i0, rfl⟩ | ⟨v, rfl⟩
    · left
      rw [hitSet_getElem?] at hb
      by_cases hi : i0 = i
      · simp only [hi, if_true] at hb
        cases h0 : set.blocks[i]? with
        | none => rw [h0] at hb; cases hb
        | some b0 =>
          rw [h0] at hb
          simp only [Option.map_some', Option.some.injEq] at hb
          refine ⟨set, b0, hset, h0, ?_, ?_⟩
          · rw [← hb] at hv; exact hv
          · rw [← hb]
      · simp only [hi, if_false] at hb
        exact ⟨set, b, hset, hb, hv, rfl⟩
    · by_cases hi : v = i
      · right
        subst hi
        have hvlen : v < set.blocks.length := by
          have := (List.getElem?_eq_some_iff.1 hb).1
          rw [fillSet_blocks, List.length_set] at this
          exact this
        rw [fillSet_getElem?_self set v w _ hvlen] at hb
        cases hb
        exact ⟨rfl, rfl⟩
      · left
        rw [fillSet_getElem?_ne set v w _ hi] at hb
        exact ⟨set, b, hset, hb, hv, rfl⟩
  · left
    rw [List.getElem?_set_ne (Ne.symm hsi)] at hs
    exact ⟨set1, b, hs, hb, hv, rfl⟩

theorem LinesFrom32.step_lines {c : Cache} (hl : LinesFrom32 c) {l2Size : Int} {a : Nat}
    (ha : a < 4294967296) {w : Bool} {next : Option Cache} {k : Counters}
    {r : Bool × Cache × Option Cache × Counters}
    (hr : c.access l2Size a w next k = some r) : LinesFrom32 r.2.1 := by
  obtain ⟨_, _, hpb, hpn, _⟩ := access_params hr
  have hsi : ∀ x, r.2.1.setIndexOf x = c.setIndexOf x := by
    intro x; unfold Cache.setIndexOf; rw [hpb, hpn]
  have htg : ∀ x, r.2.1.tagOf x = c.tagOf x := by
    intro x; unfold Cache.tagOf; rw [hpb, hpn]
  intro s set1 i b hs hb hv
  rcases access_line_origin hr s set1 i b hs hb hv with ⟨set, b0, h1, h2, h3, h4⟩ | ⟨h1, h2⟩
  · obtain ⟨A, hA, e1, e2⟩ := hl s set i b0 h1 h2 h3
    exact ⟨A, hA, by rw [hsi, e1], by rw [htg, e2, h4]⟩
  · exact ⟨a, ha, by rw [hsi, h1], by rw [htg, h2]⟩

theorem LinesFrom32.run_lines :
    ∀ (calls : List Call) (c c1 : Cache), LinesFrom32 c →
      (∀ x ∈ calls, x.address < 4294967296) → c.run calls = some c1 → LinesFrom32 c1 := by
  intro calls
  induction calls with
  | nil =>
    intro c c1 hl _ hrun
    simp only [Cache.run, Option.some.injEq] at hrun
    rw [← hrun]; exact hl
  | cons x rest ih =>
    intro c c1 hl h32 hrun
    unfold Cache.run at hrun
    cases hr : c.access x.l2Size x.address x.isWrite x.nextLevel x.counters with
    | none => rw [hr] at hrun; cases hrun
    | some r =>
      rw [hr] at hrun
      exact ih r.2.1 c1 (hl.step_lines (h32 x (List.mem_cons_self _ _)) hr)
        (fun y hy => h32 y (List.mem_cons_of_mem _ hy)) hrun

theorem Cache.new_linesFrom32 {size associativity blockSize : Int} {c : Cache}
    (h : ValidLevel size associativity blockSize)
    (hc : Cache.new size associativity blockSize = some c) : LinesFrom32 c := by
  rw [Cache.new_valid h] at hc
  simp only [Option.some.injEq] at hc
  subst hc
  intro s set i b hs hb hv
  have hmem := List.getElem?_mem hs
  rw [List.eq_of_mem_replicate hmem] at hb
  have hmem2 := List.getElem?_mem hb
  rw [List.eq_of_mem_replicate hmem2] at hv
  cases hv

/-- C15. For every cache whose block size and set count are positive `int` values and every
32-bit address `A`, with `setIndex = (A / blockSize) mod numSets` and
`tag = (A / blockSize) / numSets` as computed on lines 61-63: `tag * numSets + setIndex` is
the block address `A / blockSize`; the victim address `(tag * numSets + setIndex) * blockSize`
of line 79 stays below `2 ^ 32`, so its 32-bit computation does not wrap; it equals `A`
rounded down to a multiple of `blockSize`; and it decomposes again to the same block address,
set index and tag. Hence, after any sequence of calls with 32-bit addresses on a cache built
from a valid configuration, for every valid line (tag `t` in set `s`) the victim address is
`(t * numSets + s) * blockSize` without wrap-around, and a cache with the same block size
computes from it (line 61) exactly the block address `t * numSets + s` that the line
represents. -/
theorem victim_address_round_trip (size associativity blockSize : Int)
    (hv : ValidLevel size associativity blockSize) (c0 : Cache)
    (hnew : Cache.new size associativity blockSize = some c0) (calls : List Call)
    (h32 : ∀ x ∈ calls, x.address < 4294967296) (c : Cache)
    (hrun : c0.run calls = some c) :
    (∀ (c1 : Cache) (A : Nat) (vb : CacheBlock), 1 ≤ c1.blockSize →
      c1.blockSize < 2147483648 → 1 ≤ c1.numSets → c1.numSets < 2147483648 →
      A < 4294967296 → vb.tag = c1.tagOf A →
      c1.setIndexOf A = (A / c1.blockSize.toNat) % c1.numSets.toNat ∧
      c1.tagOf A = (A / c1.blockSize.toNat) / c1.numSets.toNat ∧
      vb.tag * c1.numSets.toNat + c1.setIndexOf A = A / c1.blockSize.toNat ∧
      (vb.tag * c1.numSets.toNat + c1.setIndexOf A) * c1.blockSize.toNat < 4294967296 ∧
      c1.victimAddress vb (c1.setIndexOf A)
        = (vb.tag * c1.numSets.toNat + c1.setIndexOf A) * c1.blockSize.toNat ∧
      c1.victimAddress vb (c1.setIndexOf A) = A - A % c1.blockSize.toNat ∧
      c1.victimAddress vb (c1.setIndexOf A) / c1.blockSize.toNat
        = vb.tag * c1.numSets.toNat + c1.setIndexOf A ∧
      c1.setIndexOf (c1.victimAddress vb (c1.setIndexOf A)) = c1.setIndexOf A ∧
      c1.tagOf (c1.victimAddress vb (c1.setIndexOf A)) = vb.tag) ∧
    (∀ (s : Nat) (set : CacheSet) (i : Nat) (vb : CacheBlock), c.sets[s]? = some set →
      set.blocks[i]? = some vb → vb.valid = true →
      (vb.tag * c.numSets.toNat + s) * c.blockSize.toNat < 4294967296 ∧
      c.victimAddress vb s = (vb.tag * c.numSets.toNat + s) * c.blockSize.toNat ∧
      ∀ (n : Cache), n.blockSize = c.blockSize →
        c.victimAddress vb s / toU32 n.blockSize = vb.tag * c.numSets.toNat + s) := by
  constructor
  · intro c1 A vb hb1 hb2 hn1 hn2 hA hvb
    exact c1.victimAddress_round_trip hb1 hb2 hn1 hn2 A hA vb hvb
  · intro s set i vb hs hb hvalid
    have hwf0 := Cache.new_wf hv hnew
    have hcalls : ∀ (cs : List Call) (x y : Cache), x.WF → x.run cs = some y → y.WF := by
      intro cs
      induction cs with
      | nil =>
        intro x y hx hxy
        simp only [Cache.run, Option.some.injEq] at hxy
        rw [← hxy]; exact hx
      | cons p rest ih =>
        intro x y hx hxy
        unfold Cache.run at hxy
        cases hr : x.access p.l2Size p.address p.isWrite p.nextLevel p.counters with
        | none => rw [hr] at hxy; cases hxy
        | some r =>
          rw [hr] at hxy
          exact ih r.2.1 y (hx.step hr) hxy
    have hwf := hcalls calls c0 c hwf0 hrun
    have hl := (Cache.new_linesFrom32 hv hnew).run_lines calls c0 c h32 hrun
    obtain ⟨A, hA, e1, e2⟩ := hl s set i vb hs hb hvalid
    have hb1 := hwf.blockSize_pos
    have hb2 := hwf.blockSize_lt
    have hn1 := hwf.numSets_pos
    have hn2 := hwf.numSets_lt
    obtain ⟨_, _, _, r4, r5, _, r7, _, _⟩ :=
      c.victimAddress_round_trip hb1 hb2 hn1 hn2 A hA vb e2.symm
    rw [e1] at r4 r5 r7
    refine ⟨r4, r5, ?_⟩
    intro n hn
    rw [hn, hwf.toU32_blockSize]
    exact r7

theorem victim_address_round_trip_witness :
    ValidLevel 16 2 4 ∧ Cache.new 16 2 4 = some freshCache ∧
    (∀ x ∈ sampleCalls, x.address < 4294967296) ∧
    freshCache.run sampleCalls = some sampleCacheRun ∧
    ((∀ (c1 : Cache) (A : Nat) (vb : CacheBlock), 1 ≤ c1.blockSize →
      c1.blockSize < 2147483648 → 1 ≤ c1.numSets → c1.numSets < 2147483648 →
      A < 4294967296 → vb.tag = c1.tagOf A →
      c1.setIndexOf A = (A / c1.blockSize.toNat) % c1.numSets.toNat ∧
      c1.tagOf A = (A / c1.blockSize.toNat) / c1.numSets.toNat ∧
      vb.tag * c1.numSets.toNat + c1.setIndexOf A = A / c1.blockSize.toNat ∧
      (vb.tag * c1.numSets.toNat + c1.setIndexOf A) * c1.blockSize.toNat < 4294967296 ∧
      c1.victimAddress vb (c1.setIndexOf A)
        = (vb.tag * c1.numSets.toNat + c1.setIndexOf A) * c1.blockSize.toNat ∧
      c1.victimAddress vb (c1.setIndexOf A) = A - A % c1.blockSize.toNat ∧
      c1.victimAddress vb (c1.setIndexOf A) / c1.blockSize.toNat
        = vb.tag * c1.numSets.toNat + c1.setIndexOf A ∧
      c1.setIndexOf (c1.victimAddress vb (c1.setIndexOf A)) = c1.setIndexOf A ∧
      c1.tagOf (c1.victimAddress vb (c1.setIndexOf A)) = vb.tag) ∧
    (∀ (s : Nat) (set : CacheSet) (i : Nat) (vb : CacheBlock),
      sampleCacheRun.sets[s]? = some set →
      set.blocks[i]? = some vb → vb.valid = true →
      (vb.tag * sampleCacheRun.numSets.toNat + s) * sampleCacheRun.blockSize.toNat
        < 4294967296 ∧
      sampleCacheRun.victimAddress vb s
        = (vb.tag * sampleCacheRun.numSets.toNat + s) * sampleCacheRun.blockSize.toNat ∧
      ∀ (n : Cache), n.blockSize = sampleCacheRun.blockSize →
        sampleCacheRun.victimAddress vb s / toU32 n.blockSize
          = vb.tag * sampleCacheRun.numSets.toNat + s)) :=
  ⟨by decide, by decide, by decide, by decide,
    victim_address_round_trip 16 2 4 (by decide) freshCache (by decide) sampleCalls
      (by decide) sampleCacheRun (by decide)⟩

/-! ### Construction without validation -/

/-- C17, counterexample. The constructor succeeds, without any error, for capacity 10 with
associativity 1 and block size 4 (10 is not a multiple of 4; the set count is truncated
to 2), for capacity 2 (set count 0, no sets), and for capacity -16 with block size -4 (set
count 4); `MemoryHierarchy` construction with L1 capacity 10 succeeds as well. -/
theorem construction_accepts_bad_config :
    ¬ ((1 * 4 : Int) ∣ 10) ∧
    Cache.new 10 1 4 = some
      { size := 10, associativity := 1, blockSize := 4, numSets := 2,
        sets := [⟨[⟨false, false, 0⟩], [0]⟩, ⟨[⟨false, false, 0⟩], [0]⟩] } ∧
    Cache.new 2 1 4 = some
      { size := 2, associativity := 1, blockSize := 4, numSets := 0, sets := [] } ∧
    Cache.new (-16) 1 (-4) = some
      { size := -16, associativity := 1, blockSize := -4, numSets := 4,
        sets := List.replicate 4 coldSet } ∧
    (MemoryHierarchy.new 10 1 0 1 4).isSome = true := by
  decide

theorem Cache.new_numSets {size associativity blockSize : Int} {c : Cache}
    (hc : Cache.new size associativity blockSize = some c) :
    c.size = size ∧ c.associativity = associativity ∧ c.blockSize = blockSize ∧
    c.numSets = Int.tdiv size (associativity * blockSize) ∧
    c.sets = List.replicate c.numSets.toNat
      ⟨List.replicate associativity.toNat CacheBlock.empty, List.range associativity.toNat⟩ := by
  unfold Cache.new at hc
  split at hc
  · cases hc
  · split at hc
    · cases hc
    · simp only at hc
      split at hc
      · cases hc
      · split at hc
        · cases hc
        · split at hc
          · cases hc
          · simp only [Option.some.injEq] at hc
            rw [← hc]
            exact ⟨rfl, rfl, rfl, rfl, rfl⟩

theorem MemoryHierarchy.new_eq_none_iff
    (l1Size l1Associativity l2Size l2Associativity blockSize : Int) :
    MemoryHierarchy.new l1Size l1Associativity l2Size l2Associativity blockSize = none ↔
      Cache.new l1Size l1Associativity blockSize = none ∨
      (0 < l2Size ∧ Cache.new l2Size l2Associativity blockSize = none) := by
  unfold MemoryHierarchy.new
  cases h1 : Cache.new l1Size l1Associativity blockSize with
  | none => simp
  | some l1 =>
    simp only
    by_cases hpos : l2Size > 0
    · rw [if_pos hpos]
      cases h2 : Cache.new l2Size l2Associativity blockSize with
      | none => simp [hpos]
      | some l2 => simp
    · rw [if_neg hpos]
      simp
      intro hp
      exact absurd hp hpos

/-- C17, amended. Construction validates nothing. The `Cache` constructor yields no cache
when associativity or block size is 0 (division by zero on line 26) and when associativity is
negative while the set count is not 0 (a vector resize with a negative count). For every
associativity `>= 1`, block size `>= 1` and capacity `>= 0` (32-bit `int` values whose
product `associativity * blockSize` is representable) it builds a cache with
`numSets = capacity / (associativity * blockSize)` rounded down and that many cold sets, also
when the capacity is not a multiple of `associativity * blockSize` or the set count is 0;
whenever it builds a cache, the set count is the truncated quotient. `MemoryHierarchy`
construction yields no hierarchy exactly when the L1 constructor yields no cache, or the
configured L2 size is positive and the L2 constructor yields no cache. -/
theorem construction_unvalidated (size associativity blockSize l2Size l2Associativity : Int) :
    ((associativity = 0 ∨ blockSize = 0) → Cache.new size associativity blockSize = none) ∧
    (associativity < 0 → Int.tdiv size (associativity * blockSize) ≠ 0 →
      Cache.new size associativity blockSize = none) ∧
    (1 ≤ associativity → 1 ≤ blockSize → 0 ≤ size → size < 2147483648 →
      associativity * blockSize < 2147483648 →
      Cache.new size associativity blockSize = some
        { size := size, associativity := associativity, blockSize := blockSize,
          numSets := size / (associativity * blockSize),
          sets := List.replicate (size / (associativity * blockSize)).toNat
            ⟨List.replicate associativity.toNat CacheBlock.empty,
              List.range associativity.toNat⟩ }) ∧
    (∀ c, Cache.new size associativity blockSize = some c →
      c.numSets = Int.tdiv size (associativity * blockSize)) ∧
    (MemoryHierarchy.new size associativity l2Size l2Associativity blockSize = none ↔
      Cache.new size associativity blockSize = none ∨
      (0 < l2Size ∧ Cache.new l2Size l2Associativity blockSize = none)) := by
  refine ⟨?_, ?_, ?_, ?_, MemoryHierarchy.new_eq_none_iff _ _ _ _ _⟩
  · intro hz
    have hprod : associativity * blockSize = 0 := by
      rcases hz with h | h <;> rw [h] <;> simp
    unfold Cache.new
    split
    · rfl
    · rfl
  · intro hneg hne
    cases hc : Cache.new size associativity blockSize with
    | none => rfl
    | some c =>
      exfalso
      unfold Cache.new at hc
      split at hc
      · cases hc
      · split at hc
        · cases hc
        · simp only at hc
          split at hc
          · cases hc
          · split at hc
            · cases hc
            · split at hc
              · cases hc
              · rename_i h4 h5
                apply h5
                constructor
                · omega
                · exact hneg
  · intro ha hb hs hs2 hp
    have hpos : 0 < associativity * blockSize := Int.mul_pos (by omega) (by omega)
    have he : Int.tdiv size (associativity * blockSize) = size / (associativity * blockSize) :=
      Int.tdiv_eq_ediv hs (Int.le_of_lt hpos)
    have hq0 : 0 ≤ size / (associativity * blockSize) := Int.ediv_nonneg hs (Int.le_of_lt hpos)
    have hq1 : size / (associativity * blockSize) ≤ size := Int.ediv_le_self _ hs
    unfold Cache.new
    have i1 : inInt32 (associativity * blockSize) := ⟨by omega, by omega⟩
    have i2 : inInt32 (Int.tdiv size (associativity * blockSize)) := by
      rw [he]; exact ⟨by omega, by omega⟩
    have i3 : ¬ (associativity * blockSize = 0) := by omega
    have i4 : ¬ (Int.tdiv size (associativity * blockSize) < 0) := by rw [he]; omega
    have i5 : ¬ (0 < Int.tdiv size (associativity * blockSize) ∧ associativity < 0) := by
      omega
    simp only [i1, i2, i3, i4, i5, not_true_eq_false, if_false]
    rw [he]
  · intro c hc
    exact (Cache.new_numSets hc).2.2.2.1

theorem construction_unvalidated_witness :
    Cache.new 16 0 4 = none ∧ Cache.new 16 (-1) 4 = none ∧
    Cache.new 10 1 4 = some
      { size := 10, associativity := 1, blockSize := 4,
        numSets := 10 / (1 * 4),
        sets := List.replicate ((10 : Int) / (1 * 4)).toNat
          ⟨List.replicate (1 : Int).toNat CacheBlock.empty, List.range (1 : Int).toNat⟩ } :=
  ⟨(construction_unvalidated 16 0 4 0 1).1 (Or.inl rfl),
   (construction_unvalidated 16 (-1) 4 0 1).2.1 (by decide) (by decide),
   (construction_unvalidated 10 1 4 0 1).2.2.1 (by decide) (by decide) (by decide) (by decide)
     (by decide)⟩

/-! ### Cold lines are filled first -/

theorem erase_take_of_mem (t : Nat) :
    ∀ (l : List Nat) (k : Nat), t ∈ l.take (k + 1) →
      (l.take (k + 1)).erase t = (l.erase t).take k := by
  intro l
  induction l with
  | nil => intro k h; simp at h
  | cons a l ih =>
    intro k h
    by_cases hat : a = t
    · subst hat
      simp
    · rw [List.take_succ_cons, List.erase_cons_tail (by simpa using hat),
        List.erase_cons_tail (by simpa using hat)]
      rw [List.take_succ_cons] at h
      have hmem : t ∈ l.take k := by
        rcases List.mem_cons.1 h with h1 | h1
        · exact absurd h1.symm hat
        · exact h1
      cases k with
      | zero => simp at hmem
      | succ k =>
        rw [ih k hmem, List.take_succ_cons]

theorem erase_take_of_not_mem (t : Nat) :
    ∀ (l : List Nat) (k : Nat), t ∉ l.take (k + 1) → (l.erase t).take k = l.take k := by
  intro l
  induction l with
  | nil => intro k _; simp
  | cons a l ih =>
    intro k h
    rw [List.take_succ_cons] at h
    have hat : a ≠ t := fun e => h (by rw [e]; exact List.mem_cons_self _ _)
    have hmem : t ∉ l.take k := fun e => h (List.mem_cons_of_mem _ e)
    rw [List.erase_cons_tail (by simpa using hat)]
    cases k with
    | zero => simp
    | succ k => rw [List.take_succ_cons, List.take_succ_cons, ih k hmem]

/-- One step of the reference LRU list on a truncated list: truncating after the step gives
the same list as stepping the truncated list. -/
theorem refLRU_take (k : Nat) (hk : 1 ≤ k) (l : List Nat) (t : Nat) :
    refLRU k (l.take k) t = (t :: l.erase t).take k := by
  obtain ⟨k, rfl⟩ : ∃ k0, k = k0 + 1 := ⟨k - 1, by omega⟩
  rw [List.take_succ_cons]
  unfold refLRU
  by_cases hmem : t ∈ l.take (k + 1)
  · rw [if_pos hmem, erase_take_of_mem t l k hmem]
  · rw [if_neg hmem, erase_take_of_not_mem t l k hmem]
    by_cases hlen : (l.take (k + 1)).length < k + 1
    · rw [if_pos hlen]
      rw [List.length_take] at hlen
      have hl : l.length ≤ k := by omega
      rw [List.take_of_length_le (by omega), List.take_of_length_le hl]
    · rw [if_neg hlen]
      rw [List.length_take] at hlen
      have hl : k + 1 ≤ l.length := by omega
      rw [List.dropLast_eq_take, List.length_take, List.take_take]
      congr 2
      omega

/-- Appending an element to a list moves it to the end of the list of distinct elements. -/
theorem dedup_concat (t : Nat) :
    ∀ (l : List Nat), (l ++ [t]).dedup = l.dedup.erase t ++ [t] := by
  intro l
  induction l with
  | nil => simp
  | cons a l ih =>
    rw [List.cons_append]
    by_cases hat : a = t
    · subst hat
      rw [List.dedup_cons_of_mem (by simp), ih]
      by_cases ha : a ∈ l
      · rw [List.dedup_cons_of_mem ha]
      · rw [List.dedup_cons_of_not_mem ha, List.erase_cons_head,
          List.erase_of_not_mem (by simpa using ha)]
    · by_cases ha : a ∈ l
      · rw [List.dedup_cons_of_mem (by simp [ha]), List.dedup_cons_of_mem ha, ih]
      · rw [List.dedup_cons_of_not_mem (by simp [ha, hat]), List.dedup_cons_of_not_mem ha, ih,
          List.erase_cons_tail (by simpa using hat), List.cons_append]

theorem reverse_erase_of_nodup (t : Nat) (l : List Nat) (h : l.Nodup) :
    (l.erase t).reverse = l.reverse.erase t := by
  rw [h.erase_eq_filter, (List.nodup_reverse.2 h).erase_eq_filter, List.filter_reverse]

/-- Folding the reference LRU list over a sequence of tags, starting from the empty list,
leaves the `k` most recently accessed distinct tags, most recent first. -/
theorem foldl_refLRU (k : Nat) (hk : 1 ≤ k) :
    ∀ (tags : List Nat), List.foldl (refLRU k) [] tags = tags.dedup.reverse.take k := by
  intro tags
  induction tags using List.reverseRecOn with
  | nil => simp
  | append_singleton l t ih =>
    rw [List.foldl_append, List.foldl_cons, List.foldl_nil, ih, refLRU_take k hk,
      dedup_concat, List.reverse_append, List.reverse_singleton, List.singleton_append,
      reverse_erase_of_nodup t _ (List.nodup_dedup l)]

/-- The reference cache keeps, for each set, the fold of the reference LRU list over the tags
accessed in that set. -/
theorem refRun_eq_foldl (k numSets blockSize : Nat) :
    ∀ (addresses : List Nat) (ref : Nat → List Nat) (s : Nat),
      refRun k numSets blockSize ref addresses s
        = List.foldl (refLRU k) (ref s) (tagsInSet numSets blockSize addresses s) := by
  intro addresses
  induction addresses with
  | nil => intro ref s; rfl
  | cons a rest ih =>
    intro ref s
    rw [refRun, ih]
    unfold tagsInSet refAccess
    by_cases hs : s = (a / blockSize) % numSets
    · subst hs
      simp
    · have hs1 : ¬ ((a / blockSize) % numSets = s) := fun e => hs e.symm
      simp [hs, hs1]

theorem pairwise_getLast {R : Nat → Nat → Prop} :
    ∀ (l : List Nat) (v i : Nat), l.Pairwise R → l.getLast? = some v → i ∈ l →
      i = v ∨ R i v := by
  intro l v i hp hl hi
  obtain ⟨init, rfl⟩ : ∃ init, l = init ++ [v] := by
    rcases List.eq_nil_or_concat l with h | ⟨init, x, h⟩
    · subst h; simp at hl
    · subst h
      rw [List.concat_eq_append, List.getLast?_append, List.getLast?_singleton] at hl
      simp at hl
      subst hl
      exact ⟨init, by simp⟩
  rcases List.mem_append.1 hi with h | h
  · right
    exact (List.pairwise_append.1 hp).2.2 i h v (by simp)
  · left
    simpa using h

/-- When the line at the tail of `lruOrder` is valid, every line of the set is valid. -/
theorem SetInv.all_valid_of_last {k : Nat} {s : CacheSet} (h : SetInv k s) {v : Nat}
    (hv : s.lruOrder.getLast? = some v) (hvalid : s.validAt v = true) :
    ∀ b ∈ s.blocks, b.valid = true := by
  intro b hb
  obtain ⟨i, hi⟩ := List.mem_iff_getElem?.1 hb
  have hik : i < k := by
    have := (List.getElem?_eq_some_iff.1 hi).1
    rw [h.len] at this
    exact this
  have hmem : i ∈ s.lruOrder := (h.mem_lru i).2 hik
  have hiv : s.validAt i = true := by
    rcases pairwise_getLast s.lruOrder v i h.validFirst hv hmem with e | e
    · rw [e]; exact hvalid
    · exact e hvalid
  unfold CacheSet.validAt at hiv
  rw [hi] at hiv
  exact hiv

/-- A valid line is still valid after any sequence of calls. -/
theorem Cache.WF.run_valid_mono :
    ∀ (calls : List Call) (c c1 : Cache), c.WF → c.run calls = some c1 →
      ∀ (s : Nat) (set : CacheSet) (j : Nat), c.sets[s]? = some set → set.validAt j = true →
        ∃ set1, c1.sets[s]? = some set1 ∧ set1.validAt j = true := by
  intro calls
  induction calls with
  | nil =>
    intro c c1 _ hrun s set j hs hj
    simp only [Cache.run, Option.some.injEq] at hrun
    subst hrun
    exact ⟨set, hs, hj⟩
  | cons x rest ih =>
    intro c c1 hwf hrun s set j hs hj
    unfold Cache.run at hrun
    cases hr : c.access x.l2Size x.address x.isWrite x.nextLevel x.counters with
    | none => rw [hr] at hrun; cases hrun
    | some r =>
      rw [hr] at hrun
      simp only at hrun
      obtain ⟨set0, set1, i, h0, h1, _, _, _, hvi, hvne, hother, _⟩ := hwf.access_touched hr
      have hstep : ∃ set2, r.2.1.sets[s]? = some set2 ∧ set2.validAt j = true := by
        by_cases hss : s = c.setIndexOf x.address
        · subst hss
          rw [h0] at hs
          cases hs
          refine ⟨set1, h1, ?_⟩
          by_cases hji : j = i
          · rw [hji]; exact hvi
          · rw [hvne j hji]; exact hj
        · exact ⟨set, by rw [hother s hss]; exact hs, hj⟩
      obtain ⟨set2, hs2, hj2⟩ := hstep
      exact ih r.2.1 c1 (hwf.step hr) hrun s set2 j hs2 hj2

theorem Cache.run_concat :
    ∀ (calls : List Call) (c c1 : Cache) (x : Call)
      (r : Bool × Cache × Option Cache × Counters),
      c.run calls = some c1 →
      c1.access x.l2Size x.address x.isWrite x.nextLevel x.counters = some r →
      c.run (calls ++ [x]) = some r.2.1 := by
  intro calls
  induction calls with
  | nil =>
    intro c c1 x r hrun hr
    simp only [Cache.run, Option.some.injEq] at hrun
    subst hrun
    simp only [List.nil_append, Cache.run, hr]
  | cons y rest ih =>
    intro c c1 x r hrun hr
    rw [List.cons_append]
    unfold Cache.run at hrun ⊢
    cases hy : c.access y.l2Size y.address y.isWrite y.nextLevel y.counters with
    | none => rw [hy] at hrun; cases hrun
    | some r0 =>
      rw [hy] at hrun
      simp only at hrun ⊢
      exact ih r0.2.1 c1 x r hrun hr

/-- Every reachable cache state is the result of running a call sequence from a cache built
by the constructor for a valid configuration. -/
theorem Cache.Reachable.exists_run {c : Cache} (h : c.Reachable) :
    ∃ (size associativity blockSize : Int) (c0 : Cache) (calls : List Call),
      ValidLevel size associativity blockSize ∧
      Cache.new size associativity blockSize = some c0 ∧ c0.run calls = some c := by
  induction h with
  | init size associativity blockSize c hv hnew =>
    exact ⟨size, associativity, blockSize, c, [], hv, hnew, rfl⟩
  | step l2Size c a w next k r _ hr ih =>
    obtain ⟨size, associativity, blockSize, c0, calls, hv, hnew, hrun⟩ := ih
    exact ⟨size, associativity, blockSize, c0, calls ++ [⟨l2Size, a, w, next, k⟩], hv, hnew,
      Cache.run_concat calls c0 c ⟨l2Size, a, w, next, k⟩ r hrun hr⟩

/-- A state reached by a call sequence from a reachable state is reachable. -/
theorem Cache.Reachable.run_reachable :
    ∀ {c : Cache} (_ : c.Reachable) (calls : List Call) (c1 : Cache),
      c.run calls = some c1 → c1.Reachable := by
  intro c h calls
  induction calls generalizing c with
  | nil =>
    intro c1 hrun
    simp only [Cache.run, Option.some.injEq] at hrun
    subst hrun
    exact h
  | cons x rest ih =>
    intro c1 hrun
    unfold Cache.run at hrun
    cases hr : c.access x.l2Size x.address x.isWrite x.nextLevel x.counters with
    | none => rw [hr] at hrun; cases hrun
    | some r =>
      rw [hr] at hrun
      simp only at hrun
      exact ih (Cache.Reachable.step _ _ _ _ _ _ r h hr) c1 hrun

/-- C19. Cold lines are filled before anything is evicted. In every cache state reachable
from the constructor by `Cache::access` calls: along each set's `lruOrder` no not-valid line
precedes a valid line; a line that is valid is still valid after any further sequence of
calls; a line that is not valid is not dirty; a miss overwrites the line at the tail of
`lruOrder`, and when that line is valid every line of the target set is valid; the state is
the result of some call sequence run from a constructed cache, and for every such sequence
each set holds, most recent first, the first `k` entries of the distinct tags accessed in it
ordered by their last access (`List.dedup` keeps the last occurrence of each tag), that is
the last `min k d` distinct tags, where `k` is the associativity and `d` the number of
distinct tags accessed in the set so far, and these are exactly the tags of its valid
lines. -/
theorem cold_lines_filled_first (c : Cache) (hc : c.Reachable) :
    (∀ set ∈ c.sets,
      set.lruOrder.Pairwise (fun i j => set.validAt j = true → set.validAt i = true)) ∧
    (∀ (calls : List Call) (c1 : Cache), c.run calls = some c1 →
      ∀ (s : Nat) (set : CacheSet) (j : Nat), c.sets[s]? = some set → set.validAt j = true →
        ∃ set1, c1.sets[s]? = some set1 ∧ set1.validAt j = true) ∧
    (∀ set ∈ c.sets, ∀ (i : Nat) (b : CacheBlock),
      set.blocks[i]? = some b → b.valid = false → b.dirty = false) ∧
    (∀ (l2Size : Int) (a : Nat) (w : Bool) (next : Option Cache) (k : Counters)
        (r : Bool × Cache × Option Cache × Counters),
      c.access l2Size a w next k = some r → r.1 = false →
      ∃ (set set1 : CacheSet) (v : Nat) (vb : CacheBlock),
        c.sets[(a / c.blockSize.toNat) % c.numSets.toNat]? = some set ∧
        r.2.1.sets[(a / c.blockSize.toNat) % c.numSets.toNat]? = some set1 ∧
        set.lruOrder.getLast? = some v ∧ set.blocks[v]? = some vb ∧
        set1.blocks = set.blocks.set v ⟨true, w, (a / c.blockSize.toNat) / c.numSets.toNat⟩ ∧
        (vb.valid = true → ∀ b ∈ set.blocks, b.valid = true)) ∧
    (∃ (size associativity blockSize : Int) (c0 : Cache) (calls : List Call),
      ValidLevel size associativity blockSize ∧
      Cache.new size associativity blockSize = some c0 ∧ c0.run calls = some c) ∧
    (∀ (size associativity blockSize : Int) (c0 : Cache) (calls : List Call),
      ValidLevel size associativity blockSize →
      Cache.new size associativity blockSize = some c0 → c0.run calls = some c →
      ∀ s, s < c.numSets.toNat →
        ∃ set, c.sets[s]? = some set ∧
          set.residentTags
            = ((tagsInSet c.numSets.toNat c.blockSize.toNat (calls.map Call.address)
                s).dedup.reverse).take c.associativity.toNat ∧
          set.residentTags.length
            = min c.associativity.toNat
                (tagsInSet c.numSets.toNat c.blockSize.toNat (calls.map Call.address)
                  s).dedup.length ∧
          ∀ t, (∃ b ∈ set.blocks, b.valid = true ∧ b.tag = t) ↔
            t ∈ ((tagsInSet c.numSets.toNat c.blockSize.toNat (calls.map Call.address)
                s).dedup.reverse).take c.associativity.toNat) := by
  have hwf := hc.wf
  refine ⟨fun set hs => (hwf.sets_inv set hs).validFirst,
    fun calls c1 hrun => Cache.WF.run_valid_mono calls c c1 hwf hrun,
    fun set hs => (hwf.sets_inv set hs).cleanInvalid, ?_, hc.exists_run, ?_⟩
  · intro l2Size a w next k r hr hmiss
    obtain ⟨set, set1, h0, h1, _, _, _, hm⟩ := hwf.access_refines hr
    obtain ⟨v, vb, hv, hvb, hblocks, _, _⟩ := hm hmiss
    rw [hwf.setIndexOf_eq] at h0 h1
    rw [hwf.tagOf_eq] at hblocks
    refine ⟨set, set1, v, vb, h0, h1, hv, hvb, hblocks, ?_⟩
    intro hvalid
    have hinv : SetInv c.associativity.toNat set :=
      hwf.sets_inv set (List.mem_iff_getElem?.2 ⟨_, h0⟩)
    apply hinv.all_valid_of_last hv
    unfold CacheSet.validAt
    rw [hvb]
    exact hvalid
  · intro size associativity blockSize c0 calls hv hnew hrun s hs
    have hwf0 : c0.WF := Cache.new_wf hv hnew
    obtain ⟨_, _, hempty, _⟩ := Cache.new_residentTags hv hnew
    obtain ⟨_, ha, hn, hb, hsets⟩ :=
      Cache.WF.run_refines calls c0 c (fun _ => []) hwf0 hempty hrun
    rw [hn] at hs
    obtain ⟨set, hset, htags⟩ := hsets s hs
    have hk : 1 ≤ c.associativity.toNat := by
      have := hwf.assoc_pos
      omega
    rw [refRun_eq_foldl, foldl_refLRU _ (by rw [← ha]; exact hk), ← ha, ← hn, ← hb] at htags
    refine ⟨set, hset, htags, ?_, ?_⟩
    · rw [htags, List.length_take, List.length_reverse]
    · intro t
      rw [← htags, mem_residentTags]
      have hinv : SetInv c.associativity.toNat set :=
        hwf.sets_inv set (List.mem_iff_getElem?.2 ⟨_, hset⟩)
      constructor
      · rintro ⟨b, hb, hval, htag⟩
        obtain ⟨i, hi⟩ := List.mem_iff_getElem?.1 hb
        have hik : i < c.associativity.toNat := by
          have := (List.getElem?_eq_some_iff.1 hi).1
          rw [hinv.len] at this
          exact this
        exact ⟨i, (hinv.mem_lru i).2 hik, b, hi, hval, htag⟩
      · rintro ⟨i, _, b, hi, hval, htag⟩
        exact ⟨b, List.mem_iff_getElem?.2 ⟨_, hi⟩, hval, htag⟩

theorem cold_lines_filled_first_witness :
    sampleCacheRepeat.Reachable ∧
    ValidLevel 16 2 4 ∧ Cache.new 16 2 4 = some freshCache ∧
    freshCache.run sampleCallsRepeat = some sampleCacheRepeat ∧
    tagsInSet 2 4 (sampleCallsRepeat.map Call.address) 0 = [0, 1, 0, 2] ∧
    (∃ set, sampleCacheRepeat.sets[0]? = some set ∧
      set.residentTags = [2, 0] ∧ set.residentTags.length = 2 ∧
      ∀ t, (∃ b ∈ set.blocks, b.valid = true ∧ b.tag = t) ↔ t ∈ [2, 0]) := by
  have hrun : freshCache.run sampleCallsRepeat = some sampleCacheRepeat := by decide
  have hreach : sampleCacheRepeat.Reachable :=
    freshCache_reachable.run_reachable sampleCallsRepeat sampleCacheRepeat hrun
  refine ⟨hreach, by decide, by decide, hrun, by decide, ?_⟩
  have h := (cold_lines_filled_first sampleCacheRepeat hreach).2.2.2.2.2 16 2 4 freshCache
    sampleCallsRepeat (by decide) (by decide) hrun 0 (by decide)
  have e : ((tagsInSet sampleCacheRepeat.numSets.toNat sampleCacheRepeat.blockSize.toNat
      (sampleCallsRepeat.map Call.address) 0).dedup.reverse).take
        sampleCacheRepeat.associativity.toNat = [2, 0] := by decide
  have e2 : min sampleCacheRepeat.associativity.toNat
      (tagsInSet sampleCacheRepeat.numSets.toNat sampleCacheRepeat.blockSize.toNat
        (sampleCallsRepeat.map Call.address) 0).dedup.length = 2 := by decide
  rw [e, e2] at h
  exact h

end CacheSim
